import Mathlib

/-!
# Verification of the u-index minimizer-space substring index

A shallow embedding, over `List Nat`, of the core of the `u-index` crate:

* byte-level three-way comparison of slices (Rust `[u8]::cmp`),
* the minimizer sketcher (`sketchers/minimizers.rs`): enumeration of
  window minimizers, remapping to dense ids, big-endian encoding,
  position inversion,
* the minimizer-space suffix array (`indices/suffix_array.rs`): the
  LCP-reusing ternary binary search `sa_search` transcribed from
  libdivsufsort, and its `query`,
* the `UIndex::query` pipeline (`u_index.rs`): sketch, search, invert,
  verify, range-check,
* the sparse suffix array and `SIndex::query` (`s_index.rs`),
* the suffix-array builders (`indices/sa_libsais.rs`,
  `indices/sa_divsufsort.rs`), abstracting the external SA construction
  as a parameter and keeping the in-crate scaling / filtering.

Machine integers (`usize`, `i32`) are modelled as `Nat`; all arithmetic
in the modelled code paths stays far below any overflow boundary, and
index accesses are modelled with `getD` / `get?` at places where the
Rust code would panic out of bounds.
-/

namespace UIndexModel

set_option maxHeartbeats 1000000
set_option maxRecDepth 16384

/-! ## Byte-level lexicographic comparison (Rust `[u8]::cmp`) -/

/-- Three-way lexicographic comparison of byte lists, as Rust's `cmp` on
`&[u8]` slices: a proper prefix is `lt`. -/
def cmpL : List Nat → List Nat → Ordering
  | [], [] => .eq
  | [], _ :: _ => .lt
  | _ :: _, [] => .gt
  | a :: as_, b :: bs => if a < b then .lt else if b < a then .gt else cmpL as_ bs

/-- Pattern-style comparison of a text suffix `s` against a pattern `p`:
`eq` exactly when `p` is a prefix of `s` (also when `p` runs out first),
`lt` when `s` is smaller or runs out first.  This is the semantics of the
comparison loop of `SuffixArray::compare`, which stops as soon as the
pattern is exhausted and turns a text-exhausted `eq` into `lt`. -/
def pOrd : List Nat → List Nat → Ordering
  | _, [] => .eq
  | [], _ :: _ => .lt
  | a :: as_, b :: bs => if a < b then .lt else if b < a then .gt else pOrd as_ bs

/-- Length of the longest common prefix of a suffix and a pattern, capped
at the length of either list: the number of positions the comparison loop
of `SuffixArray::compare` traverses before stopping. -/
def pLcp : List Nat → List Nat → Nat
  | _, [] => 0
  | [], _ :: _ => 0
  | a :: as_, b :: bs => if a = b then pLcp as_ bs + 1 else 0

/-- Numeric rank of an `Ordering`, with `lt < eq < gt`. -/
def ordRank : Ordering → Nat
  | .lt => 0
  | .eq => 1
  | .gt => 2

theorem cmpL_self (l : List Nat) : cmpL l l = .eq := by
  induction l with
  | nil => rfl
  | cons a t ih => simp [cmpL, ih]

theorem cmpL_eq_iff (l m : List Nat) : cmpL l m = .eq ↔ l = m := by
  induction l generalizing m with
  | nil => cases m <;> simp [cmpL]
  | cons a t ih =>
    cases m with
    | nil => simp [cmpL]
    | cons b s =>
      by_cases hab : a < b
      · simp [cmpL, hab]
        intro h; omega
      · by_cases hba : b < a
        · simp [cmpL, hab, hba]
          intro h; omega
        · have : a = b := by omega
          simp [cmpL, hab, hba, this, ih]

theorem cmpL_swap (l m : List Nat) : cmpL m l = (cmpL l m).swap := by
  induction l generalizing m with
  | nil => cases m <;> simp [cmpL, Ordering.swap]
  | cons a t ih =>
    cases m with
    | nil => simp [cmpL, Ordering.swap]
    | cons b s =>
      by_cases hab : a < b
      · have : ¬ b < a := by omega
        simp [cmpL, hab, this, Ordering.swap]
      · by_cases hba : b < a
        · simp [cmpL, hab, hba, Ordering.swap]
        · simp [cmpL, hab, hba, ih]

theorem cmpL_lt_trans {l m r : List Nat} (h₁ : cmpL l m = .lt) (h₂ : cmpL m r = .lt) :
    cmpL l r = .lt := by
  induction l generalizing m r with
  | nil =>
    cases r with
    | nil =>
      cases m with
      | nil => exact absurd h₁ (by simp [cmpL])
      | cons b s => exact absurd h₂ (by simp [cmpL])
    | cons c u => simp [cmpL]
  | cons a t ih =>
    cases m with
    | nil => exact absurd h₁ (by simp [cmpL])
    | cons b s =>
      cases r with
      | nil => exact absurd h₂ (by simp [cmpL])
      | cons c u =>
        by_cases hab : a < b <;> by_cases hbc : b < c
        · have hac : a < c := by omega
          simp [cmpL, hac]
        · by_cases hcb : c < b
          · simp [cmpL, hbc, hcb] at h₂
          · have hbc' : b = c := by omega
            subst hbc'
            simp [cmpL, hab]
        · have hac : a < c := by
            by_cases hba : b < a
            · simp [cmpL, hab, hba] at h₁
            · omega
          simp [cmpL, hac]
        · by_cases hba : b < a
          · simp [cmpL, hab, hba] at h₁
          · by_cases hcb : c < b
            · simp [cmpL, hbc, hcb] at h₂
            · have hab' : a = b := by omega
              have hbc' : b = c := by omega
              subst hab'; subst hbc'
              simp [cmpL, hab] at h₁ h₂ ⊢
              exact ih h₁ h₂

theorem cmpL_ne_gt_trans {l m r : List Nat} (h₁ : cmpL l m ≠ .gt) (h₂ : cmpL m r ≠ .gt) :
    cmpL l r ≠ .gt := by
  induction l generalizing m r with
  | nil => cases r <;> simp [cmpL]
  | cons a t ih =>
    cases m with
    | nil => cases t <;> simp [cmpL] at h₁
    | cons b s =>
      cases r with
      | nil => cases s <;> simp [cmpL] at h₂
      | cons c u =>
        by_cases hab : a < b
        · by_cases hbc : b < c
          · have : a < c := by omega
            simp [cmpL, this]
          · by_cases hcb : c < b
            · simp [cmpL, hbc, hcb] at h₂
            · have : b = c := by omega
              subst this
              simp [cmpL, hab]
        · by_cases hba : b < a
          · simp [cmpL, hab, hba] at h₁
          · have hab' : a = b := by omega
            subst hab'
            by_cases hac : a < c
            · simp [cmpL, hac]
            · by_cases hca : c < a
              · simp [cmpL, hac, hca] at h₂
              · have : a = c := by omega
                subst this
                simp [cmpL, hac] at h₁ h₂ ⊢
                exact ih h₁ h₂

/-- `eq` for the pattern comparison means exactly: the pattern is a prefix
of the suffix. -/
theorem pOrd_eq_iff_isPre (s p : List Nat) : pOrd s p = .eq ↔ p <+: s := by
  induction s generalizing p with
  | nil =>
    cases p with
    | nil => simp [pOrd]
    | cons b bs => simp [pOrd]
  | cons a as_ ih =>
    cases p with
    | nil => simp [pOrd]
    | cons b bs =>
      by_cases hab : a < b
      · simp [pOrd, hab, List.cons_prefix_cons]
        intro h; omega
      · by_cases hba : b < a
        · simp [pOrd, hab, hba, List.cons_prefix_cons]
          intro h; omega
        · have : b = a := by omega
          subst this
          simp [pOrd, hab, hba, List.cons_prefix_cons, ih]

/-- Monotonicity of the pattern comparison in the suffix argument. -/
theorem pOrd_mono {s t : List Nat} (p : List Nat) (h : cmpL s t ≠ .gt) :
    ordRank (pOrd s p) ≤ ordRank (pOrd t p) := by
  induction s generalizing t p with
  | nil =>
    cases p with
    | nil => simp [pOrd]
    | cons b bs =>
      simp [pOrd, ordRank]
  | cons a as_ ih =>
    cases t with
    | nil => simp [cmpL] at h
    | cons c cs =>
      cases p with
      | nil => simp [pOrd]
      | cons b bs =>
        by_cases hab : a < b
        · simp [pOrd, hab, ordRank]
        · by_cases hba : b < a
          · -- suffix s is greater than the pattern here
            have hac : ¬ c < a := by
              intro hca
              simp [cmpL, show ¬ a < c by omega, hca] at h
            have hbc : b < c := by omega
            simp [pOrd, hab, hba, show ¬ c < b by omega, hbc, ordRank]
          · have hab' : a = b := by omega
            subst hab'
            have hac : ¬ c < a := by
              intro hca
              simp [cmpL, show ¬ a < c by omega, hca] at h
            by_cases hbc : a < c
            · simp only [pOrd, hab, hba, hbc, show ¬ c < a by omega, if_false, if_true, ordRank]
              cases pOrd as_ bs <;> simp
            · have : a = c := by omega
              subst this
              simp [cmpL, hab] at h
              simp [pOrd, hab]
              exact ih bs h

/-- The flank-LCP lemma: between two suffixes the LCP with the pattern is
at least the smaller of the flanks' LCPs. -/
theorem pLcp_between {s t u : List Nat} (p : List Nat)
    (h₁ : cmpL s t ≠ .gt) (h₂ : cmpL t u ≠ .gt) :
    min (pLcp s p) (pLcp u p) ≤ pLcp t p := by
  induction p generalizing s t u with
  | nil => simp [pLcp]
  | cons b bs ih =>
    cases s with
    | nil => simp [pLcp]
    | cons a as_ =>
      cases u with
      | nil => simp [pLcp]
      | cons c cs =>
        cases t with
        | nil => cases as_ <;> simp [cmpL] at h₁
        | cons d ds =>
          by_cases hab : a = b
          · by_cases hcb : c = b
            · -- a = c = b; d is squeezed in between
              have had : ¬ d < a := by
                intro hda
                simp [cmpL, show ¬ a < d by omega, hda] at h₁
              have hdc : ¬ d > a := by
                intro hda
                have hdc' : c < d := by omega
                simp [cmpL, show ¬ d < c by omega, hdc'] at h₂
              have hda : d = a := by omega
              subst hda; subst hab; subst hcb
              simp [cmpL] at h₁ h₂
              simp [pLcp]
              have := ih h₁ h₂
              omega
            · simp [pLcp, hcb]
          · simp [pLcp, hab]

/-- Restarting the comparison after `m` already-matched positions yields the
same ordering. -/
theorem pOrd_drop {s p : List Nat} {m : Nat} (h : m ≤ pLcp s p) :
    pOrd (s.drop m) (p.drop m) = pOrd s p := by
  induction m generalizing s p with
  | zero => simp
  | succ m ih =>
    cases s with
    | nil => cases p <;> simp [pLcp] at h
    | cons a as_ =>
      cases p with
      | nil => simp [pLcp] at h
      | cons b bs =>
        by_cases hab : a = b
        · subst hab
          simp [pLcp] at h
          simp [pOrd, ih (by omega : m ≤ pLcp as_ bs)]
        · simp [pLcp, hab] at h

/-- Restarting the comparison after `m` already-matched positions finds the
remaining LCP. -/
theorem pLcp_drop {s p : List Nat} {m : Nat} (h : m ≤ pLcp s p) :
    pLcp (s.drop m) (p.drop m) + m = pLcp s p := by
  induction m generalizing s p with
  | zero => simp
  | succ m ih =>
    cases s with
    | nil => cases p <;> simp [pLcp] at h
    | cons a as_ =>
      cases p with
      | nil => simp [pLcp] at h
      | cons b bs =>
        by_cases hab : a = b
        · subst hab
          simp [pLcp] at h ⊢
          have := ih (s := as_) (p := bs) (by omega : m ≤ pLcp as_ bs)
          omega
        · simp [pLcp, hab] at h

theorem pLcp_le_right (s p : List Nat) : pLcp s p ≤ p.length := by
  induction s generalizing p with
  | nil => cases p <;> simp [pLcp]
  | cons a as_ ih =>
    cases p with
    | nil => simp [pLcp]
    | cons b bs =>
      by_cases hab : a = b <;> simp [pLcp, hab]
      exact ih bs

theorem pLcp_le_left (s p : List Nat) : pLcp s p ≤ s.length := by
  induction s generalizing p with
  | nil => cases p <;> simp [pLcp]
  | cons a as_ ih =>
    cases p with
    | nil => simp [pLcp]
    | cons b bs =>
      by_cases hab : a = b <;> simp [pLcp, hab]
      exact ih bs

/-- When the pattern is a prefix of the suffix, the LCP is the whole pattern. -/
theorem pLcp_of_eq {s p : List Nat} (h : pOrd s p = .eq) : pLcp s p = p.length := by
  induction s generalizing p with
  | nil =>
    cases p with
    | nil => simp [pLcp]
    | cons b bs => simp [pOrd] at h
  | cons a as_ ih =>
    cases p with
    | nil => simp [pLcp]
    | cons b bs =>
      by_cases hab : a < b
      · simp [pOrd, hab] at h
      · by_cases hba : b < a
        · simp [pOrd, hab, hba] at h
        · have : a = b := by omega
          subst this
          simp [pOrd, hab] at h
          simp [pLcp, ih h]

/-! ## Big-endian blocks and the block view of the MS string -/

/-- Value of a big-endian byte string. -/
def beVal (l : List Nat) : Nat := l.foldl (fun acc b => 256 * acc + b) 0

theorem beVal_foldl (t : List Nat) : ∀ acc : Nat,
    t.foldl (fun acc b => 256 * acc + b) acc
      = acc * 256 ^ t.length + t.foldl (fun acc b => 256 * acc + b) 0 := by
  induction t with
  | nil => intro acc; simp
  | cons a t ih =>
    intro acc
    simp only [List.foldl_cons, List.length_cons]
    rw [ih (256 * acc + a), ih (256 * 0 + a)]
    ring

theorem beVal_cons (a : Nat) (t : List Nat) :
    beVal (a :: t) = a * 256 ^ t.length + beVal t := by
  show (a :: t).foldl (fun acc b => 256 * acc + b) 0 = _
  simp only [List.foldl_cons]
  rw [beVal_foldl t (256 * 0 + a)]
  show _ = a * 256 ^ t.length + t.foldl (fun acc b => 256 * acc + b) 0
  ring

theorem beVal_lt_pow {l : List Nat} (h : ∀ b ∈ l, b < 256) :
    beVal l < 256 ^ l.length := by
  induction l with
  | nil => simp [beVal]
  | cons a t ih =>
    have ha : a < 256 := h a (by simp)
    have ht := ih (fun b hb => h b (by simp [hb]))
    rw [beVal_cons]
    calc a * 256 ^ t.length + beVal t < a * 256 ^ t.length + 256 ^ t.length := by omega
      _ = (a + 1) * 256 ^ t.length := by ring
      _ ≤ 256 * 256 ^ t.length := by
          exact Nat.mul_le_mul_right _ (by omega)
      _ = 256 ^ (a :: t).length := by
          simp [List.length_cons, pow_succ]; ring

/-- Byte comparison of equal-width big-endian blocks is comparison of their
values. -/
theorem cmpL_beVal {x y : List Nat} (hlen : x.length = y.length)
    (hx : ∀ b ∈ x, b < 256) (hy : ∀ b ∈ y, b < 256) :
    cmpL x y = if beVal x < beVal y then .lt else if beVal y < beVal x then .gt else .eq := by
  induction x generalizing y with
  | nil =>
    cases y with
    | nil => simp [cmpL, beVal]
    | cons b s => simp at hlen
  | cons a t ih =>
    cases y with
    | nil => simp at hlen
    | cons b s =>
      have hlen' : t.length = s.length := by simpa using hlen
      have hxv := beVal_lt_pow (l := t) (fun b hb => hx b (by simp [hb]))
      have hyv := beVal_lt_pow (l := s) (fun c hc => hy c (by simp [hc]))
      rw [hlen'] at hxv
      have hbx : beVal (a :: t) = a * 256 ^ s.length + beVal t := by
        rw [beVal_cons, hlen']
      have hby : beVal (b :: s) = b * 256 ^ s.length + beVal s := beVal_cons b s
      rw [hbx, hby]
      by_cases hab : a < b
      · have hlt : a * 256 ^ s.length + beVal t < b * 256 ^ s.length + beVal s := by
          calc a * 256 ^ s.length + beVal t < a * 256 ^ s.length + 256 ^ s.length := by omega
            _ = (a + 1) * 256 ^ s.length := by ring
            _ ≤ b * 256 ^ s.length := Nat.mul_le_mul_right _ (by omega)
            _ ≤ b * 256 ^ s.length + beVal s := by omega
        simp [cmpL, hab, hlt]
      · by_cases hba : b < a
        · have hgt : b * 256 ^ s.length + beVal s < a * 256 ^ s.length + beVal t := by
            calc b * 256 ^ s.length + beVal s < b * 256 ^ s.length + 256 ^ s.length := by omega
              _ = (b + 1) * 256 ^ s.length := by ring
              _ ≤ a * 256 ^ s.length := Nat.mul_le_mul_right _ (by omega)
              _ ≤ a * 256 ^ s.length + beVal t := by omega
          simp [cmpL, hab, hba, show ¬ (a * 256 ^ s.length + beVal t < b * 256 ^ s.length + beVal s) by omega, hgt]
        · have hab' : a = b := by omega
          subst hab'
          have hcmp : cmpL (a :: t) (a :: s) = cmpL t s := by
            simp [cmpL]
          rw [hcmp, ih hlen' (fun b hb => hx b (by simp [hb])) (fun c hc => hy c (by simp [hc]))]
          simp only [Nat.add_lt_add_iff_left]

/-- The sequence of `w`-byte big-endian block values of a byte string
(the "minimizer ids" of an encoded MS string). -/
def unitsAt (w : Nat) (l : List Nat) : List Nat :=
  (List.range (l.length / w)).map (fun t => beVal ((l.drop (w * t)).take w))

theorem unitsAt_length (w : Nat) (l : List Nat) :
    (unitsAt w l).length = l.length / w := by
  simp [unitsAt]

theorem unitsAt_nil (w : Nat) : unitsAt w [] = [] := by
  simp [unitsAt]

theorem unitsAt_eq_nil_of_short {w : Nat} {l : List Nat} (h : l.length < w) :
    unitsAt w l = [] := by
  have : l.length / w = 0 := Nat.div_eq_of_lt h
  simp [unitsAt, this]

theorem unitsAt_cons {w : Nat} (hw : 0 < w) {l : List Nat} (h : w ≤ l.length) :
    unitsAt w l = beVal (l.take w) :: unitsAt w (l.drop w) := by
  have hlen : (l.drop w).length = l.length - w := by simp
  have hdiv : l.length / w = (l.length - w) / w + 1 := by
    have h1 : (l.length - w * 1) / w = l.length / w - 1 :=
      Nat.sub_mul_div l.length w 1 (by simpa using h)
    have h1' : (l.length - w) / w = l.length / w - 1 := by simpa using h1
    have h2 : 1 ≤ l.length / w := (Nat.one_le_div_iff hw).mpr h
    omega
  rw [unitsAt, hdiv, List.range_succ_eq_map]
  simp only [List.map_cons, List.map_map, Nat.mul_zero, List.drop_zero]
  congr 1
  rw [unitsAt, hlen]
  apply List.map_congr_left
  intro t _
  simp only [Function.comp_apply, List.drop_drop]
  congr 3
  simp only [Nat.mul_succ]
  omega

theorem unitsAt_drop {w : Nat} (hw : 0 < w) (q : Nat) (l : List Nat) :
    unitsAt w (l.drop (w * q)) = (unitsAt w l).drop q := by
  induction q generalizing l with
  | zero => simp
  | succ q ih =>
    by_cases hl : w ≤ l.length
    · have hstep : unitsAt w (l.drop w) = (unitsAt w l).drop 1 := by
        rw [unitsAt_cons hw hl]
        simp
      have h1 : l.drop (w * (q + 1)) = (l.drop w).drop (w * q) := by
        rw [List.drop_drop]
        congr 1
        simp only [Nat.mul_succ]
        omega
      rw [h1, ih, hstep, List.drop_drop]
      congr 1
      omega
    · have h2 : (l.drop (w * (q + 1))).length < w := by
        have := List.length_drop (w * (q + 1)) l
        omega
      have h3 : (unitsAt w l).length = 0 := by
        have : l.length / w = 0 := Nat.div_eq_of_lt (by omega)
        simp [unitsAt_length, this]
      rw [unitsAt_eq_nil_of_short h2, List.drop_eq_nil_of_le (by omega)]

/-- Raw result of the block-comparison loop of `SuffixArray::compare`
before the final prefix adjustment: reaching the end of either side
counts as `eq`. -/
def rawOrdU : List Nat → List Nat → Ordering
  | _, [] => .eq
  | [], _ :: _ => .eq
  | a :: as_, b :: bs => if a < b then .lt else if b < a then .gt else rawOrdU as_ bs

/-- The final adjustment of `SuffixArray::compare` (an `eq` with the
pattern not fully consumed becomes `lt`) turns the raw loop result into
the pattern comparison `pOrd`. -/
theorem rawOrd_convert (s p : List Nat) :
    (if rawOrdU s p = .eq ∧ pLcp s p ≠ p.length then .lt else rawOrdU s p) = pOrd s p := by
  induction s generalizing p with
  | nil =>
    cases p with
    | nil => simp [rawOrdU, pLcp, pOrd]
    | cons b bs => simp [rawOrdU, pLcp, pOrd]
  | cons a as_ ih =>
    cases p with
    | nil => simp [rawOrdU, pLcp, pOrd]
    | cons b bs =>
      by_cases hab : a < b
      · simp [rawOrdU, pOrd, hab]
      · by_cases hba : b < a
        · simp [rawOrdU, pOrd, hab, hba]
        · have : a = b := by omega
          subst this
          have hpl : pLcp (a :: as_) (a :: bs) = pLcp as_ bs + 1 := by simp [pLcp]
          have hro : rawOrdU (a :: as_) (a :: bs) = rawOrdU as_ bs := by simp [rawOrdU]
          have hpo : pOrd (a :: as_) (a :: bs) = pOrd as_ bs := by simp [pOrd]
          rw [hpl, hro, hpo, ← ih bs]
          simp only [List.length_cons]
          congr 1
          simp [Nat.succ_inj]

/-! ## `SuffixArray` (indices/suffix_array.rs), stored-MS comparator -/

/-- `SuffixArray::compare_minimizers`, branch with a stored `ms_seq`:
compare one `w`-byte block of the sketched text at byte index `i` with
one block of the sketched pattern at byte index `j`. -/
def compareMinimizers (ms pattern : List Nat) (w i j : Nat) : Ordering :=
  cmpL ((ms.drop i).take w) ((pattern.drop j).take w)

/-- The block-comparison loop of `SuffixArray::compare`: starting from
text byte index `i` and pattern byte index `j`, walk whole minimizers at
a time while they are equal.  The `fuel` argument only bounds the number
of iterations; it is always called with enough fuel for the loop to
reach its own exit condition. -/
def suffixCompareGo (w msLen : Nat) (ms pattern : List Nat) :
    Nat → Nat → Nat → Ordering × Nat
  | 0, _, j => (.eq, j)
  | fuel + 1, i, j =>
    if i < msLen ∧ j < pattern.length then
      let r := compareMinimizers ms pattern w i j
      if r = .eq then suffixCompareGo w msLen ms pattern fuel (i + w) (j + w)
      else (r, j)
    else (.eq, j)

/-- `SuffixArray::compare`: three-way compare of the suffix of the
sketched text starting at byte `suf` against the sketched pattern,
starting from `match_` already-matched bytes; returns the ordering and
the new match length.  `msLen` is `sketcher.len() * w`. -/
def suffixCompare (w msLen : Nat) (ms pattern : List Nat) (suf match_ : Nat) :
    Ordering × Nat :=
  let rm := suffixCompareGo w msLen ms pattern (pattern.length + 1) (suf + match_) match_
  (if rm.1 = .eq ∧ rm.2 ≠ pattern.length then .lt else rm.1, rm.2)

section CompareBridge

variable {w msLen : Nat} {ms pattern : List Nat}

theorem suffixCompareGo_spec (hw : 0 < w) (hms : ms.length = msLen)
    (hwm : w ∣ msLen) (hwp : w ∣ pattern.length)
    (hbm : ∀ b ∈ ms, b < 256) (hbp : ∀ b ∈ pattern, b < 256) :
    ∀ fuel i j, w ∣ i → w ∣ j → pattern.length - j < fuel →
      suffixCompareGo w msLen ms pattern fuel i j =
        (rawOrdU (unitsAt w (ms.drop i)) (unitsAt w (pattern.drop j)),
         j + w * pLcp (unitsAt w (ms.drop i)) (unitsAt w (pattern.drop j))) := by
  intro fuel
  induction fuel with
  | zero => intro i j _ _ h; omega
  | succ fuel ih =>
    intro i j hwi hwj hfuel
    by_cases hguard : i < msLen ∧ j < pattern.length
    · -- both sides have a whole block left
      have hmrem : w ≤ (ms.drop i).length := by
        have h1 : w ∣ msLen - i := (Nat.dvd_sub' hwm hwi)
        have h2 : 0 < msLen - i := by omega
        have h3 : w ≤ msLen - i := Nat.le_of_dvd h2 h1
        simp [List.length_drop, hms]
        omega
      have hprem : w ≤ (pattern.drop j).length := by
        have h1 : w ∣ pattern.length - j := (Nat.dvd_sub' hwp hwj)
        have h2 : 0 < pattern.length - j := by omega
        have h3 : w ≤ pattern.length - j := Nat.le_of_dvd h2 h1
        simp [List.length_drop]
        omega
      have hmu : unitsAt w (ms.drop i)
          = beVal ((ms.drop i).take w) :: unitsAt w ((ms.drop i).drop w) :=
        unitsAt_cons hw hmrem
      have hpu : unitsAt w (pattern.drop j)
          = beVal ((pattern.drop j).take w) :: unitsAt w ((pattern.drop j).drop w) :=
        unitsAt_cons hw hprem
      have hdm : (ms.drop i).drop w = ms.drop (i + w) := by
        rw [List.drop_drop]
      have hdp : (pattern.drop j).drop w = pattern.drop (j + w) := by
        rw [List.drop_drop]
      have hcm : compareMinimizers ms pattern w i j =
          (if beVal ((ms.drop i).take w) < beVal ((pattern.drop j).take w) then .lt
           else if beVal ((pattern.drop j).take w) < beVal ((ms.drop i).take w) then .gt
           else .eq) := by
        apply cmpL_beVal
        · rw [List.length_take, List.length_take]
          omega
        · intro b hb
          exact hbm b (List.mem_of_mem_drop (List.mem_of_mem_take hb))
        · intro b hb
          exact hbp b (List.mem_of_mem_drop (List.mem_of_mem_take hb))
      have hrec := ih (i + w) (j + w) (Nat.dvd_add hwi dvd_rfl) (Nat.dvd_add hwj dvd_rfl)
      by_cases huv : beVal ((ms.drop i).take w) < beVal ((pattern.drop j).take w)
      · have hne : compareMinimizers ms pattern w i j = .lt := by rw [hcm]; simp [huv]
        have hstep : suffixCompareGo w msLen ms pattern (fuel + 1) i j = (.lt, j) := by
          simp [suffixCompareGo, hguard, hne]
        rw [hstep, hmu, hpu]
        simp [rawOrdU, pLcp, huv, Nat.ne_of_lt huv]
      · by_cases hvu : beVal ((pattern.drop j).take w) < beVal ((ms.drop i).take w)
        · have hne : compareMinimizers ms pattern w i j = .gt := by
            rw [hcm]; simp [huv, hvu]
          have hstep : suffixCompareGo w msLen ms pattern (fuel + 1) i j = (.gt, j) := by
            simp [suffixCompareGo, hguard, hne]
          rw [hstep, hmu, hpu]
          simp [rawOrdU, pLcp, huv, hvu, (Nat.ne_of_lt hvu).symm]
        · have huv' : beVal ((ms.drop i).take w) = beVal ((pattern.drop j).take w) := by omega
          have heq : compareMinimizers ms pattern w i j = .eq := by
            rw [hcm]; simp [huv, hvu]
          have hstep : suffixCompareGo w msLen ms pattern (fuel + 1) i j
              = suffixCompareGo w msLen ms pattern fuel (i + w) (j + w) := by
            simp [suffixCompareGo, hguard, heq]
          have hrw : rawOrdU (unitsAt w (ms.drop i)) (unitsAt w (pattern.drop j))
              = rawOrdU (unitsAt w (ms.drop (i + w))) (unitsAt w (pattern.drop (j + w))) := by
            rw [hmu, hpu, hdm, hdp, huv']
            simp [rawOrdU]
          have hrl : pLcp (unitsAt w (ms.drop i)) (unitsAt w (pattern.drop j))
              = pLcp (unitsAt w (ms.drop (i + w))) (unitsAt w (pattern.drop (j + w))) + 1 := by
            rw [hmu, hpu, hdm, hdp, huv']
            simp [pLcp]
          rw [hstep, hrec (by omega), hrw, hrl]
          simp only [Prod.mk.injEq]
          exact ⟨trivial, by ring⟩
    · -- one side is exhausted: the loop stops with a raw `eq`
      rw [suffixCompareGo, if_neg hguard]
      rcases Decidable.not_and_iff_or_not.mp hguard with hcase | hcase
      · have hnil : unitsAt w (ms.drop i) = [] := by
          apply unitsAt_eq_nil_of_short
          simp [List.length_drop, hms]
          omega
        rw [hnil]
        cases hup : unitsAt w (pattern.drop j) <;> simp [rawOrdU, pLcp]
      · have hnil : unitsAt w (pattern.drop j) = [] := by
          apply unitsAt_eq_nil_of_short
          simp [List.length_drop]
          omega
        rw [hnil]
        cases hup : unitsAt w (ms.drop i) <;> simp [rawOrdU, pLcp]

end CompareBridge

theorem suffixCompare_spec {w msLen : Nat} {ms pattern : List Nat}
    (hw : 0 < w) (hms : ms.length = msLen)
    (hwm : w ∣ msLen) (hwp : w ∣ pattern.length)
    (hbm : ∀ b ∈ ms, b < 256) (hbp : ∀ b ∈ pattern, b < 256)
    (suf m : Nat) (hws : w ∣ suf) (hwmm : w ∣ m) (hmle : m ≤ pattern.length) :
    suffixCompare w msLen ms pattern suf m =
      (pOrd (unitsAt w (ms.drop (suf + m))) (unitsAt w (pattern.drop m)),
       m + w * pLcp (unitsAt w (ms.drop (suf + m))) (unitsAt w (pattern.drop m))) := by
  have hgo := suffixCompareGo_spec hw hms hwm hwp hbm hbp (pattern.length + 1)
    (suf + m) m (Nat.dvd_add hws hwmm) hwmm (by omega)
  have hPUlen : w * (unitsAt w (pattern.drop m)).length = pattern.length - m := by
    rw [unitsAt_length]
    simp only [List.length_drop]
    exact Nat.mul_div_cancel' (Nat.dvd_sub' hwp hwmm)
  have hle := pLcp_le_right (unitsAt w (ms.drop (suf + m))) (unitsAt w (pattern.drop m))
  have hcond : (m + w * pLcp (unitsAt w (ms.drop (suf + m))) (unitsAt w (pattern.drop m))
        ≠ pattern.length)
      ↔ pLcp (unitsAt w (ms.drop (suf + m))) (unitsAt w (pattern.drop m))
        ≠ (unitsAt w (pattern.drop m)).length := by
    have hmul : w * pLcp (unitsAt w (ms.drop (suf + m))) (unitsAt w (pattern.drop m))
        ≤ w * (unitsAt w (pattern.drop m)).length := Nat.mul_le_mul_left w hle
    constructor
    · intro h hAB
      apply h
      rw [hAB]
      omega
    · intro h hsum
      apply h
      have hww : w * pLcp (unitsAt w (ms.drop (suf + m))) (unitsAt w (pattern.drop m))
          = w * (unitsAt w (pattern.drop m)).length := by omega
      exact Nat.eq_of_mul_eq_mul_left hw hww
  show (let rm := suffixCompareGo w msLen ms pattern (pattern.length + 1) (suf + m) m
    ((if rm.1 = .eq ∧ rm.2 ≠ pattern.length then .lt else rm.1), rm.2)) = _
  rw [hgo]
  simp only [Prod.mk.injEq]
  refine ⟨?_, trivial⟩
  rw [if_congr (iff_of_eq (by rw [hcond])) rfl rfl]
  exact rawOrd_convert _ _


/-! ## The LCP-reusing ternary binary search of `sa_search`

`sa_search` (transcribed in the crate from libdivsufsort's `utils.c`,
and shared verbatim between `SuffixArray` and `SparseSuffixArray`) only
interacts with the suffix array through a comparison call
`compare(sa[idx], &mut match)`.  We model that interaction as a function
`cf idx match = (ordering, match')` over the probed SA index, and
transcribe the three loops.  The `fuel` argument of each loop is a bound
on the iteration count; the window size decreases strictly on every
iteration, so fuel `size + 1` always reaches the loop's own exit
condition. -/

/-- The `/* left part */` loop of `sa_search`: state `(j, lsize)` with
match bounds `llmatch`, `lrmatch`; returns the final `j`. -/
def leftLoop (cf : Nat → Nat → Ordering × Nat) :
    Nat → Nat → Nat → Nat → Nat → Nat
  | 0, j, _, _, _ => j
  | fuel + 1, j, lsize, llmatch, lrmatch =>
    if lsize = 0 then j
    else
      let half := lsize / 2
      let lmatch := min llmatch lrmatch
      let rm := cf (j + half) lmatch
      if rm.1 = .lt then
        leftLoop cf fuel (j + half + 1) (half - (1 - lsize % 2)) rm.2 lrmatch
      else
        leftLoop cf fuel j half llmatch rm.2

/-- The `/* right part */` loop of `sa_search`: state `(k, rsize)` with
match bounds `rlmatch`, `rrmatch`; returns the final `k`. -/
def rightLoop (cf : Nat → Nat → Ordering × Nat) :
    Nat → Nat → Nat → Nat → Nat → Nat
  | 0, k, _, _, _ => k
  | fuel + 1, k, rsize, rlmatch, rrmatch =>
    if rsize = 0 then k
    else
      let half := rsize / 2
      let rmatch := min rlmatch rrmatch
      let rm := cf (k + half) rmatch
      if rm.1 ≠ .gt then
        rightLoop cf fuel (k + half + 1) (half - (1 - rsize % 2)) rm.2 rrmatch
      else
        rightLoop cf fuel k half rlmatch rm.2

/-- The outer loop of `sa_search`; returns the final `(i, j, k)`
(`j = k = 0` when the loop exhausts the window without an equal probe;
`half -= (size & 1) ^ 1` is rendered as `half - (1 - size % 2)`). -/
def outerLoop (cf : Nat → Nat → Ordering × Nat) :
    Nat → Nat → Nat → Nat → Nat → Nat × Nat × Nat
  | 0, i, _, _, _ => (i, 0, 0)
  | fuel + 1, i, size, lmatch, rmatch =>
    if size = 0 then (i, 0, 0)
    else
      let half := size / 2
      let match_ := min lmatch rmatch
      let rm := cf (i + half) match_
      if rm.1 = .lt then
        outerLoop cf fuel (i + half + 1) (half - (1 - size % 2)) rm.2 rmatch
      else if rm.1 = .gt then
        outerLoop cf fuel i half lmatch rm.2
      else
        (i, leftLoop cf (half + 1) i half lmatch rm.2,
            rightLoop cf (size - half) (i + half + 1) (size - half - 1) rm.2 rmatch)

/-- `sa_search`: returns `(pos, cnt)`.  `sketchLen` is `sketcher.len()`,
`n` the number of SA entries, `pLen` the sketched pattern's byte length. -/
def saSearch (cf : Nat → Nat → Ordering × Nat) (sketchLen n pLen : Nat) : Nat × Nat :=
  if sketchLen = 0 ∨ n = 0 then (0, 0)
  else if pLen = 0 then (0, n)
  else
    let ijk := outerLoop cf (n + 1) 0 n 0 0
    (if 0 < ijk.2.2 - ijk.2.1 then ijk.2.1 else ijk.1, ijk.2.2 - ijk.2.1)

/-- What `sa_search` needs from the comparison function: `f idx` is the
true three-way classification of SA entry `idx` against the pattern and
`L idx` the corresponding match length; `Good` is an invariant of match
values (byte counts that are multiples of the width).  `cf_eq` says a
comparison restarted from any sound match bound returns the truth;
`mono` is sortedness of the suffix array; `between` is the finger-LCP
property. -/
structure CmpSpec (n : Nat) (cf : Nat → Nat → Ordering × Nat) where
  L : Nat → Nat
  f : Nat → Ordering
  Good : Nat → Prop
  good_zero : Good 0
  good_min : ∀ a b, Good a → Good b → Good (min a b)
  good_L : ∀ idx, idx < n → Good (L idx)
  cf_eq : ∀ idx m, idx < n → Good m → m ≤ L idx → cf idx m = (f idx, L idx)
  mono : ∀ a b, a ≤ b → b < n → ordRank (f a) ≤ ordRank (f b)
  between : ∀ a b c, a ≤ b → b ≤ c → c < n → min (L a) (L c) ≤ L b

namespace CmpSpec

variable {n : Nat} {cf : Nat → Nat → Ordering × Nat} (S : CmpSpec n cf)

theorem f_lt_of_le {a b : Nat} (h : a ≤ b) (hb : b < n) (hfb : S.f b = .lt) :
    S.f a = .lt := by
  have := S.mono a b h hb
  rw [hfb] at this
  cases hfa : S.f a <;> rw [hfa] at this <;> simp [ordRank] at this ⊢

theorem f_gt_of_ge {a b : Nat} (h : b ≤ a) (ha : a < n) (hfb : S.f b = .gt) :
    S.f a = .gt := by
  have := S.mono b a h ha
  rw [hfb] at this
  cases hfa : S.f a <;> rw [hfa] at this <;> simp [ordRank] at this ⊢

theorem f_eq_sandwich {a b c : Nat} (hab : a ≤ b) (hbc : b ≤ c) (hc : c < n)
    (hfa : S.f a = .eq) (hfc : S.f c = .eq) : S.f b = .eq := by
  have h1 := S.mono a b hab (lt_of_le_of_lt hbc hc)
  have h2 := S.mono b c hbc hc
  rw [hfa] at h1
  rw [hfc] at h2
  cases hfb : S.f b <;> rw [hfb] at h1 h2 <;> simp [ordRank] at h1 h2 ⊢

end CmpSpec

theorem ordRank_eq_of_not_lt_of_le_one {o : Ordering}
    (h1 : o ≠ .lt) (h2 : ordRank o ≤ 1) : o = .eq := by
  cases o <;> simp_all [ordRank]

theorem leftLoop_spec {n : Nat} {cf : Nat → Nat → Ordering × Nat} (S : CmpSpec n cf) :
    ∀ fuel j lsize llmatch lrmatch m0,
      lsize < fuel → j + lsize ≤ m0 → m0 < n →
      (∀ t, t < j → S.f t = .lt) →
      (∀ t, j + lsize ≤ t → t ≤ m0 → S.f t = .eq) →
      S.Good llmatch → (llmatch = 0 ∨ (0 < j ∧ llmatch ≤ S.L (j - 1))) →
      S.Good lrmatch → lrmatch ≤ S.L (j + lsize) →
      (∀ t, t < leftLoop cf fuel j lsize llmatch lrmatch → S.f t = .lt) ∧
      (∀ t, leftLoop cf fuel j lsize llmatch lrmatch ≤ t → t ≤ m0 → S.f t = .eq) ∧
      leftLoop cf fuel j lsize llmatch lrmatch ≤ m0 := by
  intro fuel
  induction fuel with
  | zero => intro j lsize _ _ _ h _ _ _ _ _ _ _ _; omega
  | succ fuel ih =>
    intro j lsize llmatch lrmatch m0 hfuel hwin hm0 hleft hmid hGll hllc hGlr hlrb
    by_cases hz : lsize = 0
    · subst hz
      rw [show leftLoop cf (fuel + 1) j 0 llmatch lrmatch = j from by simp [leftLoop]]
      refine ⟨hleft, ?_, by omega⟩
      intro t h1 h2
      exact hmid t (by omega) h2
    · have hpm : j + lsize / 2 ≤ m0 := by omega
      have hpn : j + lsize / 2 < n := by omega
      have hm0eq : S.f m0 = .eq := hmid m0 (by omega) (le_refl _)
      have hminle : min llmatch lrmatch ≤ S.L (j + lsize / 2) := by
        rcases hllc with h0 | ⟨hj, hle⟩
        · have : min llmatch lrmatch = 0 := by omega
          omega
        · calc min llmatch lrmatch ≤ min (S.L (j - 1)) (S.L (j + lsize)) :=
                min_le_min hle hlrb
            _ ≤ S.L (j + lsize / 2) :=
                S.between (j - 1) (j + lsize / 2) (j + lsize) (by omega) (by omega)
                  (by omega)
      have hGm : S.Good (min llmatch lrmatch) := S.good_min _ _ hGll hGlr
      have hcf := S.cf_eq (j + lsize / 2) (min llmatch lrmatch) hpn hGm hminle
      by_cases hfp : S.f (j + lsize / 2) = .lt
      · -- move the left edge right
        have hstep : leftLoop cf (fuel + 1) j lsize llmatch lrmatch
            = leftLoop cf fuel (j + lsize / 2 + 1) (lsize / 2 - (1 - lsize % 2))
                (S.L (j + lsize / 2)) lrmatch := by
          simp [leftLoop, hz, hcf, hfp]
        rw [hstep]
        have hwin2 : j + lsize / 2 + 1 + (lsize / 2 - (1 - lsize % 2)) = j + lsize := by
          omega
        have hres := ih (j + lsize / 2 + 1) (lsize / 2 - (1 - lsize % 2))
          (S.L (j + lsize / 2)) lrmatch m0
          (by omega) (by omega) hm0
          (fun t ht => S.f_lt_of_le (by omega) hpn hfp)
          (fun t h1 h2 => hmid t (by omega) h2)
          (S.good_L _ hpn)
          (Or.inr ⟨by omega, by simp⟩)
          hGlr (by rw [hwin2]; exact hlrb)
        exact hres
      · -- the probe is an equal suffix; shrink the window to its left half
        have hfpe : S.f (j + lsize / 2) = .eq := by
          apply ordRank_eq_of_not_lt_of_le_one hfp
          have := S.mono (j + lsize / 2) m0 hpm hm0
          rw [hm0eq] at this
          simpa [ordRank] using this
        have hstep : leftLoop cf (fuel + 1) j lsize llmatch lrmatch
            = leftLoop cf fuel j (lsize / 2) llmatch (S.L (j + lsize / 2)) := by
          simp [leftLoop, hz, hcf, hfp]
        rw [hstep]
        have hres := ih j (lsize / 2) llmatch (S.L (j + lsize / 2)) m0
          (by omega) (by omega) hm0
          hleft
          (fun t h1 h2 => S.f_eq_sandwich (by omega : j + lsize / 2 ≤ t) h2 hm0 hfpe hm0eq)
          hGll hllc
          (S.good_L _ hpn) (le_refl _)
        exact hres

theorem ordRank_eq_of_not_gt_of_ge_one {o : Ordering}
    (h1 : o ≠ .gt) (h2 : 1 ≤ ordRank o) : o = .eq := by
  cases o <;> simp_all [ordRank]

theorem rightLoop_spec {n : Nat} {cf : Nat → Nat → Ordering × Nat} (S : CmpSpec n cf) :
    ∀ fuel k rsize rlmatch rrmatch m0,
      rsize < fuel → m0 < k → k + rsize ≤ n →
      (∀ t, m0 ≤ t → t < k → S.f t = .eq) →
      (∀ t, k + rsize ≤ t → t < n → S.f t = .gt) →
      S.Good rlmatch → rlmatch ≤ S.L (k - 1) →
      S.Good rrmatch → (rrmatch = 0 ∨ (k + rsize < n ∧ rrmatch ≤ S.L (k + rsize))) →
      (∀ t, m0 ≤ t → t < rightLoop cf fuel k rsize rlmatch rrmatch → S.f t = .eq) ∧
      (∀ t, rightLoop cf fuel k rsize rlmatch rrmatch ≤ t → t < n → S.f t = .gt) ∧
      m0 < rightLoop cf fuel k rsize rlmatch rrmatch ∧
      rightLoop cf fuel k rsize rlmatch rrmatch ≤ k + rsize := by
  intro fuel
  induction fuel with
  | zero => intro k rsize _ _ _ h _ _ _ _ _ _ _ _; omega
  | succ fuel ih =>
    intro k rsize rlmatch rrmatch m0 hfuel hm0k hwin hmid hright hGrl hrlb hGrr hrrc
    by_cases hz : rsize = 0
    · subst hz
      rw [show rightLoop cf (fuel + 1) k 0 rlmatch rrmatch = k from by simp [rightLoop]]
      refine ⟨hmid, ?_, hm0k, by omega⟩
      intro t h1 h2
      exact hright t (by omega) h2
    · have hpn : k + rsize / 2 < n := by omega
      have hm0eq : S.f m0 = .eq := hmid m0 (le_refl _) hm0k
      have hminle : min rlmatch rrmatch ≤ S.L (k + rsize / 2) := by
        rcases hrrc with h0 | ⟨hkn, hle⟩
        · have : min rlmatch rrmatch = 0 := by omega
          omega
        · calc min rlmatch rrmatch ≤ min (S.L (k - 1)) (S.L (k + rsize)) :=
                min_le_min hrlb hle
            _ ≤ S.L (k + rsize / 2) :=
                S.between (k - 1) (k + rsize / 2) (k + rsize) (by omega) (by omega) hkn
      have hGm : S.Good (min rlmatch rrmatch) := S.good_min _ _ hGrl hGrr
      have hcf := S.cf_eq (k + rsize / 2) (min rlmatch rrmatch) hpn hGm hminle
      by_cases hfp : S.f (k + rsize / 2) = .gt
      · -- the probe is strictly greater: shrink to the left half
        have hstep : rightLoop cf (fuel + 1) k rsize rlmatch rrmatch
            = rightLoop cf fuel k (rsize / 2) rlmatch (S.L (k + rsize / 2)) := by
          simp [rightLoop, hz, hcf, hfp]
        rw [hstep]
        have hres := ih k (rsize / 2) rlmatch (S.L (k + rsize / 2)) m0
          (by omega) hm0k (by omega)
          hmid
          (fun t h1 h2 => S.f_gt_of_ge (by omega) h2 hfp)
          hGrl hrlb
          (S.good_L _ hpn) (Or.inr ⟨hpn, le_refl _⟩)
        exact ⟨hres.1, hres.2.1, hres.2.2.1, by omega⟩
      · -- the probe is an equal suffix: move the right edge past it
        have hfpe : S.f (k + rsize / 2) = .eq := by
          apply ordRank_eq_of_not_gt_of_ge_one hfp
          have := S.mono m0 (k + rsize / 2) (by omega) hpn
          rw [hm0eq] at this
          simpa [ordRank] using this
        have hstep : rightLoop cf (fuel + 1) k rsize rlmatch rrmatch
            = rightLoop cf fuel (k + rsize / 2 + 1) (rsize / 2 - (1 - rsize % 2))
                (S.L (k + rsize / 2)) rrmatch := by
          simp [rightLoop, hz, hcf, hfp]
        rw [hstep]
        have hwin2 : k + rsize / 2 + 1 + (rsize / 2 - (1 - rsize % 2)) = k + rsize := by
          omega
        have hres := ih (k + rsize / 2 + 1) (rsize / 2 - (1 - rsize % 2))
          (S.L (k + rsize / 2)) rrmatch m0
          (by omega) (by omega) (by omega)
          (fun t h1 h2 => S.f_eq_sandwich h1 (by omega : t ≤ k + rsize / 2) hpn hm0eq hfpe)
          (fun t h1 h2 => hright t (by omega) h2)
          (S.good_L _ hpn) (by simp)
          hGrr (by rw [hwin2]; exact hrrc)
        exact ⟨hres.1, hres.2.1, hres.2.2.1, by omega⟩

theorem outerLoop_spec {n : Nat} {cf : Nat → Nat → Ordering × Nat} (S : CmpSpec n cf) :
    ∀ fuel i size lmatch rmatch,
      size < fuel → i + size ≤ n →
      (∀ t, t < i → S.f t = .lt) →
      (∀ t, i + size ≤ t → t < n → S.f t = .gt) →
      S.Good lmatch → (lmatch = 0 ∨ (0 < i ∧ lmatch ≤ S.L (i - 1))) →
      S.Good rmatch → (rmatch = 0 ∨ (i + size < n ∧ rmatch ≤ S.L (i + size))) →
      ((outerLoop cf fuel i size lmatch rmatch).2.1 = 0 ∧
       (outerLoop cf fuel i size lmatch rmatch).2.2 = 0 ∧
       (∀ t, t < n → S.f t ≠ .eq) ∧ (outerLoop cf fuel i size lmatch rmatch).1 ≤ n)
      ∨ ((outerLoop cf fuel i size lmatch rmatch).2.1
            < (outerLoop cf fuel i size lmatch rmatch).2.2 ∧
         (outerLoop cf fuel i size lmatch rmatch).2.2 ≤ n ∧
         ∀ t, t < n → (S.f t = .eq ↔
           (outerLoop cf fuel i size lmatch rmatch).2.1 ≤ t ∧
           t < (outerLoop cf fuel i size lmatch rmatch).2.2)) := by
  intro fuel
  induction fuel with
  | zero => intro i size _ _ h _ _ _ _ _ _ _; omega
  | succ fuel ih =>
    intro i size lmatch rmatch hfuel hwin hleft hright hGl hlc hGr hrc
    by_cases hz : size = 0
    · subst hz
      rw [show outerLoop cf (fuel + 1) i 0 lmatch rmatch = (i, 0, 0) from by
        simp [outerLoop]]
      refine Or.inl ⟨rfl, rfl, ?_, by omega⟩
      intro t htn heq
      by_cases hti : t < i
      · rw [hleft t hti] at heq; exact absurd heq (by simp)
      · rw [hright t (by omega) htn] at heq; exact absurd heq (by simp)
    · have hpn : i + size / 2 < n := by omega
      have hminle : min lmatch rmatch ≤ S.L (i + size / 2) := by
        rcases hlc with h0 | ⟨hi, hll⟩
        · have : min lmatch rmatch = 0 := by omega
          omega
        · rcases hrc with h0 | ⟨hin, hrr⟩
          · have : min lmatch rmatch = 0 := by omega
            omega
          · calc min lmatch rmatch ≤ min (S.L (i - 1)) (S.L (i + size)) :=
                  min_le_min hll hrr
              _ ≤ S.L (i + size / 2) :=
                  S.between (i - 1) (i + size / 2) (i + size) (by omega) (by omega) hin
      have hGm : S.Good (min lmatch rmatch) := S.good_min _ _ hGl hGr
      have hcf := S.cf_eq (i + size / 2) (min lmatch rmatch) hpn hGm hminle
      by_cases hfp : S.f (i + size / 2) = .lt
      · have hstep : outerLoop cf (fuel + 1) i size lmatch rmatch
            = outerLoop cf fuel (i + size / 2 + 1) (size / 2 - (1 - size % 2))
                (S.L (i + size / 2)) rmatch := by
          simp [outerLoop, hz, hcf, hfp]
        rw [hstep]
        have hwin2 : i + size / 2 + 1 + (size / 2 - (1 - size % 2)) = i + size := by
          omega
        exact ih (i + size / 2 + 1) (size / 2 - (1 - size % 2))
          (S.L (i + size / 2)) rmatch
          (by omega) (by omega)
          (fun t ht => S.f_lt_of_le (by omega) hpn hfp)
          (fun t h1 h2 => hright t (by omega) h2)
          (S.good_L _ hpn) (Or.inr ⟨by omega, by simp⟩)
          hGr (by rw [hwin2]; exact hrc)
      · by_cases hfg : S.f (i + size / 2) = .gt
        · have hstep : outerLoop cf (fuel + 1) i size lmatch rmatch
              = outerLoop cf fuel i (size / 2) lmatch (S.L (i + size / 2)) := by
            simp [outerLoop, hz, hcf, hfp, hfg]
          rw [hstep]
          exact ih i (size / 2) lmatch (S.L (i + size / 2))
            (by omega) (by omega)
            hleft
            (fun t h1 h2 => S.f_gt_of_ge (by omega) h2 hfg)
            hGl hlc
            (S.good_L _ hpn) (Or.inr ⟨hpn, le_refl _⟩)
        · -- the probe is an equal suffix: delimit the plateau with the two
          -- inner loops
          have hfpe : S.f (i + size / 2) = .eq := by
            cases ho : S.f (i + size / 2) <;> simp_all
          have hstep : outerLoop cf (fuel + 1) i size lmatch rmatch
              = (i, leftLoop cf (size / 2 + 1) i (size / 2) lmatch (S.L (i + size / 2)),
                  rightLoop cf (size - size / 2) (i + size / 2 + 1) (size - size / 2 - 1)
                    (S.L (i + size / 2)) rmatch) := by
            simp [outerLoop, hz, hcf, hfp, hfg]
          rw [hstep]
          dsimp only
          have hL := leftLoop_spec S (size / 2 + 1) i (size / 2) lmatch
            (S.L (i + size / 2)) (i + size / 2)
            (by omega) (by omega) hpn
            hleft
            (fun t h1 h2 => by
              have : t = i + size / 2 := by omega
              rw [this]; exact hfpe)
            hGl hlc
            (S.good_L _ hpn) (le_refl _)
          have hR := rightLoop_spec S (size - size / 2) (i + size / 2 + 1)
            (size - size / 2 - 1) (S.L (i + size / 2)) rmatch (i + size / 2)
            (by omega) (by omega) (by omega)
            (fun t h1 h2 => by
              have : t = i + size / 2 := by omega
              rw [this]; exact hfpe)
            (fun t h1 h2 => hright t (by omega) h2)
            (S.good_L _ hpn) (by simp)
            hGr (by
              rcases hrc with h0 | ⟨hin, hrr⟩
              · exact Or.inl h0
              · exact Or.inr ⟨by omega, by
                  have : i + size / 2 + 1 + (size - size / 2 - 1) = i + size := by omega
                  rw [this]; exact hrr⟩)
          refine Or.inr ⟨by omega, by omega, ?_⟩
          intro t htn
          constructor
          · intro hte
            constructor
            · by_contra hlt
              have := hL.1 t (by omega)
              rw [this] at hte; exact absurd hte (by simp)
            · by_contra hge
              have := hR.2.1 t (by omega) htn
              rw [this] at hte; exact absurd hte (by simp)
          · intro ⟨h1, h2⟩
            by_cases hle : t ≤ i + size / 2
            · exact hL.2.1 t h1 hle
            · exact hR.1 t (by omega) h2

/-- Full characterization of `sa_search` under the comparison-function
contract: the returned window is exactly the plateau of suffixes the
pattern classifies as `eq`. -/
theorem saSearch_spec {n : Nat} {cf : Nat → Nat → Ordering × Nat} (S : CmpSpec n cf)
    (sketchLen pLen : Nat) (hsk : sketchLen ≠ 0) (hn : n ≠ 0) (hpl : pLen ≠ 0) :
    (saSearch cf sketchLen n pLen).1 + (saSearch cf sketchLen n pLen).2 ≤ n ∧
    ∀ t, t < n → (S.f t = .eq ↔
      (saSearch cf sketchLen n pLen).1 ≤ t ∧
      t < (saSearch cf sketchLen n pLen).1 + (saSearch cf sketchLen n pLen).2) := by
  have hout := outerLoop_spec S (n + 1) 0 n 0 0
    (by omega) (by omega)
    (by omega)
    (fun t h1 h2 => by omega)
    S.good_zero (Or.inl rfl) S.good_zero (Or.inl rfl)
  have hunfold : saSearch cf sketchLen n pLen
      = (if 0 < (outerLoop cf (n + 1) 0 n 0 0).2.2 - (outerLoop cf (n + 1) 0 n 0 0).2.1
         then (outerLoop cf (n + 1) 0 n 0 0).2.1 else (outerLoop cf (n + 1) 0 n 0 0).1,
         (outerLoop cf (n + 1) 0 n 0 0).2.2 - (outerLoop cf (n + 1) 0 n 0 0).2.1) := by
    simp [saSearch, hsk, hn, hpl]
  rcases hout with ⟨hj, hk, hne, hi⟩ | ⟨hjk, hkn, hiff⟩
  · rw [hunfold, hj, hk]
    simp only [Nat.sub_zero, lt_irrefl, if_false]
    refine ⟨by omega, ?_⟩
    intro t htn
    constructor
    · intro hte; exact absurd hte (hne t htn)
    · intro h; omega
  · rw [hunfold]
    rw [if_pos (by omega)]
    refine ⟨by omega, ?_⟩
    intro t htn
    rw [hiff t htn]
    omega

theorem leftLoop_bounds (cf : Nat → Nat → Ordering × Nat) :
    ∀ fuel j lsize llmatch lrmatch,
      j ≤ leftLoop cf fuel j lsize llmatch lrmatch ∧
      leftLoop cf fuel j lsize llmatch lrmatch ≤ j + lsize := by
  intro fuel
  induction fuel with
  | zero => intro j lsize _ _; simp [leftLoop]
  | succ fuel ih =>
    intro j lsize llmatch lrmatch
    by_cases hz : lsize = 0
    · subst hz
      rw [show leftLoop cf (fuel + 1) j 0 llmatch lrmatch = j from by simp [leftLoop]]
      omega
    · rcases hc : (cf (j + lsize / 2) (min llmatch lrmatch)).1 with _ | _ | _
      · have hstep : leftLoop cf (fuel + 1) j lsize llmatch lrmatch
            = leftLoop cf fuel (j + lsize / 2 + 1) (lsize / 2 - (1 - lsize % 2))
                (cf (j + lsize / 2) (min llmatch lrmatch)).2 lrmatch := by
          simp [leftLoop, hz, hc]
        rw [hstep]
        have := ih (j + lsize / 2 + 1) (lsize / 2 - (1 - lsize % 2))
          (cf (j + lsize / 2) (min llmatch lrmatch)).2 lrmatch
        omega
      all_goals {
        have hstep : leftLoop cf (fuel + 1) j lsize llmatch lrmatch
            = leftLoop cf fuel j (lsize / 2) llmatch
                (cf (j + lsize / 2) (min llmatch lrmatch)).2 := by
          simp [leftLoop, hz, hc]
        rw [hstep]
        have := ih j (lsize / 2) llmatch (cf (j + lsize / 2) (min llmatch lrmatch)).2
        omega
      }

theorem rightLoop_bounds (cf : Nat → Nat → Ordering × Nat) :
    ∀ fuel k rsize rlmatch rrmatch,
      k ≤ rightLoop cf fuel k rsize rlmatch rrmatch ∧
      rightLoop cf fuel k rsize rlmatch rrmatch ≤ k + rsize := by
  intro fuel
  induction fuel with
  | zero => intro k rsize _ _; simp [rightLoop]
  | succ fuel ih =>
    intro k rsize rlmatch rrmatch
    by_cases hz : rsize = 0
    · subst hz
      rw [show rightLoop cf (fuel + 1) k 0 rlmatch rrmatch = k from by simp [rightLoop]]
      omega
    · have hadv : (cf (k + rsize / 2) (min rlmatch rrmatch)).1 ≠ .gt →
          k ≤ rightLoop cf (fuel + 1) k rsize rlmatch rrmatch ∧
          rightLoop cf (fuel + 1) k rsize rlmatch rrmatch ≤ k + rsize := by
        intro hc
        have hstep : rightLoop cf (fuel + 1) k rsize rlmatch rrmatch
            = rightLoop cf fuel (k + rsize / 2 + 1) (rsize / 2 - (1 - rsize % 2))
                (cf (k + rsize / 2) (min rlmatch rrmatch)).2 rrmatch := by
          simp [rightLoop, hz, hc]
        rw [hstep]
        have := ih (k + rsize / 2 + 1) (rsize / 2 - (1 - rsize % 2))
          (cf (k + rsize / 2) (min rlmatch rrmatch)).2 rrmatch
        omega
      by_cases hc : (cf (k + rsize / 2) (min rlmatch rrmatch)).1 = .gt
      · have hstep : rightLoop cf (fuel + 1) k rsize rlmatch rrmatch
            = rightLoop cf fuel k (rsize / 2) rlmatch
                (cf (k + rsize / 2) (min rlmatch rrmatch)).2 := by
          simp [rightLoop, hz, hc]
        rw [hstep]
        have := ih k (rsize / 2) rlmatch (cf (k + rsize / 2) (min rlmatch rrmatch)).2
        omega
      · exact hadv hc

theorem outerLoop_bounds (cf : Nat → Nat → Ordering × Nat) (n : Nat) :
    ∀ fuel i size lmatch rmatch, i + size ≤ n →
      ((outerLoop cf fuel i size lmatch rmatch).1 ≤ n) ∧
      ((outerLoop cf fuel i size lmatch rmatch).2.1 = 0 ∧
        (outerLoop cf fuel i size lmatch rmatch).2.2 = 0 ∨
       (outerLoop cf fuel i size lmatch rmatch).2.1
          < (outerLoop cf fuel i size lmatch rmatch).2.2 ∧
        (outerLoop cf fuel i size lmatch rmatch).2.2 ≤ n) := by
  intro fuel
  induction fuel with
  | zero => intro i size _ _ h; simp [outerLoop]; omega
  | succ fuel ih =>
    intro i size lmatch rmatch hwin
    by_cases hz : size = 0
    · subst hz
      rw [show outerLoop cf (fuel + 1) i 0 lmatch rmatch = (i, 0, 0) from by
        simp [outerLoop]]
      simp
      omega
    · rcases hc : (cf (i + size / 2) (min lmatch rmatch)).1 with _ | _ | _
      · have hstep : outerLoop cf (fuel + 1) i size lmatch rmatch
            = outerLoop cf fuel (i + size / 2 + 1) (size / 2 - (1 - size % 2))
                (cf (i + size / 2) (min lmatch rmatch)).2 rmatch := by
          simp [outerLoop, hz, hc]
        rw [hstep]
        exact ih _ _ _ _ (by omega)
      · have hstep : outerLoop cf (fuel + 1) i size lmatch rmatch
            = (i, leftLoop cf (size / 2 + 1) i (size / 2) lmatch
                    (cf (i + size / 2) (min lmatch rmatch)).2,
                rightLoop cf (size - size / 2) (i + size / 2 + 1) (size - size / 2 - 1)
                  (cf (i + size / 2) (min lmatch rmatch)).2 rmatch) := by
          simp [outerLoop, hz, hc]
        rw [hstep]
        dsimp only
        have hL := leftLoop_bounds cf (size / 2 + 1) i (size / 2) lmatch
          (cf (i + size / 2) (min lmatch rmatch)).2
        have hR := rightLoop_bounds cf (size - size / 2) (i + size / 2 + 1)
          (size - size / 2 - 1) (cf (i + size / 2) (min lmatch rmatch)).2 rmatch
        refine ⟨by omega, Or.inr ⟨by omega, by omega⟩⟩
      · have hstep : outerLoop cf (fuel + 1) i size lmatch rmatch
            = outerLoop cf fuel i (size / 2) lmatch
                (cf (i + size / 2) (min lmatch rmatch)).2 := by
          simp [outerLoop, hz, hc]
        rw [hstep]
        exact ih _ _ _ _ (by omega)

/-- Unconditional window bounds for `sa_search`: the returned interval of
SA indices always lies inside `[0, n)`. -/
theorem saSearch_bounds (cf : Nat → Nat → Ordering × Nat) (sketchLen n pLen : Nat) :
    (saSearch cf sketchLen n pLen).1 + (saSearch cf sketchLen n pLen).2 ≤ n := by
  by_cases h1 : sketchLen = 0 ∨ n = 0
  · simp [saSearch, h1]
  · by_cases h2 : pLen = 0
    · have : saSearch cf sketchLen n pLen = (0, n) := by
        simp [saSearch, h1, h2]
      rw [this]
      omega
    · have hout := outerLoop_bounds cf n (n + 1) 0 n 0 0 (by omega)
      have : saSearch cf sketchLen n pLen
          = (if 0 < (outerLoop cf (n + 1) 0 n 0 0).2.2 - (outerLoop cf (n + 1) 0 n 0 0).2.1
             then (outerLoop cf (n + 1) 0 n 0 0).2.1 else (outerLoop cf (n + 1) 0 n 0 0).1,
             (outerLoop cf (n + 1) 0 n 0 0).2.2 - (outerLoop cf (n + 1) 0 n 0 0).2.1) := by
        simp [saSearch, h1, h2]
      rw [this]
      rcases hout.2 with ⟨ha, hb⟩ | ⟨ha, hb⟩
      · rw [ha, hb]
        simpa using hout.1
      · rw [if_pos (by omega)]
        omega

theorem cmpL_append_eqlen {x y : List Nat} (h : x.length = y.length) (a b : List Nat) :
    cmpL (x ++ a) (y ++ b) = (match cmpL x y with | .eq => cmpL a b | r => r) := by
  induction x generalizing y with
  | nil =>
    cases y with
    | nil => simp [cmpL]
    | cons c s => simp at h
  | cons c t ih =>
    cases y with
    | nil => simp at h
    | cons d s =>
      have h' : t.length = s.length := by simpa using h
      by_cases hcd : c < d
      · simp [cmpL, hcd]
      · by_cases hdc : d < c
        · simp [cmpL, hcd, hdc]
        · simp only [List.cons_append, cmpL, if_neg hcd, if_neg hdc]
          exact ih h'

theorem cmpL_units_aux {w : Nat} (hw : 0 < w) :
    ∀ bound : Nat, ∀ l₁ l₂ : List Nat, l₁.length ≤ bound →
      w ∣ l₁.length → w ∣ l₂.length →
      (∀ b ∈ l₁, b < 256) → (∀ b ∈ l₂, b < 256) →
      cmpL (unitsAt w l₁) (unitsAt w l₂) = cmpL l₁ l₂ := by
  intro bound
  induction bound with
  | zero =>
    intro l₁ l₂ hb h1 h2 _ _
    have : l₁ = [] := List.eq_nil_of_length_eq_zero (by omega)
    subst this
    cases l₂ with
    | nil => simp [unitsAt_nil]
    | cons c s =>
      have hlen : w ≤ (c :: s).length := Nat.le_of_dvd (by simp) h2
      rw [unitsAt_nil, unitsAt_cons hw hlen]
      simp [cmpL]
  | succ bound ih =>
    intro l₁ l₂ hb h1 h2 hb1 hb2
    cases h1nil : l₁ with
    | nil =>
      cases l₂ with
      | nil => simp [unitsAt_nil]
      | cons c s =>
        have hlen : w ≤ (c :: s).length := Nat.le_of_dvd (by simp) h2
        rw [unitsAt_nil, unitsAt_cons hw hlen]
        simp [cmpL]
    | cons x t =>
      subst h1nil
      have h1len : w ≤ (x :: t).length := Nat.le_of_dvd (by simp) h1
      cases h2nil : l₂ with
      | nil =>
        rw [unitsAt_nil, unitsAt_cons hw h1len]
        simp [cmpL]
      | cons y s =>
        subst h2nil
        have h2len : w ≤ (y :: s).length := Nat.le_of_dvd (by simp) h2
        have hR : cmpL (x :: t) (y :: s)
            = (match cmpL ((x :: t).take w) ((y :: s).take w) with
               | .eq => cmpL ((x :: t).drop w) ((y :: s).drop w)
               | r => r) := by
          conv_lhs => rw [← List.take_append_drop w (x :: t),
            ← List.take_append_drop w (y :: s)]
          exact cmpL_append_eqlen (by
            rw [List.length_take, List.length_take]
            omega) _ _
        have hcb : cmpL ((x :: t).take w) ((y :: s).take w)
            = (if beVal ((x :: t).take w) < beVal ((y :: s).take w) then .lt
               else if beVal ((y :: s).take w) < beVal ((x :: t).take w) then .gt
               else .eq) := by
          apply cmpL_beVal
          · rw [List.length_take, List.length_take]; omega
          · exact fun b hb => hb1 b (List.mem_of_mem_take hb)
          · exact fun b hb => hb2 b (List.mem_of_mem_take hb)
        rw [unitsAt_cons hw h1len, unitsAt_cons hw h2len, hR, hcb]
        by_cases h : beVal ((x :: t).take w) < beVal ((y :: s).take w)
        · simp [cmpL, h]
        · by_cases h' : beVal ((y :: s).take w) < beVal ((x :: t).take w)
          · simp [cmpL, h, h']
          · simp only [cmpL, if_neg h, if_neg h']
            exact ih ((x :: t).drop w) ((y :: s).drop w)
              (by simp only [List.length_drop]; omega)
              (by simp only [List.length_drop]; exact Nat.dvd_sub' h1 dvd_rfl)
              (by simp only [List.length_drop]; exact Nat.dvd_sub' h2 dvd_rfl)
              (fun b hb => hb1 b (List.mem_of_mem_drop hb))
              (fun b hb => hb2 b (List.mem_of_mem_drop hb))

/-- Byte-level lexicographic comparison of width-aligned strings agrees
with comparison of their big-endian block values. -/
theorem cmpL_units {w : Nat} (hw : 0 < w) {l₁ l₂ : List Nat}
    (h1 : w ∣ l₁.length) (h2 : w ∣ l₂.length)
    (hb1 : ∀ b ∈ l₁, b < 256) (hb2 : ∀ b ∈ l₂, b < 256) :
    cmpL (unitsAt w l₁) (unitsAt w l₂) = cmpL l₁ l₂ :=
  cmpL_units_aux hw l₁.length l₁ l₂ (le_refl _) h1 h2 hb1 hb2

theorem prefix_append_eqlen {x y : List Nat} (h : x.length = y.length) (a b : List Nat) :
    x ++ a <+: y ++ b ↔ x = y ∧ a <+: b := by
  induction x generalizing y with
  | nil =>
    cases y with
    | nil => simp
    | cons d s => simp at h
  | cons c t ih =>
    cases y with
    | nil => simp at h
    | cons d s =>
      have h' : t.length = s.length := by simpa using h
      simp only [List.cons_append, List.cons_prefix_cons, ih h', List.cons.injEq]
      tauto

theorem units_prefix_aux {w : Nat} (hw : 0 < w) :
    ∀ bound : Nat, ∀ p s : List Nat, p.length ≤ bound →
      w ∣ p.length → w ∣ s.length →
      (∀ b ∈ p, b < 256) → (∀ b ∈ s, b < 256) →
      (unitsAt w p <+: unitsAt w s ↔ p <+: s) := by
  intro bound
  induction bound with
  | zero =>
    intro p s hb h1 h2 _ _
    have : p = [] := List.eq_nil_of_length_eq_zero (by omega)
    subst this
    simp [unitsAt_nil]
  | succ bound ih =>
    intro p s hb h1 h2 hb1 hb2
    cases h1nil : p with
    | nil => simp [unitsAt_nil]
    | cons x t =>
      subst h1nil
      have h1len : w ≤ (x :: t).length := Nat.le_of_dvd (by simp) h1
      cases h2nil : s with
      | nil =>
        rw [unitsAt_nil, unitsAt_cons hw h1len]
        constructor
        · intro h; exact absurd h (by simp)
        · intro h; exact absurd h (by simp)
      | cons y u =>
        subst h2nil
        have h2len : w ≤ (y :: u).length := Nat.le_of_dvd (by simp) h2
        have hR : ((x :: t) <+: (y :: u))
            ↔ ((x :: t).take w = (y :: u).take w ∧ (x :: t).drop w <+: (y :: u).drop w) := by
          conv_lhs => rw [← List.take_append_drop w (x :: t),
            ← List.take_append_drop w (y :: u)]
          exact prefix_append_eqlen (by
            rw [List.length_take, List.length_take]
            omega) _ _
        have hinj : beVal ((x :: t).take w) = beVal ((y :: u).take w)
            ↔ (x :: t).take w = (y :: u).take w := by
          constructor
          · intro hbe
            have hcb : cmpL ((x :: t).take w) ((y :: u).take w) = .eq := by
              rw [cmpL_beVal (by rw [List.length_take, List.length_take]; omega)
                (fun b hb => hb1 b (List.mem_of_mem_take hb))
                (fun b hb => hb2 b (List.mem_of_mem_take hb))]
              simp [hbe]
            exact (cmpL_eq_iff _ _).mp hcb
          · intro hteq; rw [hteq]
        rw [unitsAt_cons hw h1len, unitsAt_cons hw h2len, hR, List.cons_prefix_cons, hinj]
        constructor
        · rintro ⟨hh, hu⟩
          refine ⟨hh, ?_⟩
          exact (ih ((x :: t).drop w) ((y :: u).drop w)
            (by simp only [List.length_drop]; omega)
            (by simp only [List.length_drop]; exact Nat.dvd_sub' h1 dvd_rfl)
            (by simp only [List.length_drop]; exact Nat.dvd_sub' h2 dvd_rfl)
            (fun b hb => hb1 b (List.mem_of_mem_drop hb))
            (fun b hb => hb2 b (List.mem_of_mem_drop hb))).mp hu
        · rintro ⟨hh, hu⟩
          refine ⟨hh, ?_⟩
          exact (ih ((x :: t).drop w) ((y :: u).drop w)
            (by simp only [List.length_drop]; omega)
            (by simp only [List.length_drop]; exact Nat.dvd_sub' h1 dvd_rfl)
            (by simp only [List.length_drop]; exact Nat.dvd_sub' h2 dvd_rfl)
            (fun b hb => hb1 b (List.mem_of_mem_drop hb))
            (fun b hb => hb2 b (List.mem_of_mem_drop hb))).mpr hu

/-- Prefix in block space agrees with prefix in byte space for
width-aligned strings. -/
theorem units_prefix_iff {w : Nat} (hw : 0 < w) {p s : List Nat}
    (h1 : w ∣ p.length) (h2 : w ∣ s.length)
    (hb1 : ∀ b ∈ p, b < 256) (hb2 : ∀ b ∈ s, b < 256) :
    unitsAt w p <+: unitsAt w s ↔ p <+: s :=
  units_prefix_aux hw p.length p s (le_refl _) h1 h2 hb1 hb2

/-! ## The `SuffixArray` index of `indices/suffix_array.rs` (stored `ms_seq`) -/

/-- The comparison callback `sa_search` makes on a `SuffixArray` holding
`ms_seq`: read `self.sa[idx]` and run `SuffixArray::compare` from
`match_` matched bytes (`msLen` is `sketcher.len() * w`). -/
def saCf (sa : List Nat) (w sketchLen : Nat) (ms pattern : List Nat)
    (idx match_ : Nat) : Ordering × Nat :=
  suffixCompare w (sketchLen * w) ms pattern (sa.getD idx 0) match_

/-- `SuffixArray::sa_search` over a stored MS string. -/
def saSearchStored (sa : List Nat) (w sketchLen : Nat) (ms pattern : List Nat) :
    Nat × Nat :=
  saSearch (saCf sa w sketchLen ms pattern) sketchLen sa.length pattern.length

/-- `<SuffixArray as Index>::query`: the `(pos..pos + cnt)` range of SA
slots mapped through the suffix array. -/
def saQueryStored (sa : List Nat) (w sketchLen : Nat) (ms pattern : List Nat) :
    List Nat :=
  (List.range' (saSearchStored sa w sketchLen ms pattern).1
    (saSearchStored sa w sketchLen ms pattern).2).map (fun t => sa.getD t 0)

section SuffixArraySpec

variable {sa : List Nat} {w sketchLen : Nat} {ms pattern : List Nat}

/-- The `sa_search` comparison contract holds for `SuffixArray::compare`
over a sorted, aligned suffix array. -/
def saCmpSpec (hw : 0 < w) (hms : ms.length = sketchLen * w)
    (hwp : w ∣ pattern.length)
    (hbm : ∀ b ∈ ms, b < 256) (hbp : ∀ b ∈ pattern, b < 256)
    (hsaA : ∀ t, t < sa.length → w ∣ sa.getD t 0)
    (hsorted : ∀ a b, a ≤ b → b < sa.length →
      cmpL (ms.drop (sa.getD a 0)) (ms.drop (sa.getD b 0)) ≠ .gt) :
    CmpSpec sa.length (saCf sa w sketchLen ms pattern) where
  L idx := w * pLcp (unitsAt w (ms.drop (sa.getD idx 0))) (unitsAt w pattern)
  f idx := pOrd (unitsAt w (ms.drop (sa.getD idx 0))) (unitsAt w pattern)
  Good m := w ∣ m
  good_zero := dvd_zero w
  good_min a b ha hb := by
    rcases le_total a b with h | h
    · rwa [min_eq_left h]
    · rwa [min_eq_right h]
  good_L idx _ := Dvd.intro _ rfl
  cf_eq idx m hidx hGm hmle := by
    change m ≤ w * pLcp (unitsAt w (ms.drop (sa.getD idx 0))) (unitsAt w pattern) at hmle
    have hsuf : w ∣ sa.getD idx 0 := hsaA idx hidx
    have hwm : w ∣ sketchLen * w := Dvd.intro_left _ rfl
    have hPUlen : w * (unitsAt w pattern).length = pattern.length := by
      rw [unitsAt_length]
      exact Nat.mul_div_cancel' hwp
    have hLle : w * pLcp (unitsAt w (ms.drop (sa.getD idx 0))) (unitsAt w pattern)
        ≤ pattern.length := by
      have := Nat.mul_le_mul_left w
        (pLcp_le_right (unitsAt w (ms.drop (sa.getD idx 0))) (unitsAt w pattern))
      omega
    obtain ⟨q, hq⟩ := id hGm
    have hqle : q ≤ pLcp (unitsAt w (ms.drop (sa.getD idx 0))) (unitsAt w pattern) := by
      have : w * q ≤ w * pLcp (unitsAt w (ms.drop (sa.getD idx 0))) (unitsAt w pattern) := by
        omega
      exact Nat.le_of_mul_le_mul_left this hw
    have hds : ms.drop (sa.getD idx 0 + m) = (ms.drop (sa.getD idx 0)).drop (w * q) := by
      rw [List.drop_drop]
      congr 1
      omega
    have hdp : pattern.drop m = pattern.drop (w * q) := by rw [hq]
    rw [saCf, suffixCompare_spec hw hms hwm hwp hbm hbp (sa.getD idx 0) m hsuf hGm
      (le_trans hmle hLle)]
    rw [hds, hdp, unitsAt_drop hw q, unitsAt_drop hw q]
    rw [pOrd_drop hqle]
    have hld := pLcp_drop hqle
    simp only [Prod.mk.injEq]
    refine ⟨trivial, ?_⟩
    have h2 : w * (pLcp ((unitsAt w (ms.drop (sa.getD idx 0))).drop q)
        ((unitsAt w pattern).drop q) + q)
        = w * pLcp (unitsAt w (ms.drop (sa.getD idx 0))) (unitsAt w pattern) := by
      rw [hld]
    rw [Nat.mul_add] at h2
    omega
  mono a b hab hbn := by
    apply pOrd_mono
    have hdvd : ∀ t, t < sa.length → w ∣ (ms.drop (sa.getD t 0)).length := by
      intro t ht
      simp only [List.length_drop]
      exact Nat.dvd_sub' (hms ▸ Dvd.intro_left _ rfl) (hsaA t ht)
    rw [cmpL_units hw (hdvd a (by omega)) (hdvd b hbn)
      (fun x hx => hbm x (List.mem_of_mem_drop hx))
      (fun x hx => hbm x (List.mem_of_mem_drop hx))]
    exact hsorted a b hab hbn
  between a b c hab hbc hcn := by
    dsimp only
    have hdvd : ∀ t, t < sa.length → w ∣ (ms.drop (sa.getD t 0)).length := by
      intro t ht
      simp only [List.length_drop]
      exact Nat.dvd_sub' (hms ▸ Dvd.intro_left _ rfl) (hsaA t ht)
    have h1 : cmpL (unitsAt w (ms.drop (sa.getD a 0)))
        (unitsAt w (ms.drop (sa.getD b 0))) ≠ .gt := by
      rw [cmpL_units hw (hdvd a (by omega)) (hdvd b (by omega))
        (fun x hx => hbm x (List.mem_of_mem_drop hx))
        (fun x hx => hbm x (List.mem_of_mem_drop hx))]
      exact hsorted a b hab (by omega)
    have h2 : cmpL (unitsAt w (ms.drop (sa.getD b 0)))
        (unitsAt w (ms.drop (sa.getD c 0))) ≠ .gt := by
      rw [cmpL_units hw (hdvd b (by omega)) (hdvd c hcn)
        (fun x hx => hbm x (List.mem_of_mem_drop hx))
        (fun x hx => hbm x (List.mem_of_mem_drop hx))]
      exact hsorted b c hbc hcn
    have hmain := pLcp_between (unitsAt w pattern) h1 h2
    rcases le_total (pLcp (unitsAt w (ms.drop (sa.getD a 0))) (unitsAt w pattern))
      (pLcp (unitsAt w (ms.drop (sa.getD c 0))) (unitsAt w pattern)) with h | h
    · rw [min_eq_left (Nat.mul_le_mul_left w h)]
      rw [min_eq_left h] at hmain
      exact Nat.mul_le_mul_left w hmain
    · rw [min_eq_right (Nat.mul_le_mul_left w h)]
      rw [min_eq_right h] at hmain
      exact Nat.mul_le_mul_left w hmain

/-- `sa_search` on a sorted aligned `SuffixArray` returns exactly the
window of SA slots whose suffixes have the sketched pattern as a prefix. -/
theorem saSearchStored_spec (hw : 0 < w) (hms : ms.length = sketchLen * w)
    (hwp : w ∣ pattern.length)
    (hbm : ∀ b ∈ ms, b < 256) (hbp : ∀ b ∈ pattern, b < 256)
    (hsaA : ∀ t, t < sa.length → w ∣ sa.getD t 0)
    (hsorted : ∀ a b, a ≤ b → b < sa.length →
      cmpL (ms.drop (sa.getD a 0)) (ms.drop (sa.getD b 0)) ≠ .gt)
    (hpne : pattern ≠ []) :
    (saSearchStored sa w sketchLen ms pattern).1
      + (saSearchStored sa w sketchLen ms pattern).2 ≤ sa.length ∧
    ∀ t, t < sa.length →
      ((saSearchStored sa w sketchLen ms pattern).1 ≤ t ∧
        t < (saSearchStored sa w sketchLen ms pattern).1
          + (saSearchStored sa w sketchLen ms pattern).2
       ↔ pattern <+: ms.drop (sa.getD t 0)) := by
  have hple : pattern.length ≠ 0 := by
    intro h
    exact hpne (List.eq_nil_of_length_eq_zero h)
  by_cases hdeg : sketchLen = 0 ∨ sa.length = 0
  · have hz : saSearchStored sa w sketchLen ms pattern = (0, 0) := by
      rw [saSearchStored, saSearch, if_pos hdeg]
    rw [hz]
    refine ⟨by simp, ?_⟩
    intro t ht
    rcases hdeg with h | h
    · have hms0 : ms = [] := by
        apply List.eq_nil_of_length_eq_zero
        rw [hms, h]
        ring
      subst hms0
      simp only [List.drop_nil]
      constructor
      · intro h'; omega
      · intro h'
        exact absurd (List.eq_nil_of_prefix_nil h') hpne
    · omega
  · push_neg at hdeg
    have hspec := saSearch_spec (saCmpSpec hw hms hwp hbm hbp hsaA hsorted)
      sketchLen pattern.length hdeg.1 hdeg.2 hple
    refine ⟨hspec.1, ?_⟩
    intro t ht
    rw [show saSearchStored sa w sketchLen ms pattern
      = saSearch (saCf sa w sketchLen ms pattern) sketchLen sa.length pattern.length
      from rfl]
    rw [← (hspec.2 t ht)]
    show pOrd (unitsAt w (ms.drop (sa.getD t 0))) (unitsAt w pattern) = .eq ↔ _
    rw [pOrd_eq_iff_isPre]
    apply units_prefix_iff hw hwp
    · simp only [List.length_drop]
      exact Nat.dvd_sub' (hms ▸ Dvd.intro_left _ rfl) (hsaA t ht)
    · exact hbp
    · exact fun x hx => hbm x (List.mem_of_mem_drop hx)

end SuffixArraySpec

/-! ## The minimizer sketcher (`sketchers/minimizers.rs`)

Minimizer enumeration itself lives in the external `simd_minimizers`
crate; it is modelled from the spec (§4.1): a hash `h` on k-mer values, a
sliding window of `w = l - k + 1` k-mers whose hash-argmin (leftmost on
ties) is the window's minimizer position, and deduplication of
consecutive equal positions.  Everything else (remapping, width choice,
big-endian encoding, position inversion) is transcribed from the crate. -/

/-- The k-mer of `seq` starting at `i`. -/
def kmerAt (seq : List Nat) (k i : Nat) : List Nat := (seq.drop i).take k

/-- Modelled from the spec / `packed_seq::Seq::to_word`: the packed
integer value of a 2-bit k-mer, first base in the low bits. -/
def toWord (l : List Nat) : Nat := l.foldr (fun b acc => b + 4 * acc) 0

/-- Modelled from the spec: the minimizer position of the window of
`win` k-mers starting at `j`: the position whose k-mer hash is minimal,
leftmost on ties. -/
def winArgmin (h : Nat → Nat) (seq : List Nat) (k win j : Nat) : Nat :=
  ((List.range win).map (j + ·)).foldl
    (fun best q =>
      if h (toWord (kmerAt seq k q)) < h (toWord (kmerAt seq k best)) then q else best)
    j

/-- `Itertools::dedup`: collapse consecutive equal elements. -/
def dedupConsec : List Nat → List Nat
  | [] => []
  | [a] => [a]
  | a :: b :: t => if a = b then dedupConsec (b :: t) else a :: dedupConsec (b :: t)

/-- Modelled from the spec: the ordered deduplicated minimizer positions
of `seq` (`simd_minimizers::minimizer_positions`). -/
def minimizerPositions (h : Nat → Nat) (k l : Nat) (seq : List Nat) : List Nat :=
  dedupConsec ((List.range (seq.length + 1 - l)).map (winArgmin h seq k (l - k + 1)))

/-- `SketchError` of the crate. -/
inductive MSketchError where
  | tooShort : MSketchError
  | unknownMinimizer : MSketchError
deriving DecidableEq

/-- Association-list model of the `HashMap<KmerVal, usize>` remap. -/
def kmLookup (m : List (Nat × Nat)) (kmer : Nat) : Option Nat :=
  (m.find? (fun p => p.1 == kmer)).map Prod.snd

/-- The remap-building loop of `sketch_with_stats`: traverse the
minimizer values in order, give each unseen value the next id (ids start
at `s`, which is 1 when `skip_zero`).  Returns the map and the final id. -/
def buildKmerMap (s : Nat) (minVals : List Nat) : List (Nat × Nat) × Nat :=
  minVals.foldl
    (fun acc kmer =>
      if (kmLookup acc.1 kmer).isSome then acc
      else (acc.1 ++ [(kmer, acc.2)], acc.2 + 1))
    ([], s)

/-- The low `width` bytes of `val.to_be_bytes()` (big-endian). -/
def toBEBytes (width v : Nat) : List Nat :=
  (List.range width).map (fun i => v / 256 ^ (width - 1 - i) % 256)

/-- `MinimizerSketcher::remap_minimizer_values`: encode each minimizer
value (through the remap when enabled) as `width` big-endian bytes;
`none` when a value has no id in the remap. -/
def remapMinimizerValues (remap : Bool) (kmerMap : List (Nat × Nat)) (width : Nat)
    (minVals : List Nat) : Option (List Nat) :=
  if remap then
    (minVals.mapM (kmLookup kmerMap)).map (fun ids => (ids.map (toBEBytes width)).flatten)
  else
    some ((minVals.map (toBEBytes width)).flatten)

/-- `MinimizerParams` (the `cacheline_ef` switch is omitted: both
position stores return the same values). -/
structure MinimizerParams where
  k : Nat
  l : Nat
  remap : Bool
  skip_zero : Bool

/-- `MinimizerSketcher`. -/
structure MinimizerSketcher where
  params : MinimizerParams
  min_poss : List Nat
  kmer_map : List (Nat × Nat)
  kmer_width : Nat

/-- `MinimizerParams::sketch_with_stats`: enumerate the text's
minimizers, build the remap and the byte width, encode the MS string.
`id.next_power_of_two().trailing_zeros()` is `Nat.clog 2 id` and
`bits.div_ceil(8).max(1)` is `max ((bits + 7) / 8) 1`;
`k.div_ceil(4)` is `(k + 3) / 4`. -/
def sketchWithStats (p : MinimizerParams) (h : Nat → Nat) (seq : List Nat) :
    MinimizerSketcher × List Nat :=
  let min_poss := minimizerPositions h p.k p.l seq
  let min_val := min_poss.map (fun pos => toWord (kmerAt seq p.k pos))
  let mw :=
    if p.remap then
      let bm := buildKmerMap (if p.skip_zero then 1 else 0) min_val
      (bm.1, max ((Nat.clog 2 bm.2 + 7) / 8) 1)
    else ([], (p.k + 3) / 4)
  let sketcher : MinimizerSketcher :=
    { params := p, min_poss := min_poss, kmer_map := mw.1, kmer_width := mw.2 }
  (sketcher,
    (remapMinimizerValues p.remap mw.1 mw.2 min_val).getD [])

/-- `MinimizerSketcher::sketch` (on a query pattern). -/
def MinimizerSketcher.sketch (sk : MinimizerSketcher) (h : Nat → Nat) (seq : List Nat) :
    Except MSketchError (List Nat × Nat) :=
  let min_poss := minimizerPositions h sk.params.k sk.params.l seq
  let min_vals := min_poss.map (fun pos => toWord (kmerAt seq sk.params.k pos))
  match min_poss.head? with
  | none => .error .tooShort
  | some offset =>
    match remapMinimizerValues sk.params.remap sk.kmer_map sk.kmer_width min_vals with
    | none => .error .unknownMinimizer
    | some msp => .ok (msp, offset)

/-- `MinimizerSketcher::ms_pos_to_plain_pos` (an out-of-range index,
which would panic in the positions structure, is modelled as `none`). -/
def MinimizerSketcher.msPosToPlainPos (sk : MinimizerSketcher) (msPos : Nat) : Option Nat :=
  if msPos % sk.kmer_width ≠ 0 then none
  else sk.min_poss.get? (msPos / sk.kmer_width)

/-! ## Ranges and the `UIndex::query` pipeline (`u_index.rs`) -/

/-- The flattened boundary list `s₁, e₁, s₂, e₂, …` that
`try_build_with_ranges` pushes into the Elias-Fano dictionary. -/
def rangeBoundaries (ranges : List (Nat × Nat)) : List Nat :=
  (ranges.map (fun r => [r.1, r.2])).flatten

/-- Model of the sux Elias-Fano dictionary's `succ_unchecked::<true>`:
rank and value of the first stored boundary strictly greater than `x`
(when none exists the Rust call is undefined behaviour; modelled as
`none`). -/
def succStrict (bs : List Nat) (x : Nat) : Option (Nat × Nat) :=
  match bs with
  | [] => none
  | b :: rest =>
    if x < b then some (0, b)
    else (succStrict rest x).map (fun rb => (rb.1 + 1, rb.2))

/-- The per-candidate body of the `filter_map` in `UIndex::query`:
invert the MS position, subtract the pattern offset, bounds-check,
verify against the plain text, and range-check with the strict
successor. -/
def uCheckCandidate (seq pattern : List Nat) (msPosToPlain : Nat → Option Nat)
    (offset : Nat) (boundaries : List Nat) (msPos : Nat) : Option Nat :=
  match msPosToPlain msPos with
  | none => none
  | some plainPos =>
    if plainPos < offset then none
    else
      let start := plainPos - offset
      let endp := start + pattern.length
      if endp > seq.length then none
      else if (seq.drop start).take pattern.length ≠ pattern then none
      else
        match succStrict boundaries start with
        | none => none
        | some rb => if endp > rb.2 then none else some start

/-- `UIndex::query`, generic over the sketcher's pattern sketch, the MS
index search and the position inversion (the concrete `UIndex` wires in
a `Sketcher` and an `Index` trait object). -/
def uQuery (sketchP : List Nat → Except MSketchError (List Nat × Nat))
    (indexQ : List Nat → List Nat)
    (msPosToPlain : Nat → Option Nat)
    (boundaries : List Nat) (seq pattern : List Nat) : Option (List Nat) :=
  match sketchP pattern with
  | .error .tooShort => none
  | .error .unknownMinimizer => some []
  | .ok (msP, offset) =>
    some ((indexQ msP).filterMap (uCheckCandidate seq pattern msPosToPlain offset boundaries))

/-! ## `SparseSuffixArray` and `SIndex` (`s_index.rs`) -/

/-- Modelled from the spec: `packed_seq`'s `cmp_lcp` with the comparator
semantics of §4.2/§4.5 — three-way comparison where the pattern running
out first counts as equal, together with the matched length. -/
def cmpLcp (s p : List Nat) : Ordering × Nat := (pOrd s p, pLcp s p)

/-- The comparison callback of `SparseSuffixArray::sa_search`
(`SparseSuffixArray::compare`): compare the plain-text suffix at
`self.sa[idx] + match_` with `p[match_..]` and add the LCP to `match_`. -/
def ssaCf (ssa seq pattern : List Nat) (idx match_ : Nat) : Ordering × Nat :=
  ((cmpLcp (seq.drop (ssa.getD idx 0 + match_)) (pattern.drop match_)).1,
   match_ + (cmpLcp (seq.drop (ssa.getD idx 0 + match_)) (pattern.drop match_)).2)

/-- `SparseSuffixArray::sa_search` (identical loop structure; its only
early return is the empty pattern). -/
def ssaSearch (ssa seq pattern : List Nat) : Nat × Nat :=
  if pattern.length = 0 then (0, ssa.length)
  else
    let ijk := outerLoop (ssaCf ssa seq pattern) (ssa.length + 1) 0 ssa.length 0 0
    (if 0 < ijk.2.2 - ijk.2.1 then ijk.2.1 else ijk.1, ijk.2.2 - ijk.2.1)

/-- `SparseSuffixArray::query`. -/
def ssaQuery (ssa seq pattern : List Nat) : List Nat :=
  (List.range' (ssaSearch ssa seq pattern).1 (ssaSearch ssa seq pattern).2).map
    (fun i => ssa.getD i 0)

/-- `SparseSuffixArray::new`: sort the minimizer positions by the
plain-text suffix starting there (`sort_unstable_by_key` with the suffix
comparator; any sort producing a sorted permutation models it). -/
def sparseSA (seq indices : List Nat) : List Nat :=
  indices.insertionSort (fun a b => cmpL (seq.drop a) (seq.drop b) ≠ .gt)

/-- Modelled from the spec: `minimizer_window_naive` — the position of
the minimizer within a single window (a naive scan over its k-mers). -/
def minimizerWindowNaive (h : Nat → Nat) (k : Nat) (window : List Nat) : Nat :=
  winArgmin h window k (window.length + 1 - k) 0

/-! ## The suffix-array builders

`libsais` and `libdivsufsort` are external; the construction itself is
abstracted as a function argument and only the in-crate post-processing
(byte-order fixing, scaling by the width, `retain`-compression) is
transcribed. -/

/-- `LibSaisSa::build_with_stats`: width dispatch.  `extSA8/16/32` stand
for the external `libsais` suffix-array constructions. -/
def libSaisBuild (extSA8 extSA16 extSA32 : List Nat → List Nat)
    (width : Nat) (msSeq : List Nat) : List Nat :=
  match width with
  | 0 => []
  | 1 => extSA8 msSeq
  | 2 => (extSA16 (unitsAt 2 msSeq)).map (· * 2)
  | _ =>
    let vals := unitsAt width msSeq
    let distinct := (vals.mergeSort (fun a b => a ≤ b)).dedup
    let ranks := vals.map (fun v => distinct.indexOf v)
    (extSA32 ranks).map (· * width)

/-- `DivSufSortSa::build_with_stats`: external build plus the
`compress` filter retaining width-aligned entries. -/
def divSufSortBuild (extSA : List Nat → List Nat) (compress : Bool)
    (width : Nat) (msSeq : List Nat) : List Nat :=
  let sa := extSA msSeq
  if compress then sa.filter (fun x => x % width == 0) else sa

/-! ## Support lemmas for the sketcher -/

theorem dedupConsec_subset {q : Nat} : ∀ {xs : List Nat}, q ∈ dedupConsec xs → q ∈ xs := by
  intro xs
  induction xs with
  | nil => simp [dedupConsec]
  | cons a t ih =>
    cases t with
    | nil => simp [dedupConsec]
    | cons b u =>
      by_cases hab : a = b
      · rw [show dedupConsec (a :: b :: u) = dedupConsec (b :: u) from by
          simp [dedupConsec, hab]]
        intro hq
        exact List.mem_cons_of_mem a (ih hq)
      · rw [show dedupConsec (a :: b :: u) = a :: dedupConsec (b :: u) from by
          simp [dedupConsec, hab]]
        intro hq
        rcases List.mem_cons.mp hq with h | h
        · exact List.mem_cons.mpr (Or.inl h)
        · exact List.mem_cons_of_mem a (ih h)

theorem dedupConsec_ne_nil : ∀ {xs : List Nat}, xs ≠ [] → dedupConsec xs ≠ [] := by
  intro xs
  induction xs with
  | nil => simp
  | cons a t ih =>
    intro _
    cases t with
    | nil => simp [dedupConsec]
    | cons b u =>
      by_cases hab : a = b
      · rw [show dedupConsec (a :: b :: u) = dedupConsec (b :: u) from by
          simp [dedupConsec, hab]]
        exact ih (by simp)
      · rw [show dedupConsec (a :: b :: u) = a :: dedupConsec (b :: u) from by
          simp [dedupConsec, hab]]
        simp

theorem foldl_choice {pick : Nat → Nat → Nat}
    (hp : ∀ a b, pick a b = a ∨ pick a b = b) :
    ∀ (xs : List Nat) (init : Nat), xs.foldl pick init ∈ init :: xs := by
  intro xs
  induction xs with
  | nil => intro init; simp
  | cons x t ih =>
    intro init
    have h1 := ih (pick init x)
    rcases List.mem_cons.mp h1 with h | h
    · rcases hp init x with h' | h'
      · simp only [List.foldl_cons]
        rw [h, h']
        simp
      · simp only [List.foldl_cons]
        rw [h, h']
        simp
    · simp only [List.foldl_cons]
      exact List.mem_cons_of_mem _ (List.mem_cons_of_mem _ h)

theorem winArgmin_bounds (h : Nat → Nat) (seq : List Nat) (k win j : Nat) (hwin : 0 < win) :
    j ≤ winArgmin h seq k win j ∧ winArgmin h seq k win j < j + win := by
  have hmem := @foldl_choice (fun best q =>
      if h (toWord (kmerAt seq k q)) < h (toWord (kmerAt seq k best)) then q else best)
    (by
      intro a b
      by_cases hc : h (toWord (kmerAt seq k b)) < h (toWord (kmerAt seq k a))
      · exact Or.inr (by simp [hc])
      · exact Or.inl (by simp [hc]))
    ((List.range win).map (j + ·)) j
  rw [show winArgmin h seq k win j
      = ((List.range win).map (j + ·)).foldl (fun best q =>
          if h (toWord (kmerAt seq k q)) < h (toWord (kmerAt seq k best)) then q else best) j
    from rfl] at *
  rcases List.mem_cons.mp hmem with hj | hj
  · rw [hj]; omega
  · rcases List.mem_map.mp hj with ⟨t, ht, hte⟩
    rw [← hte]
    have := List.mem_range.mp ht
    omega

theorem minimizerPositions_bounds {h : Nat → Nat} {k l : Nat} {seq : List Nat}
    (hkl : k ≤ l) :
    ∀ q ∈ minimizerPositions h k l seq, q + k ≤ seq.length := by
  intro q hq
  have hq' := dedupConsec_subset hq
  rcases List.mem_map.mp hq' with ⟨j, hj, hje⟩
  have hjlt := List.mem_range.mp hj
  have hb := winArgmin_bounds h seq k (l - k + 1) j (by omega)
  rw [hje] at hb
  omega

theorem minimizerPositions_eq_nil {h : Nat → Nat} {k l : Nat} {seq : List Nat}
    (hlen : seq.length < l) : minimizerPositions h k l seq = [] := by
  rw [minimizerPositions, show seq.length + 1 - l = 0 from by omega]
  simp [dedupConsec]

theorem minimizerPositions_ne_nil {h : Nat → Nat} {k l : Nat} {seq : List Nat}
    (hlen : l ≤ seq.length) : minimizerPositions h k l seq ≠ [] := by
  apply dedupConsec_ne_nil
  have : seq.length + 1 - l ≠ 0 := by omega
  simp only [ne_eq, List.map_eq_nil_iff, List.range_eq_nil]
  exact this

theorem kmLookup_isSome_iff {m : List (Nat × Nat)} {v : Nat} :
    (kmLookup m v).isSome ↔ v ∈ m.map Prod.fst := by
  rw [kmLookup]
  induction m with
  | nil => simp
  | cons e t ih =>
    by_cases he : e.1 = v
    · simp [List.find?_cons, he]
    · have : (e.1 == v) = false := by simp [he]
      simp only [List.find?_cons, this, List.map_cons, List.mem_cons]
      rw [ih]
      simp [he, Ne.symm he]

theorem kmLookup_append_left {m m' : List (Nat × Nat)} {v : Nat}
    (h : (kmLookup m v).isSome) : kmLookup (m ++ m') v = kmLookup m v := by
  rw [kmLookup, kmLookup] at *
  rw [List.find?_append]
  rcases ho : m.find? (fun p => p.1 == v) with _ | e
  · rw [ho] at h; simp at h
  · simp [ho]

/-- Every value seen by the remap-building fold ends up as a key. -/
theorem buildKmerMap_fold_mem :
    ∀ (vs : List Nat) (m : List (Nat × Nat)) (c v : Nat),
      ((kmLookup m v).isSome ∨ v ∈ vs) →
      (kmLookup ((vs.foldl (fun acc kmer =>
        if (kmLookup acc.1 kmer).isSome then acc
        else (acc.1 ++ [(kmer, acc.2)], acc.2 + 1)) (m, c)).1) v).isSome := by
  intro vs
  induction vs with
  | nil =>
    intro m c v hv
    rcases hv with hv | hv
    · simpa using hv
    · simp at hv
  | cons u t ih =>
    intro m c v hv
    simp only [List.foldl_cons]
    by_cases hu : (kmLookup m u).isSome
    · rw [if_pos hu]
      apply ih
      rcases hv with hv | hv
      · exact Or.inl hv
      · rcases List.mem_cons.mp hv with hv | hv
        · subst hv; exact Or.inl hu
        · exact Or.inr hv
    · rw [if_neg hu]
      apply ih
      by_cases hveq : v = u
      · subst hveq
        left
        have ho : List.find? (fun p => p.1 == v) m = none := by
          rcases hfo : List.find? (fun p => p.1 == v) m with _ | e
          · exact hfo
          · exfalso
            apply hu
            rw [kmLookup, hfo]
            simp
        have hfind : List.find? (fun p => p.1 == v) (m ++ [(v, c)]) = some (v, c) := by
          rw [List.find?_append, ho]
          simp
        rw [kmLookup, hfind]
        simp
      · rcases hv with hv | hv
        · left
          rw [kmLookup_append_left hv]
          exact hv
        · rcases List.mem_cons.mp hv with hv | hv
          · exact absurd hv hveq
          · exact Or.inr hv

/-- Keys already present keep their id through the fold (the map only
grows by appending). -/
theorem buildKmerMap_fold_stable :
    ∀ (vs : List Nat) (m : List (Nat × Nat)) (c v : Nat),
      (kmLookup m v).isSome →
      kmLookup ((vs.foldl (fun acc kmer =>
        if (kmLookup acc.1 kmer).isSome then acc
        else (acc.1 ++ [(kmer, acc.2)], acc.2 + 1)) (m, c)).1) v = kmLookup m v := by
  intro vs
  induction vs with
  | nil => intro m c v hv; simp
  | cons u t ih =>
    intro m c v hv
    simp only [List.foldl_cons]
    by_cases hu : (kmLookup m u).isSome
    · rw [if_pos hu]
      exact ih m c v hv
    · rw [if_neg hu]
      rw [ih (m ++ [(u, c)]) (c + 1) v (by rw [kmLookup_append_left hv]; exact hv)]
      exact kmLookup_append_left hv

/-- All ids handed out by the fold are at least the starting id. -/
theorem buildKmerMap_fold_values :
    ∀ (vs : List Nat) (m : List (Nat × Nat)) (c s : Nat),
      (∀ e ∈ m, s ≤ e.2) → s ≤ c →
      ∀ e ∈ (vs.foldl (fun acc kmer =>
        if (kmLookup acc.1 kmer).isSome then acc
        else (acc.1 ++ [(kmer, acc.2)], acc.2 + 1)) (m, c)).1, s ≤ e.2 := by
  intro vs
  induction vs with
  | nil => intro m c s hm _ e he; exact hm e he
  | cons u t ih =>
    intro m c s hm hc e
    simp only [List.foldl_cons]
    by_cases hu : (kmLookup m u).isSome
    · rw [if_pos hu]
      exact fun he => ih m c s hm hc e he
    · rw [if_neg hu]
      refine fun he => ih (m ++ [(u, c)]) (c + 1) s ?_ (by omega) e he
      intro e' he'
      rcases List.mem_append.mp he' with h | h
      · exact hm e' h
      · simp at h
        rw [h]
        exact hc

theorem buildKmerMap_fold_snd :
    ∀ (vs : List Nat) (m : List (Nat × Nat)) (c : Nat),
      (vs.foldl (fun acc kmer =>
        if (kmLookup acc.1 kmer).isSome then acc
        else (acc.1 ++ [(kmer, acc.2)], acc.2 + 1)) (m, c)).2
      = c + (vs.toFinset \ (m.map Prod.fst).toFinset).card := by
  intro vs
  induction vs with
  | nil => intro m c; simp
  | cons u t ih =>
    intro m c
    simp only [List.foldl_cons]
    by_cases hu : (kmLookup m u).isSome
    · rw [if_pos hu, ih m c]
      have humem : u ∈ (m.map Prod.fst).toFinset :=
        List.mem_toFinset.mpr (kmLookup_isSome_iff.mp hu)
      rw [List.toFinset_cons, Finset.insert_sdiff_of_mem _ humem]
    · rw [if_neg hu, ih (m ++ [(u, c)]) (c + 1)]
      have hunm : u ∉ (m.map Prod.fst).toFinset := by
        intro hmem
        exact hu (kmLookup_isSome_iff.mpr (List.mem_toFinset.mp hmem))
      have hK' : ((m ++ [(u, c)]).map Prod.fst).toFinset
          = insert u (m.map Prod.fst).toFinset := by
        rw [List.map_append, List.toFinset_append]
        rw [Finset.union_comm]
        simp [Finset.insert_eq, Finset.union_comm]
      rw [hK', List.toFinset_cons,
        Finset.insert_sdiff_of_not_mem _ hunm, Finset.sdiff_insert]
      by_cases huA : u ∈ t.toFinset \ (m.map Prod.fst).toFinset
      · rw [Finset.insert_eq_self.mpr huA, Finset.card_erase_of_mem huA]
        have : 0 < (t.toFinset \ (m.map Prod.fst).toFinset).card :=
          Finset.card_pos.mpr ⟨u, huA⟩
        omega
      · rw [Finset.card_insert_of_not_mem huA, Finset.erase_eq_of_not_mem huA]
        omega

theorem buildKmerMap_snd (s : Nat) (vs : List Nat) :
    (buildKmerMap s vs).2 = s + vs.dedup.length := by
  rw [buildKmerMap, buildKmerMap_fold_snd]
  simp [List.card_toFinset]

/-- **C8.**  The byte width of encoded minimizer ids: `ceil(2k/8)` when
the raw values are kept, and `max(1, ceil(log2(s + D) / 8))` under
remapping, where `s` is 1 iff `skip_zero` and `D` is the number of
distinct minimizer values of the text
(`Nat.clog 2` is the ceiling base-2 logarithm, matching
`next_power_of_two().trailing_zeros()`). -/
theorem width_formula (p : MinimizerParams) (h : Nat → Nat) (seq : List Nat) :
    (sketchWithStats p h seq).1.kmer_width =
      if p.remap then
        max 1 ((Nat.clog 2 ((if p.skip_zero then 1 else 0)
          + ((minimizerPositions h p.k p.l seq).map
              (fun pos => toWord (kmerAt seq p.k pos))).dedup.length) + 7) / 8)
      else (2 * p.k + 7) / 8 := by
  cases hr : p.remap
  · show (if p.remap then _ else ((([] : List (Nat × Nat)), (p.k + 3) / 4)) : List (Nat × Nat) × Nat).2 = _
    rw [hr]
    simp only [if_false, Bool.false_eq_true]
    omega
  · show (if p.remap then
        ((buildKmerMap (if p.skip_zero then 1 else 0)
            ((minimizerPositions h p.k p.l seq).map
              (fun pos => toWord (kmerAt seq p.k pos)))).1,
          max ((Nat.clog 2 (buildKmerMap (if p.skip_zero then 1 else 0)
            ((minimizerPositions h p.k p.l seq).map
              (fun pos => toWord (kmerAt seq p.k pos)))).2 + 7) / 8) 1)
      else (([] : List (Nat × Nat)), (p.k + 3) / 4)).2 = _
    rw [hr]
    simp only [if_true]
    rw [buildKmerMap_snd]
    rw [Nat.max_comm]

theorem sketch_min_poss (p : MinimizerParams) (h : Nat → Nat) (seq : List Nat) :
    (sketchWithStats p h seq).1.min_poss = minimizerPositions h p.k p.l seq := rfl

theorem sketch_params (p : MinimizerParams) (h : Nat → Nat) (seq : List Nat) :
    (sketchWithStats p h seq).1.params = p := rfl

theorem kmer_width_pos (p : MinimizerParams) (h : Nat → Nat) (seq : List Nat)
    (hk : 1 ≤ p.k) : 1 ≤ (sketchWithStats p h seq).1.kmer_width := by
  rw [width_formula]
  split
  · omega
  · omega

/-- **C7.**  Round-trip of positions: for every minimizer index
`i < |pos_map|`, `ms_pos_to_plain_pos(W*i)` returns `pos_map[i]`, which
lies in `[0, |T| - k]`; any byte offset that is not a multiple of `W`
inverts to `None`. -/
theorem ms_pos_round_trip (p : MinimizerParams) (h : Nat → Nat) (seq : List Nat)
    (hk : 1 ≤ p.k) (hkl : p.k ≤ p.l) :
    (∀ i, i < (sketchWithStats p h seq).1.min_poss.length →
      (sketchWithStats p h seq).1.msPosToPlainPos ((sketchWithStats p h seq).1.kmer_width * i)
        = some ((sketchWithStats p h seq).1.min_poss.getD i 0) ∧
      (sketchWithStats p h seq).1.min_poss.getD i 0 ≤ seq.length - p.k) ∧
    (∀ off, ¬ (sketchWithStats p h seq).1.kmer_width ∣ off →
      (sketchWithStats p h seq).1.msPosToPlainPos off = none) := by
  have hw := kmer_width_pos p h seq hk
  constructor
  · intro i hi
    constructor
    · rw [MinimizerSketcher.msPosToPlainPos]
      rw [if_neg (by simp [Nat.mul_mod_right])]
      rw [Nat.mul_div_cancel_left i (by omega)]
      rw [sketch_min_poss] at hi ⊢
      rw [List.get?_eq_getElem?, List.getElem?_eq_getElem hi]
      rw [List.getD_eq_getElem _ _ hi]
    · rw [sketch_min_poss] at hi ⊢
      have hmem : (minimizerPositions h p.k p.l seq).getD i 0
          ∈ minimizerPositions h p.k p.l seq := by
        rw [List.getD_eq_getElem _ _ hi]
        exact List.getElem_mem hi
      have := minimizerPositions_bounds hkl _ hmem
      omega
  · intro off hoff
    rw [MinimizerSketcher.msPosToPlainPos, if_pos]
    intro hmod
    exact hoff (Nat.dvd_of_mod_eq_zero hmod)

/-- Witness for `ms_pos_round_trip` at `k = l = 1` on a two-byte text. -/
theorem ms_pos_round_trip_witness :
    (1 ≤ (1 : Nat) ∧ 1 ≤ (1 : Nat)) ∧
    ((∀ i, i < (sketchWithStats ⟨1, 1, false, false⟩ (fun _ => 0) [0, 1]).1.min_poss.length →
      (sketchWithStats ⟨1, 1, false, false⟩ (fun _ => 0) [0, 1]).1.msPosToPlainPos
          ((sketchWithStats ⟨1, 1, false, false⟩ (fun _ => 0) [0, 1]).1.kmer_width * i)
        = some ((sketchWithStats ⟨1, 1, false, false⟩ (fun _ => 0) [0, 1]).1.min_poss.getD i 0) ∧
      (sketchWithStats ⟨1, 1, false, false⟩ (fun _ => 0) [0, 1]).1.min_poss.getD i 0
        ≤ ([0, 1] : List Nat).length - 1) ∧
    (∀ off, ¬ (sketchWithStats ⟨1, 1, false, false⟩ (fun _ => 0) [0, 1]).1.kmer_width ∣ off →
      (sketchWithStats ⟨1, 1, false, false⟩ (fun _ => 0) [0, 1]).1.msPosToPlainPos off = none)) :=
  ⟨⟨le_refl 1, le_refl 1⟩,
   ms_pos_round_trip ⟨1, 1, false, false⟩ (fun _ => 0) [0, 1] (le_refl 1) (le_refl 1)⟩

/-- **C5.**  `UIndex::query` with the minimizer sketcher returns `None`
exactly when the pattern is shorter than `l`; a sketched pattern with an
unknown minimizer yields `Some` of an empty list; every pattern of
length at least `l` yields `Some` of a (possibly empty) list. -/
theorem query_none_conditions (p : MinimizerParams) (h : Nat → Nat)
    (textSeq : List Nat) (indexQ : List Nat → List Nat)
    (msPosToPlain : Nat → Option Nat) (boundaries : List Nat)
    (seq pattern : List Nat) :
    (uQuery ((sketchWithStats p h textSeq).1.sketch h) indexQ msPosToPlain boundaries
        seq pattern = none
      ↔ pattern.length < p.l) ∧
    ((sketchWithStats p h textSeq).1.sketch h pattern = .error .unknownMinimizer →
      uQuery ((sketchWithStats p h textSeq).1.sketch h) indexQ msPosToPlain boundaries
        seq pattern = some []) ∧
    (p.l ≤ pattern.length →
      ∃ out, uQuery ((sketchWithStats p h textSeq).1.sketch h) indexQ msPosToPlain boundaries
        seq pattern = some out) := by
  have hparams : (sketchWithStats p h textSeq).1.params = p := rfl
  rcases hP : (minimizerPositions h p.k p.l pattern).head? with _ | off
  · -- no minimizer in the pattern: `TooShort`
    have hnil : minimizerPositions h p.k p.l pattern = [] := by
      cases hc : minimizerPositions h p.k p.l pattern
      · rfl
      · rw [hc] at hP; simp at hP
    have hshort : pattern.length < p.l := by
      by_contra hge
      exact minimizerPositions_ne_nil (by omega) hnil
    have hsk : (sketchWithStats p h textSeq).1.sketch h pattern = .error .tooShort := by
      rw [MinimizerSketcher.sketch, hparams, hP]
    refine ⟨?_, ?_, ?_⟩
    · rw [uQuery, hsk]
      simp [hshort]
    · intro hunk
      rw [hsk] at hunk
      simp at hunk
    · intro hge; omega
  · -- the pattern contains a minimizer
    have hnn : pattern.length < p.l → False := by
      intro hlt
      rw [minimizerPositions_eq_nil hlt] at hP
      simp at hP
    rcases hR : remapMinimizerValues (sketchWithStats p h textSeq).1.params.remap
        (sketchWithStats p h textSeq).1.kmer_map
        (sketchWithStats p h textSeq).1.kmer_width
        ((minimizerPositions h p.k p.l pattern).map
          (fun pos => toWord (kmerAt pattern p.k pos))) with _ | msP
    · have hsk : (sketchWithStats p h textSeq).1.sketch h pattern
          = .error .unknownMinimizer := by
        rw [MinimizerSketcher.sketch, hparams, hP]
        rw [hparams] at hR
        rw [hR]
      refine ⟨?_, ?_, ?_⟩
      · rw [uQuery, hsk]
        constructor
        · intro hc
          exact absurd hc (by simp)
        · intro hlt
          exact (hnn hlt).elim
      · intro _
        rw [uQuery, hsk]
      · intro _
        exact ⟨[], by rw [uQuery, hsk]⟩
    · have hsk : (sketchWithStats p h textSeq).1.sketch h pattern = .ok (msP, off) := by
        rw [MinimizerSketcher.sketch, hparams, hP]
        rw [hparams] at hR
        rw [hR]
      refine ⟨?_, ?_, ?_⟩
      · rw [uQuery, hsk]
        constructor
        · intro hc
          exact absurd hc (by simp)
        · intro hlt
          exact (hnn hlt).elim
      · intro hunk
        rw [hsk] at hunk
        simp at hunk
      · intro _
        exact ⟨(indexQ msP).filterMap (uCheckCandidate seq pattern msPosToPlain off boundaries),
          by rw [uQuery, hsk]⟩

/-- **C10.**  Every stored SA entry of `LibSaisSa` (any width) and of
`DivSufSortSa` with `compress = true` is a multiple of the width
(`libsais`'s own output is abstracted as the functions `e8/e16/e32/e`);
consequently every minimizer-space position a `SuffixArray` query emits
over such an array is `W`-aligned and `ms_pos_to_plain_pos` never
returns `None` on it, so the `misaligned_ms_pos` discard branch of
`UIndex::query` is unreachable. -/
theorem builder_alignment (w : Nat) (hw : 1 ≤ w)
    (e8 e16 e32 e : List Nat → List Nat) (msSeq : List Nat)
    (p : MinimizerParams) (h : Nat → Nat) (textSeq : List Nat)
    (sketchLen : Nat) (ms msP : List Nat) :
    (∀ x ∈ libSaisBuild e8 e16 e32 w msSeq, w ∣ x) ∧
    (∀ x ∈ divSufSortBuild e true w msSeq, w ∣ x) ∧
    (∀ sa : List Nat,
      (∀ x ∈ sa, (sketchWithStats p h textSeq).1.kmer_width ∣ x ∧
        x / (sketchWithStats p h textSeq).1.kmer_width
          < (sketchWithStats p h textSeq).1.min_poss.length) →
      ∀ msPos ∈ saQueryStored sa (sketchWithStats p h textSeq).1.kmer_width sketchLen ms msP,
        (sketchWithStats p h textSeq).1.kmer_width ∣ msPos ∧
        (sketchWithStats p h textSeq).1.msPosToPlainPos msPos ≠ none) := by
  refine ⟨?_, ?_, ?_⟩
  · intro x hx
    rcases w with _ | _ | _ | n
    · omega
    · exact one_dvd x
    · rw [libSaisBuild] at hx
      rcases List.mem_map.mp hx with ⟨y, _, hy⟩
      exact ⟨y, by omega⟩
    · rw [libSaisBuild] at hx
      case x_1 => omega
      case x_2 => omega
      case x_3 => omega
      rcases List.mem_map.mp hx with ⟨y, _, hy⟩
      exact ⟨y, by rw [← hy]; ring⟩
  · intro x hx
    rw [divSufSortBuild] at hx
    simp only [if_pos rfl] at hx
    have := (List.mem_filter.mp hx).2
    exact Nat.dvd_of_mod_eq_zero (by simpa using this)
  · intro sa hsa msPos hmem
    rcases List.mem_map.mp hmem with ⟨t, ht, hte⟩
    have htr := List.mem_range'_1.mp ht
    have hbound := saSearch_bounds
      (saCf sa (sketchWithStats p h textSeq).1.kmer_width sketchLen ms msP)
      sketchLen sa.length msP.length
    have htlt : t < sa.length := by
      have h1 : t < (saSearchStored sa (sketchWithStats p h textSeq).1.kmer_width
          sketchLen ms msP).1
        + (saSearchStored sa (sketchWithStats p h textSeq).1.kmer_width
          sketchLen ms msP).2 := by omega
      exact lt_of_lt_of_le h1 hbound
    have hmemsa : sa.getD t 0 ∈ sa := by
      rw [List.getD_eq_getElem _ _ htlt]
      exact List.getElem_mem htlt
    have hx := hsa _ hmemsa
    rw [← hte]
    refine ⟨hx.1, ?_⟩
    rw [MinimizerSketcher.msPosToPlainPos,
      if_neg (by
        simp only [ne_eq, not_not]
        obtain ⟨y, hy⟩ := hx.1
        rw [hy]
        exact Nat.mul_mod_right _ _)]
    have := List.get?_eq_getElem? (sketchWithStats p h textSeq).1.min_poss
      (sa.getD t 0 / (sketchWithStats p h textSeq).1.kmer_width)
    rw [this, List.getElem?_eq_getElem hx.2]
    simp

/-- Witness for `builder_alignment`: width 1 on tiny inputs. -/
theorem builder_alignment_witness :
    (∀ x ∈ libSaisBuild (fun _ => [0]) (fun _ => [0]) (fun _ => [0]) 1 [0], (1 : Nat) ∣ x) ∧
    (∀ x ∈ divSufSortBuild (fun _ => [0]) true 1 [0], (1 : Nat) ∣ x) ∧
    (∀ sa : List Nat,
      (∀ x ∈ sa, (sketchWithStats ⟨1, 1, false, false⟩ (fun _ => 0) [0, 1]).1.kmer_width ∣ x ∧
        x / (sketchWithStats ⟨1, 1, false, false⟩ (fun _ => 0) [0, 1]).1.kmer_width
          < (sketchWithStats ⟨1, 1, false, false⟩ (fun _ => 0) [0, 1]).1.min_poss.length) →
      ∀ msPos ∈ saQueryStored sa
          (sketchWithStats ⟨1, 1, false, false⟩ (fun _ => 0) [0, 1]).1.kmer_width 0 [] [],
        (sketchWithStats ⟨1, 1, false, false⟩ (fun _ => 0) [0, 1]).1.kmer_width ∣ msPos ∧
        (sketchWithStats ⟨1, 1, false, false⟩ (fun _ => 0) [0, 1]).1.msPosToPlainPos msPos
          ≠ none) :=
  builder_alignment 1 (le_refl 1) (fun _ => [0]) (fun _ => [0]) (fun _ => [0]) (fun _ => [0])
    [0] ⟨1, 1, false, false⟩ (fun _ => 0) [0, 1] 0 [] []

/-- **C3.**  On a sorted, `W`-aligned suffix array over the MS string,
`sa_search` returns `(pos, cnt)` with `pos + cnt ≤ |SA|` such that the
SA slots in `[pos, pos + cnt)` are exactly those whose suffixes have the
sketched pattern as a prefix, and `query` emits exactly
`SA[pos], …, SA[pos + cnt - 1]`. -/
theorem sa_search_exact (sa : List Nat) (w sketchLen : Nat) (ms pattern : List Nat)
    (hw : 0 < w) (hms : ms.length = sketchLen * w) (hwp : w ∣ pattern.length)
    (hbm : ∀ b ∈ ms, b < 256) (hbp : ∀ b ∈ pattern, b < 256)
    (hsaA : ∀ t, t < sa.length → w ∣ sa.getD t 0)
    (hsorted : ∀ a b, a ≤ b → b < sa.length →
      cmpL (ms.drop (sa.getD a 0)) (ms.drop (sa.getD b 0)) ≠ .gt)
    (hpne : pattern ≠ []) :
    (saSearchStored sa w sketchLen ms pattern).1
      + (saSearchStored sa w sketchLen ms pattern).2 ≤ sa.length ∧
    (∀ t, t < sa.length →
      ((saSearchStored sa w sketchLen ms pattern).1 ≤ t ∧
        t < (saSearchStored sa w sketchLen ms pattern).1
          + (saSearchStored sa w sketchLen ms pattern).2
       ↔ pattern <+: ms.drop (sa.getD t 0))) ∧
    saQueryStored sa w sketchLen ms pattern
      = (List.range' (saSearchStored sa w sketchLen ms pattern).1
          (saSearchStored sa w sketchLen ms pattern).2).map (fun t => sa.getD t 0) := by
  have hmain := saSearchStored_spec hw hms hwp hbm hbp hsaA hsorted hpne
  exact ⟨hmain.1, hmain.2, rfl⟩

/-- Witness for `sa_search_exact`: `w = 1`, `ms = [1, 2]`,
`sa = [0, 1]` (suffix order), pattern `[2]`. -/
theorem sa_search_exact_witness :
    (saSearchStored [0, 1] 1 2 [1, 2] [2]).1
      + (saSearchStored [0, 1] 1 2 [1, 2] [2]).2 ≤ ([0, 1] : List Nat).length ∧
    (∀ t, t < ([0, 1] : List Nat).length →
      ((saSearchStored [0, 1] 1 2 [1, 2] [2]).1 ≤ t ∧
        t < (saSearchStored [0, 1] 1 2 [1, 2] [2]).1
          + (saSearchStored [0, 1] 1 2 [1, 2] [2]).2
       ↔ [2] <+: ([1, 2] : List Nat).drop (([0, 1] : List Nat).getD t 0))) ∧
    saQueryStored [0, 1] 1 2 [1, 2] [2]
      = (List.range' (saSearchStored [0, 1] 1 2 [1, 2] [2]).1
          (saSearchStored [0, 1] 1 2 [1, 2] [2]).2).map
          (fun t => ([0, 1] : List Nat).getD t 0) :=
  sa_search_exact [0, 1] 1 2 [1, 2] [2] (by decide) (by decide) (by decide)
    (by decide) (by decide) (fun t _ => one_dvd _)
    (by
      intro a b hab hb
      have hb2 : b < 2 := by simpa using hb
      interval_cases b <;> interval_cases a <;> decide)
    (by decide)

/-! ## The strict successor on sorted boundary lists -/

theorem succStrict_some_spec :
    ∀ {bs : List Nat} {x : Nat} {rb : Nat × Nat}, succStrict bs x = some rb →
      rb.1 < bs.length ∧ rb.2 = bs.getD rb.1 0 ∧ x < rb.2 ∧
      ∀ j, j < rb.1 → bs.getD j 0 ≤ x := by
  intro bs
  induction bs with
  | nil => intro x rb h; simp [succStrict] at h
  | cons b rest ih =>
    intro x rb h
    rw [succStrict] at h
    by_cases hb : x < b
    · rw [if_pos hb] at h
      injection h with h
      subst h
      exact ⟨by simp, rfl, hb, fun j hj => absurd hj (Nat.not_lt_zero j)⟩
    · rw [if_neg hb] at h
      rcases Option.map_eq_some'.mp h with ⟨rb', hrb', rfl⟩
      obtain ⟨h1, h2, h3, h4⟩ := ih hrb'
      refine ⟨by simpa using h1, by simpa using h2, h3, ?_⟩
      intro j hj
      cases j with
      | zero => simpa using Nat.le_of_not_lt hb
      | succ j' => simpa using h4 j' (by omega)

theorem succStrict_exists :
    ∀ {bs : List Nat} {x j : Nat}, j < bs.length → x < bs.getD j 0 →
      ∃ rb, succStrict bs x = some rb := by
  intro bs
  induction bs with
  | nil => intro x j hj hx; simp at hj
  | cons b rest ih =>
    intro x j hj hx
    rw [succStrict]
    by_cases hb : x < b
    · rw [if_pos hb]
      exact ⟨_, rfl⟩
    · rw [if_neg hb]
      cases j with
      | zero => simp only [List.getD_cons_zero] at hx; omega
      | succ j' =>
        obtain ⟨rb, hrb⟩ := @ih x j' (by simpa using hj) (by simpa using hx)
        rw [hrb]
        exact ⟨_, rfl⟩

theorem sorted_getD_le {bs : List Nat} (hs : bs.Sorted (· ≤ ·)) {i j : Nat}
    (hij : i ≤ j) (hj : j < bs.length) : bs.getD i 0 ≤ bs.getD j 0 := by
  rcases Nat.eq_or_lt_of_le hij with rfl | hlt
  · exact le_refl _
  · have hi : i < bs.length := by omega
    rw [List.getD_eq_getElem _ _ hi, List.getD_eq_getElem _ _ hj]
    exact List.pairwise_iff_getElem.mp hs i j hi hj hlt

theorem rangeBoundaries_cons (r : Nat × Nat) (rest : List (Nat × Nat)) :
    rangeBoundaries (r :: rest) = r.1 :: r.2 :: rangeBoundaries rest := by
  simp [rangeBoundaries]

theorem rangeBoundaries_length (ranges : List (Nat × Nat)) :
    (rangeBoundaries ranges).length = 2 * ranges.length := by
  induction ranges with
  | nil => simp [rangeBoundaries]
  | cons r rest ih =>
    rw [rangeBoundaries_cons]
    simp only [List.length_cons, ih]
    ring

theorem rangeBoundaries_getD_snd :
    ∀ (ranges : List (Nat × Nat)) (j : Nat), j < ranges.length →
      (rangeBoundaries ranges).getD (2 * j + 1) 0 = (ranges.getD j (0, 0)).2 := by
  intro ranges
  induction ranges with
  | nil => intro j hj; simp at hj
  | cons r rest ih =>
    intro j hj
    rw [rangeBoundaries_cons]
    cases j with
    | zero => simp
    | succ j' =>
      have he : 2 * (j' + 1) + 1 = (2 * j' + 1) + 1 + 1 := by ring
      rw [he]
      simp only [List.getD_cons_succ]
      exact ih j' (by simpa using hj)

theorem rangeBoundaries_getD_fst :
    ∀ (ranges : List (Nat × Nat)) (j : Nat), j < ranges.length →
      (rangeBoundaries ranges).getD (2 * j) 0 = (ranges.getD j (0, 0)).1 := by
  intro ranges
  induction ranges with
  | nil => intro j hj; simp at hj
  | cons r rest ih =>
    intro j hj
    rw [rangeBoundaries_cons]
    cases j with
    | zero => simp
    | succ j' =>
      have he : 2 * (j' + 1) = (2 * j') + 1 + 1 := by ring
      rw [he]
      simp only [List.getD_cons_succ]
      exact ih j' (by simpa using hj)

/-- Inversion of a position emitted by `uQuery`: it passed the bounds
check, the plain-text verification and the strict-successor range
check. -/
theorem uQuery_mem_elim
    {sketchP : List Nat → Except MSketchError (List Nat × Nat)}
    {indexQ : List Nat → List Nat} {msPosToPlain : Nat → Option Nat}
    {bs seq pattern out : List Nat} {pos : Nat}
    (hq : uQuery sketchP indexQ msPosToPlain bs seq pattern = some out)
    (hpos : pos ∈ out) :
    ∃ rb, succStrict bs pos = some rb ∧ pos + pattern.length ≤ rb.2 ∧
      pos + pattern.length ≤ seq.length ∧
      (seq.drop pos).take pattern.length = pattern := by
  rw [uQuery] at hq
  cases hsk : sketchP pattern with
  | error e =>
    rw [hsk] at hq
    cases e
    · simp at hq
    · simp at hq
      subst hq
      simp at hpos
  | ok po =>
    obtain ⟨msP, off⟩ := po
    rw [hsk] at hq
    simp only [Option.some.injEq] at hq
    subst hq
    rcases List.mem_filterMap.mp hpos with ⟨msPos, _, hc⟩
    cases hmp : msPosToPlain msPos with
    | none =>
      simp only [uCheckCandidate, hmp] at hc
      exact Option.noConfusion hc
    | some plainPos =>
      simp only [uCheckCandidate, hmp] at hc
      by_cases h1 : plainPos < off
      · rw [if_pos h1] at hc; simp at hc
      · rw [if_neg h1] at hc
        by_cases h2 : plainPos - off + pattern.length > seq.length
        · rw [if_pos h2] at hc; simp at hc
        · rw [if_neg h2] at hc
          by_cases h3 : (seq.drop (plainPos - off)).take pattern.length ≠ pattern
          · rw [if_pos h3] at hc; simp at hc
          · rw [if_neg h3] at hc
            push_neg at h3
            cases hss : succStrict bs (plainPos - off) with
            | none =>
              simp only [hss] at hc
              exact Option.noConfusion hc
            | some rb =>
              simp only [hss] at hc
              by_cases h4 : plainPos - off + pattern.length > rb.2
              · rw [if_pos h4] at hc; simp at hc
              · rw [if_neg h4] at hc
                simp only [Option.some.injEq] at hc
                subst hc
                exact ⟨rb, hss, by omega, by omega, h3⟩

/-- **C1** (amended).  Every position emitted by `UIndex::query` matches
the pattern in the plain text and fits inside the text; and whenever the
emitted position lies inside one of the input ranges (boundaries sorted),
the whole match `[pos, pos + |P|)` stays inside that range.  As stated
the claim is stronger — it also asserts the interval always lies inside
*some* input range — and that part is false: a match starting in a gap
between two ranges is emitted as long as it ends before the next
boundary (see the counterexample). -/
theorem match_soundness
    (sketchP : List Nat → Except MSketchError (List Nat × Nat))
    (indexQ : List Nat → List Nat) (msPosToPlain : Nat → Option Nat)
    (ranges : List (Nat × Nat)) (seq pattern out : List Nat) (pos : Nat)
    (hq : uQuery sketchP indexQ msPosToPlain (rangeBoundaries ranges) seq pattern
      = some out)
    (hpos : pos ∈ out)
    (hsorted : (rangeBoundaries ranges).Sorted (· ≤ ·)) :
    ((seq.drop pos).take pattern.length = pattern ∧ pos + pattern.length ≤ seq.length) ∧
    ∀ j, j < ranges.length → (ranges.getD j (0, 0)).1 ≤ pos →
      pos < (ranges.getD j (0, 0)).2 →
      pos + pattern.length ≤ (ranges.getD j (0, 0)).2 := by
  obtain ⟨rb, hss, hend, hlen, hslice⟩ := uQuery_mem_elim hq hpos
  obtain ⟨hi, hb, hxb, hmin⟩ := succStrict_some_spec hss
  refine ⟨⟨hslice, hlen⟩, ?_⟩
  intro j hj hj1 hj2
  have hb2 : (rangeBoundaries ranges).getD (2 * j + 1) 0 = (ranges.getD j (0, 0)).2 :=
    rangeBoundaries_getD_snd ranges j hj
  have hjlt : 2 * j + 1 < (rangeBoundaries ranges).length := by
    rw [rangeBoundaries_length]
    omega
  have hile : rb.1 ≤ 2 * j + 1 := by
    by_contra hgt
    have := hmin (2 * j + 1) (by omega)
    rw [hb2] at this
    omega
  have := sorted_getD_le hsorted hile hjlt
  rw [hb2] at this
  omega

/-- Counterexample to C1 as stated: text `1 2 3 1 2 3 1 2`, ranges
`[0, 2)` and `[6, 8)`, minimizer parameters `k = l = 1` (alphabet
`{1, 2, 3}`), suffix array `[6, 3, 0, 7, 4, 1, 5, 2]` over the MS
string.  Querying `3 1 2` emits position 2, which matches the text but
lies in the gap between the two ranges. -/
theorem match_soundness_cex :
    2 ∈ (uQuery
        ((sketchWithStats ⟨1, 1, false, false⟩ (fun v => v)
          [1, 2, 3, 1, 2, 3, 1, 2]).1.sketch (fun v => v))
        (fun msP => saQueryStored [6, 3, 0, 7, 4, 1, 5, 2] 1 8
          (sketchWithStats ⟨1, 1, false, false⟩ (fun v => v)
            [1, 2, 3, 1, 2, 3, 1, 2]).2 msP)
        ((sketchWithStats ⟨1, 1, false, false⟩ (fun v => v)
          [1, 2, 3, 1, 2, 3, 1, 2]).1.msPosToPlainPos)
        (rangeBoundaries [(0, 2), (6, 8)])
        [1, 2, 3, 1, 2, 3, 1, 2] [3, 1, 2]).getD [] ∧
    ∀ r ∈ [((0 : Nat), (2 : Nat)), (6, 8)],
      ¬ (r.1 ≤ 2 ∧ 2 + ([3, 1, 2] : List Nat).length ≤ r.2) := by
  decide

/-- Witness for `match_soundness`: the same text with the single range
`[0, 8)`; the query emits `[5, 2]` and position 2 stays inside the
range. -/
theorem match_soundness_witness :
    (((([1, 2, 3, 1, 2, 3, 1, 2] : List Nat).drop 2).take
        ([3, 1, 2] : List Nat).length = [3, 1, 2] ∧
      2 + ([3, 1, 2] : List Nat).length ≤ ([1, 2, 3, 1, 2, 3, 1, 2] : List Nat).length) ∧
    ∀ j, j < ([((0 : Nat), (8 : Nat))] : List (Nat × Nat)).length →
      (([((0 : Nat), (8 : Nat))] : List (Nat × Nat)).getD j (0, 0)).1 ≤ 2 →
      2 < (([((0 : Nat), (8 : Nat))] : List (Nat × Nat)).getD j (0, 0)).2 →
      2 + ([3, 1, 2] : List Nat).length
        ≤ (([((0 : Nat), (8 : Nat))] : List (Nat × Nat)).getD j (0, 0)).2) :=
  match_soundness
    ((sketchWithStats ⟨1, 1, false, false⟩ (fun v => v)
      [1, 2, 3, 1, 2, 3, 1, 2]).1.sketch (fun v => v))
    (fun msP => saQueryStored [6, 3, 0, 7, 4, 1, 5, 2] 1 8
      (sketchWithStats ⟨1, 1, false, false⟩ (fun v => v)
        [1, 2, 3, 1, 2, 3, 1, 2]).2 msP)
    ((sketchWithStats ⟨1, 1, false, false⟩ (fun v => v)
      [1, 2, 3, 1, 2, 3, 1, 2]).1.msPosToPlainPos)
    [(0, 8)] [1, 2, 3, 1, 2, 3, 1, 2] [3, 1, 2] [5, 2] 2
    (by decide) (by decide) (by decide)

/-- Modelled from the spec: the first stored boundary at or *after* `x`,
with its rank — the rank/boundary pair the claim's range-check condition
speaks about. -/
def succAtOrAfter (bs : List Nat) (x : Nat) : Option (Nat × Nat) :=
  match bs with
  | [] => none
  | b :: rest =>
    if x ≤ b then some (0, b)
    else (succAtOrAfter rest x).map (fun rb => (rb.1 + 1, rb.2))

/-- The claim's acceptance condition, following its words: the first
boundary at or after `start` must be a segment end (odd rank) whose
value is at least `endp`. -/
def claimC6Accept (bs : List Nat) (start endp : Nat) : Bool :=
  match succAtOrAfter bs start with
  | none => false
  | some rb => rb.1 % 2 == 1 && decide (endp ≤ rb.2)

/-- **C6** (amended).  The range check of `UIndex::query` uses the
*strict* successor (`succ_unchecked::<true>`) and performs no rank-parity
test: an emitted position always comes with `succStrict` succeeding and
`pos + |P| ≤` its boundary value, and consequently (boundaries sorted) no
boundary lies strictly inside the emitted interval `(pos, pos + |P|)`.
The claim's condition — odd rank of the boundary at or after `start` —
is not what the code tests: a match starting exactly on a segment start
(even rank) is accepted, see the counterexample. -/
theorem range_check_no_crossing
    (sketchP : List Nat → Except MSketchError (List Nat × Nat))
    (indexQ : List Nat → List Nat) (msPosToPlain : Nat → Option Nat)
    (bs seq pattern out : List Nat) (pos : Nat)
    (hq : uQuery sketchP indexQ msPosToPlain bs seq pattern = some out)
    (hpos : pos ∈ out) (hsorted : bs.Sorted (· ≤ ·)) :
    (∃ rb, succStrict bs pos = some rb ∧ pos + pattern.length ≤ rb.2) ∧
    ∀ i, i < bs.length →
      ¬ (pos < bs.getD i 0 ∧ bs.getD i 0 < pos + pattern.length) := by
  obtain ⟨rb, hss, hend, _, _⟩ := uQuery_mem_elim hq hpos
  obtain ⟨hi, hb, hxb, hmin⟩ := succStrict_some_spec hss
  refine ⟨⟨rb, hss, hend⟩, ?_⟩
  intro i hilen ⟨hgt, hlt⟩
  have hile : rb.1 ≤ i := by
    by_contra hgt2
    have := hmin i (by omega)
    omega
  have := sorted_getD_le hsorted hile hilen
  omega

/-- Counterexample to C6 as stated: text `1 2 1 2`, single range
`[0, 4)`, `k = l = 1`, suffix array `[2, 0, 3, 1]`.  Querying `1 2`
emits position 0, yet the first boundary at or after 0 is the segment
*start* 0 (rank 0, even), so the claim's accept condition is false. -/
theorem range_check_parity_cex :
    0 ∈ (uQuery
        ((sketchWithStats ⟨1, 1, false, false⟩ (fun v => v)
          [1, 2, 1, 2]).1.sketch (fun v => v))
        (fun msP => saQueryStored [2, 0, 3, 1] 1 4
          (sketchWithStats ⟨1, 1, false, false⟩ (fun v => v) [1, 2, 1, 2]).2 msP)
        ((sketchWithStats ⟨1, 1, false, false⟩ (fun v => v)
          [1, 2, 1, 2]).1.msPosToPlainPos)
        (rangeBoundaries [(0, 4)])
        [1, 2, 1, 2] [1, 2]).getD [] ∧
    claimC6Accept (rangeBoundaries [(0, 4)]) 0 (0 + ([1, 2] : List Nat).length)
      = false := by
  decide

/-- Witness for `range_check_no_crossing` on the `1 2 1 2` instance at
emitted position 2. -/
theorem range_check_no_crossing_witness :
    (∃ rb, succStrict (rangeBoundaries [(0, 4)]) 2 = some rb ∧
      2 + ([1, 2] : List Nat).length ≤ rb.2) ∧
    ∀ i, i < (rangeBoundaries [(0, 4)]).length →
      ¬ (2 < (rangeBoundaries [(0, 4)]).getD i 0 ∧
        (rangeBoundaries [(0, 4)]).getD i 0 < 2 + ([1, 2] : List Nat).length) :=
  range_check_no_crossing
    ((sketchWithStats ⟨1, 1, false, false⟩ (fun v => v)
      [1, 2, 1, 2]).1.sketch (fun v => v))
    (fun msP => saQueryStored [2, 0, 3, 1] 1 4
      (sketchWithStats ⟨1, 1, false, false⟩ (fun v => v) [1, 2, 1, 2]).2 msP)
    ((sketchWithStats ⟨1, 1, false, false⟩ (fun v => v)
      [1, 2, 1, 2]).1.msPosToPlainPos)
    (rangeBoundaries [(0, 4)]) [1, 2, 1, 2] [1, 2] [2, 0] 2
    (by decide) (by decide) (by decide)

/-! ## The remapped MS string and its bytes (claim C4) -/

theorem toBEBytes_length (w v : Nat) : (toBEBytes w v).length = w := by
  simp [toBEBytes]

theorem div_pow_mod_eq (v w j : Nat) (hj : j < w) :
    (v % 256 ^ w) / 256 ^ j % 256 = v / 256 ^ j % 256 := by
  have hsplit : (256 : Nat) ^ w = 256 ^ j * 256 ^ (w - j) := by
    rw [← pow_add]
    congr 1
    omega
  rw [hsplit, Nat.mod_mul_right_div_self,
    Nat.mod_mod_of_dvd _ (dvd_pow_self 256 (by omega))]

theorem toBEBytes_succ (w v : Nat) :
    toBEBytes (w + 1) v = (v / 256 ^ w % 256) :: toBEBytes w (v % 256 ^ w) := by
  rw [toBEBytes, List.range_succ_eq_map, List.map_cons]
  congr 1
  rw [toBEBytes, List.map_map]
  apply List.map_congr_left
  intro i hi
  have hiw : i < w := List.mem_range.mp hi
  simp only [Function.comp_apply]
  rw [div_pow_mod_eq v w (w - 1 - i) (by omega)]
  exact congrArg (fun e => v / 256 ^ e % 256)
    (show w + 1 - 1 - (i + 1) = w - 1 - i by omega)

theorem beVal_toBEBytes : ∀ (w v : Nat), v < 256 ^ w → beVal (toBEBytes w v) = v := by
  intro w
  induction w with
  | zero =>
    intro v hv
    simp only [pow_zero, Nat.lt_one_iff] at hv
    subst hv
    rfl
  | succ w ih =>
    intro v hv
    rw [toBEBytes_succ, beVal_cons, toBEBytes_length,
      ih _ (Nat.mod_lt _ (by positivity))]
    have hdiv : v / 256 ^ w < 256 := by
      apply Nat.div_lt_of_lt_mul
      calc v < 256 ^ (w + 1) := hv
        _ = 256 ^ w * 256 := by rw [pow_succ]
    rw [Nat.mod_eq_of_lt hdiv]
    exact Nat.div_add_mod' v (256 ^ w)

theorem unitsAt_flatten {w : Nat} (hw : 0 < w) :
    ∀ (blocks : List (List Nat)), (∀ b ∈ blocks, b.length = w) →
      unitsAt w blocks.flatten = blocks.map beVal := by
  intro blocks
  induction blocks with
  | nil => intro _; simp [unitsAt_nil]
  | cons b rest ih =>
    intro hlen
    have hb : b.length = w := hlen b (by simp)
    rw [List.flatten_cons]
    rw [unitsAt_cons hw (by simp only [List.length_append]; omega)]
    rw [← hb, List.take_left, List.drop_left]
    rw [List.map_cons]
    congr 1
    rw [hb]
    exact ih (fun x hx => hlen x (by simp [hx]))

theorem kmLookup_mem {m : List (Nat × Nat)} {v id : Nat}
    (h : kmLookup m v = some id) : ∃ q ∈ m, q.2 = id := by
  rw [kmLookup] at h
  rcases Option.map_eq_some'.mp h with ⟨q, hq, hq2⟩
  exact ⟨q, List.mem_of_find?_eq_some hq, hq2⟩

theorem buildKmerMap_fold_upper :
    ∀ (vs : List Nat) (m : List (Nat × Nat)) (c : Nat),
      (∀ e ∈ m, e.2 < c) →
      ∀ e ∈ (vs.foldl (fun acc kmer =>
        if (kmLookup acc.1 kmer).isSome then acc
        else (acc.1 ++ [(kmer, acc.2)], acc.2 + 1)) (m, c)).1,
        e.2 < (vs.foldl (fun acc kmer =>
          if (kmLookup acc.1 kmer).isSome then acc
          else (acc.1 ++ [(kmer, acc.2)], acc.2 + 1)) (m, c)).2 := by
  intro vs
  induction vs with
  | nil => intro m c hm e he; exact hm e he
  | cons u t ih =>
    intro m c hm e
    simp only [List.foldl_cons]
    by_cases hu : (kmLookup m u).isSome
    · rw [if_pos hu]
      exact fun he => ih m c hm e he
    · rw [if_neg hu]
      refine fun he => ih (m ++ [(u, c)]) (c + 1) ?_ e he
      intro e' he'
      rcases List.mem_append.mp he' with hx | hx
      · have := hm e' hx
        omega
      · simp at hx
        rw [hx]
        exact Nat.lt_succ_self c

theorem buildKmerMap_lookup_isSome {s : Nat} {vs : List Nat} {v : Nat} (hv : v ∈ vs) :
    (kmLookup (buildKmerMap s vs).1 v).isSome := by
  rw [buildKmerMap]
  exact buildKmerMap_fold_mem vs [] s v (Or.inr hv)

theorem buildKmerMap_id_bounds {s : Nat} {vs : List Nat} {v id : Nat}
    (h : kmLookup (buildKmerMap s vs).1 v = some id) :
    s ≤ id ∧ id < (buildKmerMap s vs).2 := by
  rw [buildKmerMap] at h ⊢
  obtain ⟨q, hq, rfl⟩ := kmLookup_mem h
  constructor
  · exact buildKmerMap_fold_values vs [] s s (by simp) (le_refl s) q hq
  · exact buildKmerMap_fold_upper vs [] s (by simp) q hq

theorem mapM_kmLookup_spec (m : List (Nat × Nat)) :
    ∀ (vs : List Nat), (∀ v ∈ vs, (kmLookup m v).isSome) →
      ∃ ids, vs.mapM (kmLookup m) = some ids ∧
        ∀ id ∈ ids, ∃ v ∈ vs, kmLookup m v = some id := by
  intro vs
  induction vs with
  | nil => intro _; exact ⟨[], rfl, by simp⟩
  | cons v t ih =>
    intro hall
    obtain ⟨id, hid⟩ := Option.isSome_iff_exists.mp (hall v (by simp))
    obtain ⟨ids, hids, hprop⟩ := ih (fun u hu => hall u (by simp [hu]))
    refine ⟨id :: ids, ?_, ?_⟩
    · rw [List.mapM_cons, hid, hids]
      rfl
    · intro x hx
      rcases List.mem_cons.mp hx with rfl | hx
      · exact ⟨v, by simp, hid⟩
      · obtain ⟨u, hu, hku⟩ := hprop x hx
        exact ⟨u, by simp [hu], hku⟩

theorem sketch_ms (p : MinimizerParams) (h : Nat → Nat) (seq : List Nat) :
    (sketchWithStats p h seq).2
      = (remapMinimizerValues p.remap (sketchWithStats p h seq).1.kmer_map
          (sketchWithStats p h seq).1.kmer_width
          ((minimizerPositions h p.k p.l seq).map
            (fun pos => toWord (kmerAt seq p.k pos)))).getD [] := rfl

theorem sketch_kmer_map_remap (p : MinimizerParams) (h : Nat → Nat) (seq : List Nat)
    (hremap : p.remap = true) (hskip : p.skip_zero = true) :
    (sketchWithStats p h seq).1.kmer_map
      = (buildKmerMap 1 ((minimizerPositions h p.k p.l seq).map
          (fun pos => toWord (kmerAt seq p.k pos)))).1 := by
  show (if p.remap then
      ((buildKmerMap (if p.skip_zero then 1 else 0)
          ((minimizerPositions h p.k p.l seq).map
            (fun pos => toWord (kmerAt seq p.k pos)))).1,
        max ((Nat.clog 2 (buildKmerMap (if p.skip_zero then 1 else 0)
          ((minimizerPositions h p.k p.l seq).map
            (fun pos => toWord (kmerAt seq p.k pos)))).2 + 7) / 8) 1)
    else (([] : List (Nat × Nat)), (p.k + 3) / 4)).1 = _
  rw [hremap, hskip]
  simp

theorem sketch_kmer_width_remap (p : MinimizerParams) (h : Nat → Nat) (seq : List Nat)
    (hremap : p.remap = true) (hskip : p.skip_zero = true) :
    (sketchWithStats p h seq).1.kmer_width
      = max ((Nat.clog 2 (buildKmerMap 1 ((minimizerPositions h p.k p.l seq).map
          (fun pos => toWord (kmerAt seq p.k pos)))).2 + 7) / 8) 1 := by
  show (if p.remap then
      ((buildKmerMap (if p.skip_zero then 1 else 0)
          ((minimizerPositions h p.k p.l seq).map
            (fun pos => toWord (kmerAt seq p.k pos)))).1,
        max ((Nat.clog 2 (buildKmerMap (if p.skip_zero then 1 else 0)
          ((minimizerPositions h p.k p.l seq).map
            (fun pos => toWord (kmerAt seq p.k pos)))).2 + 7) / 8) 1)
    else (([] : List (Nat × Nat)), (p.k + 3) / 4)).2 = _
  rw [hremap, hskip]
  simp

theorem buildKmerMap_head (s v : Nat) (t : List Nat) :
    kmLookup (buildKmerMap s (v :: t)).1 v = some s := by
  rw [buildKmerMap]
  simp only [List.foldl_cons]
  have h0 : (kmLookup ([] : List (Nat × Nat)) v).isSome = false := by
    simp [kmLookup]
  rw [if_neg (by simp [h0])]
  have h1 : kmLookup (([] : List (Nat × Nat)) ++ [(v, s)]) v = some s := by
    simp [kmLookup]
  rw [buildKmerMap_fold_stable t _ _ v (by rw [h1]; rfl)]
  exact h1

theorem mapM_kmLookup_mem_of (m : List (Nat × Nat)) :
    ∀ (vs ids : List Nat), vs.mapM (kmLookup m) = some ids →
      ∀ v ∈ vs, ∀ id, kmLookup m v = some id → id ∈ ids := by
  intro vs
  induction vs with
  | nil => intro ids _ v hv; simp at hv
  | cons u t ih =>
    intro ids h v hv id hkv
    rw [List.mapM_cons] at h
    cases hu : kmLookup m u with
    | none => rw [hu] at h; simp at h
    | some b =>
      rw [hu] at h
      cases ht : t.mapM (kmLookup m) with
      | none => rw [ht] at h; simp at h
      | some r =>
        rw [ht] at h
        simp at h
        rcases List.mem_cons.mp hv with rfl | hv2
        · rw [hu] at hkv
          injection hkv with hkv
          rw [← h, hkv]
          simp
        · rw [← h]
          exact List.mem_cons_of_mem _ (ih r ht v hv2 id hkv)

/-- The MS string under remapping, once the id lookups are known to
succeed: the flattened big-endian encodings of the ids. -/
theorem sketch_ms_remap (p : MinimizerParams) (h : Nat → Nat) (seq : List Nat)
    (hremap : p.remap = true) (hskip : p.skip_zero = true)
    {ids : List Nat}
    (hmapm : ((minimizerPositions h p.k p.l seq).map
        (fun pos => toWord (kmerAt seq p.k pos))).mapM
        (kmLookup (buildKmerMap 1 ((minimizerPositions h p.k p.l seq).map
          (fun pos => toWord (kmerAt seq p.k pos)))).1) = some ids) :
    (sketchWithStats p h seq).2
      = (ids.map (toBEBytes (sketchWithStats p h seq).1.kmer_width)).flatten := by
  rw [sketch_ms, hremap, sketch_kmer_map_remap p h seq hremap hskip]
  rw [remapMinimizerValues, if_pos rfl, hmapm]
  rfl

/-- **C4** (amended).  With `remap = true` and `skip_zero = true` every
minimizer *id* written into the MS string is nonzero, hence every
`W`-byte block of MS has a nonzero value; and when the id width `W` is 1
every *byte* of MS is nonzero.  The claim as stated — no zero byte
anywhere in MS — is false for `W ≥ 2`: ids start at 1 and are encoded in
big-endian, so the id 1 is written as `0x00…01` and contributes zero
bytes as soon as the text has at least 256 distinct minimizers (see the
counterexample). -/
theorem ms_nonzero (p : MinimizerParams) (h : Nat → Nat) (seq : List Nat)
    (hremap : p.remap = true) (hskip : p.skip_zero = true) :
    (∀ u ∈ unitsAt (sketchWithStats p h seq).1.kmer_width (sketchWithStats p h seq).2,
      0 < u) ∧
    ((sketchWithStats p h seq).1.kmer_width = 1 →
      ∀ b ∈ (sketchWithStats p h seq).2, b ≠ 0) := by
  have hwidth := sketch_kmer_width_remap p h seq hremap hskip
  have hWpos : 0 < (sketchWithStats p h seq).1.kmer_width := by
    rw [hwidth]
    omega
  have hall : ∀ v ∈ (minimizerPositions h p.k p.l seq).map
      (fun pos => toWord (kmerAt seq p.k pos)),
      (kmLookup (buildKmerMap 1 ((minimizerPositions h p.k p.l seq).map
        (fun pos => toWord (kmerAt seq p.k pos)))).1 v).isSome :=
    fun v hv => buildKmerMap_lookup_isSome hv
  obtain ⟨ids, hmapm, hprop⟩ := mapM_kmLookup_spec _ _ hall
  have hid_bounds : ∀ id ∈ ids,
      1 ≤ id ∧ id < 256 ^ (sketchWithStats p h seq).1.kmer_width := by
    intro id hid
    obtain ⟨v, hv, hkv⟩ := hprop id hid
    obtain ⟨h1, h2⟩ := buildKmerMap_id_bounds hkv
    refine ⟨h1, ?_⟩
    have h3 : (buildKmerMap 1 ((minimizerPositions h p.k p.l seq).map
        (fun pos => toWord (kmerAt seq p.k pos)))).2
        ≤ 2 ^ Nat.clog 2 (buildKmerMap 1 ((minimizerPositions h p.k p.l seq).map
          (fun pos => toWord (kmerAt seq p.k pos)))).2 :=
      Nat.le_pow_clog (by norm_num) _
    have h4 : Nat.clog 2 (buildKmerMap 1 ((minimizerPositions h p.k p.l seq).map
        (fun pos => toWord (kmerAt seq p.k pos)))).2
        ≤ 8 * (sketchWithStats p h seq).1.kmer_width := by
      rw [hwidth]
      omega
    have h5 := Nat.pow_le_pow_right (show 1 ≤ 2 by norm_num) h4
    have h6 : (2 : Nat) ^ (8 * (sketchWithStats p h seq).1.kmer_width)
        = 256 ^ (sketchWithStats p h seq).1.kmer_width := by
      rw [show (256 : Nat) = 2 ^ 8 from by norm_num, ← pow_mul]
    omega
  have hms := sketch_ms_remap p h seq hremap hskip hmapm
  rw [hms]
  constructor
  · intro u hu
    rw [unitsAt_flatten hWpos _ (by
      intro b hb
      rcases List.mem_map.mp hb with ⟨id, _, hid⟩
      rw [← hid]
      exact toBEBytes_length _ _)] at hu
    rw [List.map_map] at hu
    rcases List.mem_map.mp hu with ⟨id, hid, hval⟩
    obtain ⟨h1, h2⟩ := hid_bounds id hid
    rw [← hval]
    simp only [Function.comp_apply]
    rw [beVal_toBEBytes _ _ h2]
    omega
  · intro hW1 b hb
    rw [hW1] at hb
    rcases List.mem_flatten.mp hb with ⟨blk, hblk, hbin⟩
    rcases List.mem_map.mp hblk with ⟨id, hid, hide⟩
    obtain ⟨h1, h2⟩ := hid_bounds id hid
    rw [hW1, pow_one] at h2
    rw [← hide] at hbin
    simp only [toBEBytes, List.range_succ_eq_map, List.range_zero, List.map_nil,
      List.map_cons, List.mem_singleton] at hbin
    rw [hbin]
    norm_num
    rw [Nat.mod_eq_of_lt h2]
    omega

/-- The de-Bruijn text `B(4, 4)`: all 256 4-mers over `{0, 1, 2, 3}` in
259 characters, forcing 256 distinct minimizer values at `k = l = 4`. -/
def c4Seq : List Nat :=
  [0, 0, 0, 0, 1, 0, 0, 0, 2, 0, 0, 0, 3, 0, 0, 1, 1, 0, 0, 1, 2, 0, 0,
   1, 3, 0, 0, 2, 1, 0, 0, 2, 2, 0, 0, 2, 3, 0, 0, 3, 1, 0, 0, 3, 2, 0,
   0, 3, 3, 0, 1, 0, 1, 0, 2, 0, 1, 0, 3, 0, 1, 1, 1, 0, 1, 1, 2, 0, 1,
   1, 3, 0, 1, 2, 1, 0, 1, 2, 2, 0, 1, 2, 3, 0, 1, 3, 1, 0, 1, 3, 2, 0,
   1, 3, 3, 0, 2, 0, 2, 0, 3, 0, 2, 1, 1, 0, 2, 1, 2, 0, 2, 1, 3, 0, 2,
   2, 1, 0, 2, 2, 2, 0, 2, 2, 3, 0, 2, 3, 1, 0, 2, 3, 2, 0, 2, 3, 3, 0,
   3, 0, 3, 1, 1, 0, 3, 1, 2, 0, 3, 1, 3, 0, 3, 2, 1, 0, 3, 2, 2, 0, 3,
   2, 3, 0, 3, 3, 1, 0, 3, 3, 2, 0, 3, 3, 3, 1, 1, 1, 1, 2, 1, 1, 1, 3,
   1, 1, 2, 2, 1, 1, 2, 3, 1, 1, 3, 2, 1, 1, 3, 3, 1, 2, 1, 2, 1, 3, 1,
   2, 2, 2, 1, 2, 2, 3, 1, 2, 3, 2, 1, 2, 3, 3, 1, 3, 1, 3, 2, 2, 1, 3,
   2, 3, 1, 3, 3, 2, 1, 3, 3, 3, 2, 2, 2, 2, 3, 2, 2, 3, 3, 2, 3, 2, 3,
   3, 3, 3, 0, 0, 0]

/-- Counterexample to C4 as stated: at `k = l = 4` on the de-Bruijn text
the sketcher sees 256 distinct minimizers, the id width becomes `W = 2`,
and the very first encoded id `1` is the bytes `[0, 1]` — the MS string
contains a zero byte. -/
theorem ms_nonzero_cex :
    (⟨4, 4, true, true⟩ : MinimizerParams).remap = true ∧
    (⟨4, 4, true, true⟩ : MinimizerParams).skip_zero = true ∧
    0 ∈ (sketchWithStats ⟨4, 4, true, true⟩ (fun v => v) c4Seq).2 := by
  refine ⟨rfl, rfl, ?_⟩
  have hvals_len : ((minimizerPositions (fun v => v) 4 4 c4Seq).map
      (fun pos => toWord (kmerAt c4Seq 4 pos))).length = 256 := by decide
  have hnodup : ((minimizerPositions (fun v => v) 4 4 c4Seq).map
      (fun pos => toWord (kmerAt c4Seq 4 pos))).Nodup := by decide
  have hdedup : ((minimizerPositions (fun v => v) 4 4 c4Seq).map
      (fun pos => toWord (kmerAt c4Seq 4 pos))).dedup.length = 256 := by
    rw [List.dedup_eq_self.mpr hnodup, hvals_len]
  have hsnd : (buildKmerMap 1 ((minimizerPositions (fun v => v) 4 4 c4Seq).map
      (fun pos => toWord (kmerAt c4Seq 4 pos)))).2 = 257 := by
    rw [buildKmerMap_snd, hdedup]
  have hclog : Nat.clog 2 257 = 9 := by
    have h1 : Nat.clog 2 257 ≤ 9 := (Nat.le_pow_iff_clog_le (by norm_num)).mp (by norm_num)
    have h2 : 8 < Nat.clog 2 257 := (Nat.pow_lt_iff_lt_clog (by norm_num)).mp (by norm_num)
    omega
  have hW := sketch_kmer_width_remap ⟨4, 4, true, true⟩ (fun v => v) c4Seq rfl rfl
  dsimp only at hW
  rw [hsnd, hclog] at hW
  norm_num at hW
  have hall : ∀ v ∈ (minimizerPositions (fun v => v) 4 4 c4Seq).map
      (fun pos => toWord (kmerAt c4Seq 4 pos)),
      (kmLookup (buildKmerMap 1 ((minimizerPositions (fun v => v) 4 4 c4Seq).map
        (fun pos => toWord (kmerAt c4Seq 4 pos)))).1 v).isSome :=
    fun v hv => buildKmerMap_lookup_isSome hv
  obtain ⟨ids, hmapm, _⟩ := mapM_kmLookup_spec _ _ hall
  have hms := sketch_ms_remap ⟨4, 4, true, true⟩ (fun v => v) c4Seq rfl rfl
    (by dsimp only; exact hmapm)
  cases hv : (minimizerPositions (fun v => v) 4 4 c4Seq).map
      (fun pos => toWord (kmerAt c4Seq 4 pos)) with
  | nil => rw [hv] at hvals_len; simp at hvals_len
  | cons v0 rest =>
    have hhead : kmLookup (buildKmerMap 1 (v0 :: rest)).1 v0 = some 1 :=
      buildKmerMap_head 1 v0 rest
    rw [hv] at hmapm
    have h1in : (1 : Nat) ∈ ids :=
      mapM_kmLookup_mem_of _ _ _ hmapm v0 (by simp) 1 hhead
    rw [hms, hW]
    exact List.mem_flatten.mpr
      ⟨toBEBytes 2 1, List.mem_map_of_mem _ h1in, by decide⟩

/-- Witness for `ms_nonzero`: `k = l = 1` on the text `1 2` (two distinct
minimizers, width 1). -/
theorem ms_nonzero_witness :
    (∀ u ∈ unitsAt (sketchWithStats ⟨1, 1, true, true⟩ (fun v => v) [1, 2]).1.kmer_width
        (sketchWithStats ⟨1, 1, true, true⟩ (fun v => v) [1, 2]).2, 0 < u) ∧
    ((sketchWithStats ⟨1, 1, true, true⟩ (fun v => v) [1, 2]).1.kmer_width = 1 →
      ∀ b ∈ (sketchWithStats ⟨1, 1, true, true⟩ (fun v => v) [1, 2]).2, b ≠ 0) :=
  ms_nonzero ⟨1, 1, true, true⟩ (fun v => v) [1, 2] rfl rfl

/-! ## `SIndex` / `SparseSuffixArray` (claim C9) -/

theorem sparseSA_sorted (seq indices : List Nat) :
    ∀ a b, a ≤ b → b < (sparseSA seq indices).length →
      cmpL (seq.drop ((sparseSA seq indices).getD a 0))
        (seq.drop ((sparseSA seq indices).getD b 0)) ≠ .gt := by
  intro a b hab hb
  rcases Nat.eq_or_lt_of_le hab with rfl | hlt
  · rw [cmpL_self]
    simp
  · have i1 : IsTotal Nat (fun x y => cmpL (seq.drop x) (seq.drop y) ≠ Ordering.gt) := by
      constructor
      intro x y
      by_cases hc : cmpL (seq.drop x) (seq.drop y) = .gt
      · right
        rw [cmpL_swap, hc]
        simp [Ordering.swap]
      · left
        exact hc
    have i2 : IsTrans Nat (fun x y => cmpL (seq.drop x) (seq.drop y) ≠ Ordering.gt) := by
      constructor
      intro x y z hxy hyz
      exact cmpL_ne_gt_trans hxy hyz
    have hs : List.Sorted (fun x y => cmpL (seq.drop x) (seq.drop y) ≠ Ordering.gt)
        (sparseSA seq indices) :=
      List.sorted_insertionSort _ indices
    have ha : a < (sparseSA seq indices).length := by omega
    have := List.pairwise_iff_getElem.mp hs a b ha hb hlt
    rw [List.getD_eq_getElem _ _ ha, List.getD_eq_getElem _ _ hb]
    exact this

/-- The comparison contract for the plain-text sparse suffix array. -/
def ssaCmpSpec (ssa seq pattern : List Nat)
    (hsorted : ∀ a b, a ≤ b → b < ssa.length →
      cmpL (seq.drop (ssa.getD a 0)) (seq.drop (ssa.getD b 0)) ≠ .gt) :
    CmpSpec ssa.length (ssaCf ssa seq pattern) where
  L idx := pLcp (seq.drop (ssa.getD idx 0)) pattern
  f idx := pOrd (seq.drop (ssa.getD idx 0)) pattern
  Good _ := True
  good_zero := trivial
  good_min _ _ _ _ := trivial
  good_L _ _ := trivial
  cf_eq idx m hidx _ hmle := by
    change m ≤ pLcp (seq.drop (ssa.getD idx 0)) pattern at hmle
    have hds : seq.drop (ssa.getD idx 0 + m) = (seq.drop (ssa.getD idx 0)).drop m := by
      rw [List.drop_drop]
    rw [ssaCf, cmpLcp, hds]
    dsimp only
    rw [pOrd_drop hmle]
    have hld := pLcp_drop hmle
    simp only [Prod.mk.injEq]
    refine ⟨trivial, ?_⟩
    omega
  mono a b hab hbn := pOrd_mono pattern (hsorted a b hab hbn)
  between a b c hab hbc hcn := pLcp_between pattern
    (hsorted a b hab (by omega)) (hsorted b c hbc hcn)

theorem ssaSearch_eq_saSearch (ssa seq pattern : List Nat) (hp : pattern.length ≠ 0)
    (hn : ssa.length ≠ 0) :
    ssaSearch ssa seq pattern
      = saSearch (ssaCf ssa seq pattern) 1 ssa.length pattern.length := by
  rw [ssaSearch, saSearch, if_neg hp,
    if_neg (show ¬((1 : Nat) = 0 ∨ ssa.length = 0) by simp [hn])]

/-- Membership in a `SparseSuffixArray` query means: a slot of the sorted
array whose plain-text suffix has the pattern as a prefix. -/
theorem ssaQuery_mem_isPre {ssa seq pattern : List Nat} {p : Nat}
    (hsorted : ∀ a b, a ≤ b → b < ssa.length →
      cmpL (seq.drop (ssa.getD a 0)) (seq.drop (ssa.getD b 0)) ≠ .gt)
    (hp : pattern ≠ [])
    (hmem : p ∈ ssaQuery ssa seq pattern) :
    pattern <+: seq.drop p := by
  have hpl : pattern.length ≠ 0 := by
    intro hc
    exact hp (List.eq_nil_of_length_eq_zero hc)
  by_cases hn : ssa.length = 0
  · have hnil : ssa = [] := List.eq_nil_of_length_eq_zero hn
    subst hnil
    have hz : ssaSearch [] seq pattern = (0, 0) := by
      rw [ssaSearch]
      split
      · rfl
      · rfl
    rw [ssaQuery, hz] at hmem
    simp at hmem
  · have hspec := saSearch_spec (ssaCmpSpec ssa seq pattern hsorted) 1 pattern.length
      (by omega) hn hpl
    rw [ssaQuery, ssaSearch_eq_saSearch ssa seq pattern hpl hn] at hmem
    rcases List.mem_map.mp hmem with ⟨t, ht, hte⟩
    have htr := List.mem_range'_1.mp ht
    have htn : t < ssa.length := by
      have := hspec.1
      omega
    have hfe : pOrd (seq.drop (ssa.getD t 0)) pattern = .eq :=
      (hspec.2 t htn).mpr (by omega)
    rw [← hte]
    exact (pOrd_eq_iff_isPre _ _).mp hfe

/-- **C9.**  In `SIndex::query` the assertion `end <= self.seq.len()`
never fails: every position `p` the sparse-suffix-array search yields
for the suffix `P[offset..]` (with `offset` the position of the
minimizer in `P`'s first window) satisfies
`p - offset + |P| ≤ |T|` whenever `offset ≤ p`. -/
theorem sindex_in_bounds (h : Nat → Nat) (k l : Nat) (seq pattern : List Nat)
    (indices : List Nat)
    (hk : 1 ≤ k) (hkl : k ≤ l) (hlp : l ≤ pattern.length) (p : Nat)
    (hmem : p ∈ ssaQuery (sparseSA seq indices) seq
      (pattern.drop (minimizerWindowNaive h k (pattern.take l)))) :
    minimizerWindowNaive h k (pattern.take l) ≤ p →
      p - minimizerWindowNaive h k (pattern.take l) + pattern.length ≤ seq.length := by
  intro hop
  have hwl : (pattern.take l).length = l := by
    rw [List.length_take]
    omega
  have hoff : minimizerWindowNaive h k (pattern.take l) < l := by
    have := winArgmin_bounds h (pattern.take l) k ((pattern.take l).length + 1 - k) 0
      (by omega)
    rw [minimizerWindowNaive]
    rw [hwl] at this ⊢
    omega
  have hpne : pattern.drop (minimizerWindowNaive h k (pattern.take l)) ≠ [] := by
    intro hc
    have := congrArg List.length hc
    simp only [List.length_drop, List.length_nil] at this
    omega
  have hpre := ssaQuery_mem_isPre (sparseSA_sorted seq indices) hpne hmem
  have hlen := List.IsPrefix.length_le hpre
  simp only [List.length_drop] at hlen
  omega

/-- Witness for `sindex_in_bounds`: text `1 2 1`, sampled positions
`0, 1, 2`, `k = l = 1`, pattern `2 1`; the search yields `p = 1`. -/
theorem sindex_in_bounds_witness :
    1 - minimizerWindowNaive (fun v => v) 1 (([2, 1] : List Nat).take 1)
      + ([2, 1] : List Nat).length ≤ ([1, 2, 1] : List Nat).length :=
  sindex_in_bounds (fun v => v) 1 1 [1, 2, 1] [2, 1] [0, 1, 2]
    (by decide) (by decide) (by decide) 1 (by decide) (by decide)

/-! ## Minimizer completeness: support lemmas (claim C2) -/

theorem dedupConsec_mem : ∀ {xs : List Nat} {x : Nat}, x ∈ xs → x ∈ dedupConsec xs := by
  intro xs
  induction xs with
  | nil => intro x hx; simp at hx
  | cons a t ih =>
    intro x hx
    cases t with
    | nil => simpa [dedupConsec] using hx
    | cons b u =>
      rw [dedupConsec]
      by_cases hab : a = b
      · rw [if_pos hab]
        rcases List.mem_cons.mp hx with rfl | hx2
        · exact ih (by simp [hab])
        · exact ih hx2
      · rw [if_neg hab]
        rcases List.mem_cons.mp hx with rfl | hx2
        · simp
        · exact List.mem_cons_of_mem _ (ih hx2)

theorem dedupConsec_cons_head (a : Nat) :
    ∀ (t : List Nat), ∃ r, dedupConsec (a :: t) = a :: r := by
  intro t
  induction t generalizing a with
  | nil => exact ⟨[], rfl⟩
  | cons b u ih =>
    rw [dedupConsec]
    by_cases hab : a = b
    · rw [if_pos hab]
      subst hab
      exact ih a
    · rw [if_neg hab]
      exact ⟨_, rfl⟩

theorem dedupConsec_chain_lt :
    ∀ {xs : List Nat}, List.Chain' (· ≤ ·) xs → List.Chain' (· < ·) (dedupConsec xs) := by
  intro xs
  induction xs with
  | nil => intro _; simp [dedupConsec]
  | cons a t ih =>
    intro hch
    cases t with
    | nil => simp [dedupConsec]
    | cons b u =>
      have hab : a ≤ b := List.chain'_cons.mp hch |>.1
      have htail : List.Chain' (· ≤ ·) (b :: u) := List.chain'_cons.mp hch |>.2
      rw [dedupConsec]
      by_cases heq : a = b
      · rw [if_pos heq]
        exact ih htail
      · rw [if_neg heq]
        obtain ⟨r, hr⟩ := dedupConsec_cons_head b u
        rw [List.chain'_cons']
        refine ⟨?_, ih htail⟩
        intro y hy
        rw [hr] at hy
        simp at hy
        subst hy
        omega

theorem pairwise_lt_next {B : List Nat} (hB : B.Pairwise (· < ·)) {t u v : Nat}
    (ht : t < B.length) (hBt : B.getD t 0 = u) (hv : v ∈ B) (huv : u < v)
    (hnb : ∀ x ∈ B, ¬(u < x ∧ x < v)) :
    t + 1 < B.length ∧ B.getD (t + 1) 0 = v := by
  have pg := List.pairwise_iff_getElem.mp hB
  obtain ⟨s, hs, hsv⟩ := List.mem_iff_getElem.mp hv
  rw [List.getD_eq_getElem _ _ ht] at hBt
  have hts : t < s := by
    rcases Nat.lt_trichotomy t s with hc | hc | hc
    · exact hc
    · subst hc
      rw [hBt] at hsv
      omega
    · have := pg s t hs ht hc
      omega
  have ht1 : t + 1 < B.length := by omega
  refine ⟨ht1, ?_⟩
  rw [List.getD_eq_getElem _ _ ht1]
  have hgt : u < B[t + 1] := by
    have := pg t (t + 1) ht ht1 (by omega)
    omega
  rcases Nat.eq_or_lt_of_le (show t + 1 ≤ s by omega) with rfl | hlt
  · exact hsv
  · have hxlt : B[t + 1] < v := by
      have := pg (t + 1) s ht1 hs hlt
      omega
    exact absurd ⟨hgt, hxlt⟩ (hnb B[t + 1] (List.getElem_mem ht1))

theorem winArgmin_succ (h : Nat → Nat) (seq : List Nat) (k win j : Nat) :
    winArgmin h seq k (win + 1) j
      = if h (toWord (kmerAt seq k (j + win)))
          < h (toWord (kmerAt seq k (winArgmin h seq k win j)))
        then j + win else winArgmin h seq k win j := by
  rw [winArgmin, winArgmin, List.range_succ, List.map_append, List.foldl_append]
  simp

theorem winArgmin_char (h : Nat → Nat) (seq : List Nat) (k : Nat) :
    ∀ (win j : Nat), 0 < win →
      j ≤ winArgmin h seq k win j ∧ winArgmin h seq k win j < j + win ∧
      (∀ q, j ≤ q → q < j + win →
        h (toWord (kmerAt seq k (winArgmin h seq k win j)))
          ≤ h (toWord (kmerAt seq k q))) ∧
      (∀ q, j ≤ q → q < winArgmin h seq k win j →
        h (toWord (kmerAt seq k (winArgmin h seq k win j)))
          < h (toWord (kmerAt seq k q))) := by
  intro win
  induction win with
  | zero => intro j h0; omega
  | succ win ih =>
    intro j _
    by_cases hw0 : win = 0
    · subst hw0
      have h1 : winArgmin h seq k 1 j = j := by
        rw [winArgmin]
        rw [show List.range 1 = [0] from rfl, List.map_cons, List.map_nil,
          List.foldl_cons, List.foldl_nil]
        simp
      rw [h1]
      refine ⟨le_refl j, by omega, ?_, ?_⟩
      · intro q hq1 hq2
        have hqj : q = j := by omega
        subst hqj
        exact le_refl _
      · intro q hq1 hq2
        omega
    · obtain ⟨ih1, ih2, ih3, ih4⟩ := ih j (by omega)
      rw [winArgmin_succ]
      by_cases hc : h (toWord (kmerAt seq k (j + win)))
          < h (toWord (kmerAt seq k (winArgmin h seq k win j)))
      · rw [if_pos hc]
        refine ⟨by omega, by omega, ?_, ?_⟩
        · intro q hq1 hq2
          by_cases hqw : q = j + win
          · subst hqw
            exact le_refl _
          · have := ih3 q hq1 (by omega)
            omega
        · intro q hq1 hq2
          have := ih3 q hq1 (by omega)
          omega
      · rw [if_neg hc]
        refine ⟨ih1, by omega, ?_, ih4⟩
        intro q hq1 hq2
        by_cases hqw : q = j + win
        · subst hqw
          omega
        · exact ih3 q hq1 (by omega)

theorem winArgmin_mono_step (h : Nat → Nat) (seq : List Nat) (k win j : Nat)
    (hwin : 0 < win) :
    winArgmin h seq k win j ≤ winArgmin h seq k win (j + 1) := by
  obtain ⟨ha1, ha2, ha3, ha4⟩ := winArgmin_char h seq k win j hwin
  obtain ⟨hb1, hb2, hb3, hb4⟩ := winArgmin_char h seq k win (j + 1) hwin
  by_contra hab
  push_neg at hab
  have hble := hb3 (winArgmin h seq k win j) (by omega) (by omega)
  have halt := ha4 (winArgmin h seq k win (j + 1)) (by omega) hab
  omega

theorem kmerAt_translate (seq : List Nat) (pos n k q : Nat) (hq : q + k ≤ n) :
    kmerAt ((seq.drop pos).take n) k q = kmerAt seq k (pos + q) := by
  rw [kmerAt, kmerAt, List.drop_take, List.drop_drop, List.take_take]
  rw [min_eq_left (show k ≤ n - q by omega)]

theorem foldl_min_translate (h : Nat → Nat) (seq pattern : List Nat) (pos k : Nat) :
    ∀ (L : List Nat) (init : Nat),
      (∀ q ∈ L, h (toWord (kmerAt seq k (pos + q))) = h (toWord (kmerAt pattern k q))) →
      h (toWord (kmerAt seq k (pos + init))) = h (toWord (kmerAt pattern k init)) →
      (L.map (fun q => pos + q)).foldl
        (fun best q =>
          if h (toWord (kmerAt seq k q)) < h (toWord (kmerAt seq k best)) then q else best)
        (pos + init)
      = pos + L.foldl
        (fun best q =>
          if h (toWord (kmerAt pattern k q)) < h (toWord (kmerAt pattern k best)) then q
          else best)
        init := by
  intro L
  induction L with
  | nil => intro init _ _; rfl
  | cons q t ih =>
    intro init hL hinit
    simp only [List.map_cons, List.foldl_cons]
    have hq := hL q (by simp)
    by_cases hc : h (toWord (kmerAt pattern k q)) < h (toWord (kmerAt pattern k init))
    · rw [if_pos (by rw [hq, hinit]; exact hc), if_pos hc]
      exact ih q (fun r hr => hL r (by simp [hr])) hq
    · rw [if_neg (by rw [hq, hinit]; exact hc), if_neg hc]
      exact ih init (fun r hr => hL r (by simp [hr])) hinit

theorem winArgmin_translate (h : Nat → Nat) (seq : List Nat) (pos n k win j : Nat)
    (hwin : 0 < win) (hbound : j + win - 1 + k ≤ n) :
    winArgmin h seq k win (pos + j)
      = pos + winArgmin h ((seq.drop pos).take n) k win j := by
  rw [winArgmin, winArgmin]
  have hmap : (List.range win).map (fun i => pos + j + i)
      = ((List.range win).map (fun i => j + i)).map (fun q => pos + q) := by
    rw [List.map_map]
    apply List.map_congr_left
    intro i _
    simp [Nat.add_assoc]
  rw [hmap]
  apply foldl_min_translate
  · intro q hq
    rcases List.mem_map.mp hq with ⟨i, hi, rfl⟩
    have hiw : i < win := List.mem_range.mp hi
    exact (congrArg (fun t => h (toWord t))
      (kmerAt_translate seq pos n k (j + i) (by omega))).symm
  · exact (congrArg (fun t => h (toWord t))
      (kmerAt_translate seq pos n k j (by omega))).symm

theorem chain_le_range_map (F : Nat → Nat) (hF : ∀ j, F j ≤ F (j + 1)) :
    ∀ N, List.Chain' (· ≤ ·) ((List.range N).map F) := by
  intro N
  induction N with
  | zero => simp
  | succ N ih =>
    rw [List.range_succ, List.map_append]
    apply List.Chain'.append ih (by simp)
    intro x hx y hy
    cases N with
    | zero => simp at hx
    | succ M =>
      rw [List.range_succ, List.map_append] at hx
      simp only [List.map_cons, List.map_nil] at hx hy
      rw [List.getLast?_concat] at hx
      simp at hx hy
      subst hx
      subst hy
      exact hF M

theorem flatten_length_blocks {w : Nat} :
    ∀ (L : List (List Nat)), (∀ b ∈ L, b.length = w) →
      L.flatten.length = L.length * w := by
  intro L
  induction L with
  | nil => intro _; simp
  | cons b rest ih =>
    intro hlen
    rw [List.flatten_cons, List.length_append, hlen b (by simp),
      ih (fun x hx => hlen x (by simp [hx]))]
    simp only [List.length_cons]
    ring

theorem flatten_drop_blocks {w : Nat} :
    ∀ (t : Nat) (L : List (List Nat)), (∀ b ∈ L, b.length = w) →
      L.flatten.drop (w * t) = (L.drop t).flatten := by
  intro t
  induction t with
  | zero => intro L _; simp
  | succ t ih =>
    intro L hlen
    cases L with
    | nil => simp
    | cons b rest =>
      have hb : b.length = w := hlen b (by simp)
      rw [List.flatten_cons]
      rw [show w * (t + 1) = b.length + w * t by rw [hb]; ring]
      rw [← List.drop_drop, List.drop_left]
      rw [ih rest (fun x hx => hlen x (by simp [hx]))]
      simp

theorem flatten_map_isPre {f : Nat → List Nat} {X Y : List Nat} (h : X <+: Y) :
    (X.map f).flatten <+: (Y.map f).flatten := by
  obtain ⟨r, hr⟩ := h
  rw [← hr, List.map_append, List.flatten_append]
  exact ⟨(r.map f).flatten, rfl⟩

theorem prefix_of_getD : ∀ (X Y : List Nat), X.length ≤ Y.length →
    (∀ i, i < X.length → X.getD i 0 = Y.getD i 0) → X <+: Y := by
  intro X
  induction X with
  | nil => intro Y _ _; exact List.nil_prefix
  | cons a t ih =>
    intro Y hlen hget
    cases Y with
    | nil => simp at hlen
    | cons b u =>
      have h0 := hget 0 (by simp)
      simp only [List.getD_cons_zero] at h0
      subst h0
      rw [List.cons_prefix_cons]
      refine ⟨rfl, ih u (by simpa using hlen) ?_⟩
      intro i hi
      have := hget (i + 1) (by simpa using hi)
      simpa using this

theorem toBEBytes_byte_lt {w v b : Nat} (hb : b ∈ toBEBytes w v) : b < 256 := by
  rw [toBEBytes] at hb
  rcases List.mem_map.mp hb with ⟨i, _, rfl⟩
  exact Nat.mod_lt _ (by norm_num)

theorem flatten_toBEBytes_byte_lt {w : Nat} {ids : List Nat} {b : Nat}
    (hb : b ∈ (ids.map (toBEBytes w)).flatten) : b < 256 := by
  rcases List.mem_flatten.mp hb with ⟨blk, hblk, hbb⟩
  rcases List.mem_map.mp hblk with ⟨id, _, hide⟩
  rw [← hide] at hbb
  exact toBEBytes_byte_lt hbb

theorem mapM_kmLookup_eq_map (m : List (Nat × Nat)) :
    ∀ (vs : List Nat), (∀ v ∈ vs, (kmLookup m v).isSome) →
      vs.mapM (kmLookup m) = some (vs.map (fun v => (kmLookup m v).getD 0)) := by
  intro vs
  induction vs with
  | nil => intro _; rfl
  | cons v t ih =>
    intro hall
    obtain ⟨id, hid⟩ := Option.isSome_iff_exists.mp (hall v (by simp))
    rw [List.mapM_cons, hid, ih (fun u hu => hall u (by simp [hu]))]
    simp [hid]

/-- The unified per-value encoder behind `remap_minimizer_values`:
either the raw minimizer value or its remapped id. -/
theorem remapMinimizerValues_enc (remap : Bool) (m : List (Nat × Nat)) (W : Nat) :
    ∃ enc : Nat → Nat, ∀ vs : List Nat,
      (remap = true → ∀ v ∈ vs, (kmLookup m v).isSome) →
      remapMinimizerValues remap m W vs
        = some (((vs.map enc).map (toBEBytes W)).flatten) := by
  cases remap
  · refine ⟨fun v => v, ?_⟩
    intro vs _
    rw [remapMinimizerValues, if_neg (by simp)]
    rw [List.map_id']
  · refine ⟨fun v => (kmLookup m v).getD 0, ?_⟩
    intro vs hall
    rw [remapMinimizerValues, if_pos rfl, mapM_kmLookup_eq_map m vs (hall rfl)]
    rfl

theorem sketch_mw_pair (p : MinimizerParams) (h : Nat → Nat) (seq : List Nat) :
    ((sketchWithStats p h seq).1.kmer_map, (sketchWithStats p h seq).1.kmer_width)
      = (if p.remap then
          ((buildKmerMap (if p.skip_zero then 1 else 0)
            ((minimizerPositions h p.k p.l seq).map
              (fun pos => toWord (kmerAt seq p.k pos)))).1,
           max ((Nat.clog 2 (buildKmerMap (if p.skip_zero then 1 else 0)
            ((minimizerPositions h p.k p.l seq).map
              (fun pos => toWord (kmerAt seq p.k pos)))).2 + 7) / 8) 1)
        else (([] : List (Nat × Nat)), (p.k + 3) / 4)) := rfl

/-- The heart of completeness: at an occurrence `pos` of the pattern,
the pattern's minimizer positions (shifted by `pos`) appear as one
contiguous run inside the text's minimizer positions. -/
theorem min_poss_segment (pk pl : Nat) (h : Nat → Nat) (seq pattern : List Nat)
    (pos : Nat)
    (hk : 1 ≤ pk) (hkl : pk ≤ pl) (hlp : pl ≤ pattern.length)
    (hocc : (seq.drop pos).take pattern.length = pattern)
    (hinb : pos + pattern.length ≤ seq.length) :
    ∃ t₀, t₀ + (minimizerPositions h pk pl pattern).length
        ≤ (minimizerPositions h pk pl seq).length ∧
      ∀ i, i < (minimizerPositions h pk pl pattern).length →
        (minimizerPositions h pk pl seq).getD (t₀ + i) 0
          = pos + (minimizerPositions h pk pl pattern).getD i 0 := by
  have hwin : 0 < pl - pk + 1 := by omega
  have hNP1 : 1 ≤ pattern.length + 1 - pl := by omega
  have hNN : pos + (pattern.length + 1 - pl) ≤ seq.length + 1 - pl := by omega
  -- translation of window argmins inside the occurrence
  have htrans : ∀ d, d < pattern.length + 1 - pl →
      winArgmin h seq pk (pl - pk + 1) (pos + d)
        = pos + winArgmin h pattern pk (pl - pk + 1) d := by
    intro d hd
    have := winArgmin_translate h seq pos pattern.length pk (pl - pk + 1) d
      (by omega) (by omega)
    rw [hocc] at this
    exact this
  -- monotonicity of the text / pattern argmin sequences
  have hFTstep : ∀ j, winArgmin h seq pk (pl - pk + 1) j
      ≤ winArgmin h seq pk (pl - pk + 1) (j + 1) :=
    fun j => winArgmin_mono_step h seq pk (pl - pk + 1) j hwin
  have hFPstep : ∀ j, winArgmin h pattern pk (pl - pk + 1) j
      ≤ winArgmin h pattern pk (pl - pk + 1) (j + 1) :=
    fun j => winArgmin_mono_step h pattern pk (pl - pk + 1) j hwin
  have hFTmono : ∀ a b, a ≤ b →
      winArgmin h seq pk (pl - pk + 1) a ≤ winArgmin h seq pk (pl - pk + 1) b := by
    intro a b hab
    have hgen : ∀ d, winArgmin h seq pk (pl - pk + 1) a
        ≤ winArgmin h seq pk (pl - pk + 1) (a + d) := by
      intro d
      induction d with
      | zero => simp
      | succ d ih => exact le_trans ih (hFTstep (a + d))
    have := hgen (b - a)
    rw [show a + (b - a) = b by omega] at this
    exact this
  have hFPmono : ∀ a b, a ≤ b →
      winArgmin h pattern pk (pl - pk + 1) a ≤ winArgmin h pattern pk (pl - pk + 1) b := by
    intro a b hab
    have hgen : ∀ d, winArgmin h pattern pk (pl - pk + 1) a
        ≤ winArgmin h pattern pk (pl - pk + 1) (a + d) := by
      intro d
      induction d with
      | zero => simp
      | succ d ih => exact le_trans ih (hFPstep (a + d))
    have := hgen (b - a)
    rw [show a + (b - a) = b by omega] at this
    exact this
  -- the raw argmin lists and their dedups
  have hBlt : (minimizerPositions h pk pl seq).Pairwise (· < ·) := by
    rw [minimizerPositions]
    exact List.chain'_iff_pairwise.mp
      (dedupConsec_chain_lt (chain_le_range_map _ hFTstep _))
  have hPPlt : (minimizerPositions h pk pl pattern).Pairwise (· < ·) := by
    rw [minimizerPositions]
    exact List.chain'_iff_pairwise.mp
      (dedupConsec_chain_lt (chain_le_range_map _ hFPstep _))
  have hAmem : ∀ x, x ∈ (List.range (seq.length + 1 - pl)).map
      (winArgmin h seq pk (pl - pk + 1)) ↔
      ∃ j, j < seq.length + 1 - pl ∧ winArgmin h seq pk (pl - pk + 1) j = x := by
    intro x
    simp [List.mem_map, List.mem_range]
  have hPAmem : ∀ x, x ∈ (List.range (pattern.length + 1 - pl)).map
      (winArgmin h pattern pk (pl - pk + 1)) ↔
      ∃ j, j < pattern.length + 1 - pl ∧ winArgmin h pattern pk (pl - pk + 1) j = x := by
    intro x
    simp [List.mem_map, List.mem_range]
  -- every (pos + PP value) is a text minimizer position
  have hPPval : ∀ x, x ∈ minimizerPositions h pk pl pattern →
      ∃ s, s < pattern.length + 1 - pl ∧ winArgmin h pattern pk (pl - pk + 1) s = x := by
    intro x hx
    rw [minimizerPositions] at hx
    exact (hPAmem x).mp (dedupConsec_subset hx)
  have hshift : ∀ x, x ∈ minimizerPositions h pk pl pattern →
      pos + x ∈ minimizerPositions h pk pl seq := by
    intro x hx
    obtain ⟨s, hs, hsx⟩ := hPPval x hx
    rw [minimizerPositions]
    apply dedupConsec_mem
    rw [hAmem]
    exact ⟨pos + s, by omega, by rw [htrans s hs, hsx]⟩
  -- the no-straddle property
  have hPP0 : (minimizerPositions h pk pl pattern).getD 0 0
      = winArgmin h pattern pk (pl - pk + 1) 0 := by
    rw [minimizerPositions]
    rcases hNPe : pattern.length + 1 - pl with _ | m
    · omega
    · rw [List.range_succ_eq_map, List.map_cons]
      obtain ⟨r, hr⟩ := dedupConsec_cons_head _ _
      rw [hr]
      simp
  have hpg := List.pairwise_iff_getElem.mp hPPlt
  have hPPle : ∀ a b, a ≤ b → b < (minimizerPositions h pk pl pattern).length →
      (minimizerPositions h pk pl pattern).getD a 0
        ≤ (minimizerPositions h pk pl pattern).getD b 0 := by
    intro a b hab hb
    rcases Nat.eq_or_lt_of_le hab with rfl | hlt
    · exact le_refl _
    · have ha : a < (minimizerPositions h pk pl pattern).length := by omega
      rw [List.getD_eq_getElem _ _ ha, List.getD_eq_getElem _ _ hb]
      exact le_of_lt (hpg a b ha hb hlt)
  have hnb : ∀ i, i + 1 < (minimizerPositions h pk pl pattern).length →
      ∀ x ∈ minimizerPositions h pk pl seq,
      ¬(pos + (minimizerPositions h pk pl pattern).getD i 0 < x ∧
        x < pos + (minimizerPositions h pk pl pattern).getD (i + 1) 0) := by
    intro i hi1 x hx ⟨hxl, hxr⟩
    have hi : i < (minimizerPositions h pk pl pattern).length := by omega
    have hxA : ∃ j, j < seq.length + 1 - pl ∧ winArgmin h seq pk (pl - pk + 1) j = x := by
      rw [minimizerPositions] at hx
      exact (hAmem x).mp (dedupConsec_subset hx)
    obtain ⟨j, hj, hjx⟩ := hxA
    rcases Nat.lt_or_ge j pos with hjp | hjp
    · -- before the occurrence: x ≤ pos + PP₀ ≤ pos + PPᵢ
      have h1 : winArgmin h seq pk (pl - pk + 1) j
          ≤ winArgmin h seq pk (pl - pk + 1) pos := hFTmono j pos (by omega)
      have h2 : winArgmin h seq pk (pl - pk + 1) pos
          = pos + winArgmin h pattern pk (pl - pk + 1) 0 := by
        have := htrans 0 (by omega)
        simpa using this
      have h3 := hPPle 0 i (by omega) hi
      rw [hPP0] at h3
      omega
    · rcases Nat.lt_or_ge j (pos + (pattern.length + 1 - pl)) with hjq | hjq
      · -- inside the occurrence: x is a shifted pattern argmin
        have h1 : winArgmin h seq pk (pl - pk + 1) j
            = pos + winArgmin h pattern pk (pl - pk + 1) (j - pos) := by
          have := htrans (j - pos) (by omega)
          rw [show pos + (j - pos) = j by omega] at this
          exact this
        have hmem : winArgmin h pattern pk (pl - pk + 1) (j - pos)
            ∈ minimizerPositions h pk pl pattern := by
          rw [minimizerPositions]
          apply dedupConsec_mem
          rw [hPAmem]
          exact ⟨j - pos, by omega, rfl⟩
        obtain ⟨r, hr, hrv⟩ := List.mem_iff_getElem.mp hmem
        rcases Nat.lt_or_ge i r with hir | hir
        · -- r ≥ i+1: value ≥ PP_{i+1}
          have := hPPle (i + 1) r (by omega) hr
          rw [List.getD_eq_getElem _ _ hr] at this
          omega
        · -- r ≤ i: value ≤ PP_i
          have := hPPle r i hir hi
          rw [List.getD_eq_getElem _ _ hr] at this
          omega
      · -- after the occurrence: x ≥ pos + PP last ≥ pos + PP_{i+1}
        have hmem1 : (minimizerPositions h pk pl pattern).getD (i + 1) 0
            ∈ minimizerPositions h pk pl pattern := by
          rw [List.getD_eq_getElem _ _ hi1]
          exact List.getElem_mem _
        obtain ⟨s, hs, hsv⟩ := hPPval _ hmem1
        have h1 : winArgmin h seq pk (pl - pk + 1) (pos + (pattern.length - pl))
            ≤ winArgmin h seq pk (pl - pk + 1) j := hFTmono _ j (by omega)
        have h2 : winArgmin h seq pk (pl - pk + 1) (pos + (pattern.length - pl))
            = pos + winArgmin h pattern pk (pl - pk + 1) (pattern.length - pl) := by
          exact htrans (pattern.length - pl) (by omega)
        have h3 : winArgmin h pattern pk (pl - pk + 1) s
            ≤ winArgmin h pattern pk (pl - pk + 1) (pattern.length - pl) :=
          hFPmono s (pattern.length - pl) (by omega)
        omega
  -- starting slot
  have hPPne : minimizerPositions h pk pl pattern ≠ [] :=
    minimizerPositions_ne_nil hlp
  have hM1 : 1 ≤ (minimizerPositions h pk pl pattern).length := by
    rcases hc : minimizerPositions h pk pl pattern with _ | ⟨a, r⟩
    · exact absurd hc hPPne
    · simp
  have hv0 : pos + (minimizerPositions h pk pl pattern).getD 0 0
      ∈ minimizerPositions h pk pl seq := by
    apply hshift
    rw [List.getD_eq_getElem _ _ (by omega)]
    exact List.getElem_mem _
  obtain ⟨t₀, ht₀, ht₀v⟩ := List.mem_iff_getElem.mp hv0
  -- walk the run
  have hstep : ∀ i, i < (minimizerPositions h pk pl pattern).length →
      t₀ + i < (minimizerPositions h pk pl seq).length ∧
      (minimizerPositions h pk pl seq).getD (t₀ + i) 0
        = pos + (minimizerPositions h pk pl pattern).getD i 0 := by
    intro i
    induction i with
    | zero =>
      intro _
      refine ⟨by omega, ?_⟩
      rw [show t₀ + 0 = t₀ by omega, List.getD_eq_getElem _ _ ht₀, ht₀v]
    | succ i ih =>
      intro hi1
      obtain ⟨hti, htv⟩ := ih (by omega)
      have hvm : pos + (minimizerPositions h pk pl pattern).getD (i + 1) 0
          ∈ minimizerPositions h pk pl seq := by
        apply hshift
        rw [List.getD_eq_getElem _ _ hi1]
        exact List.getElem_mem _
      have huv : (minimizerPositions h pk pl pattern).getD i 0
          < (minimizerPositions h pk pl pattern).getD (i + 1) 0 := by
        rw [List.getD_eq_getElem _ _ (show i <
          (minimizerPositions h pk pl pattern).length by omega),
          List.getD_eq_getElem _ _ hi1]
        exact hpg i (i + 1) (by omega) hi1 (by omega)
      have := pairwise_lt_next hBlt hti htv hvm (by omega) (hnb i hi1)
      rw [show t₀ + (i + 1) = t₀ + i + 1 by omega]
      exact this
  refine ⟨t₀, ?_, fun i hi => (hstep i hi).2⟩
  have hlast := hstep ((minimizerPositions h pk pl pattern).length - 1) (by omega)
  omega

/-- A match contained in a well-formed input range passes the
strict-successor range check. -/
theorem succStrict_range_accept {ranges : List (Nat × Nat)} {j pos len : Nat}
    (hbsorted : (rangeBoundaries ranges).Sorted (· ≤ ·))
    (hj : j < ranges.length)
    (hr1 : (ranges.getD j (0, 0)).1 ≤ pos)
    (hr2 : pos + len ≤ (ranges.getD j (0, 0)).2)
    (hlen : 0 < len) :
    ∃ rb, succStrict (rangeBoundaries ranges) pos = some rb ∧ pos + len ≤ rb.2 := by
  have hb1 := rangeBoundaries_getD_fst ranges j hj
  have hb2 := rangeBoundaries_getD_snd ranges j hj
  have hblen := rangeBoundaries_length ranges
  have hj21 : 2 * j + 1 < (rangeBoundaries ranges).length := by omega
  have hgt : pos < (rangeBoundaries ranges).getD (2 * j + 1) 0 := by
    rw [hb2]
    omega
  obtain ⟨rb, hrb⟩ := succStrict_exists hj21 hgt
  obtain ⟨hi, hbv, hxb, hmin⟩ := succStrict_some_spec hrb
  refine ⟨rb, hrb, ?_⟩
  have hle : rb.1 ≤ 2 * j + 1 := by
    by_contra hc
    have := hmin (2 * j + 1) (by omega)
    omega
  have hgt2 : 2 * j < rb.1 := by
    by_contra hc
    push_neg at hc
    have h1 := sorted_getD_le hbsorted hc
      (show 2 * j < (rangeBoundaries ranges).length by omega)
    rw [hb1] at h1
    rw [hbv] at hxb
    omega
  have hre : rb.1 = 2 * j + 1 := by omega
  rw [hbv, hre, hb2]
  omega

/-- **C2.**  Completeness within ranges: every occurrence `pos` of the
pattern whose interval lies inside one input range (boundaries sorted),
with the pattern long enough to sketch and the pattern's first-window
minimizer agreeing with the text's minimizer of the window at `pos`, is
emitted by `UIndex::query` run over a sorted, aligned, complete suffix
array of the minimizer-space string. -/
theorem query_completeness (p : MinimizerParams) (h : Nat → Nat)
    (seq pattern : List Nat) (pos : Nat) (sa : List Nat)
    (ranges : List (Nat × Nat)) (j : Nat)
    (hk : 1 ≤ p.k) (hkl : p.k ≤ p.l) (hlp : p.l ≤ pattern.length)
    (hocc : (seq.drop pos).take pattern.length = pattern)
    (hinb : pos + pattern.length ≤ seq.length)
    (hj : j < ranges.length)
    (hr1 : (ranges.getD j (0, 0)).1 ≤ pos)
    (hr2 : pos + pattern.length ≤ (ranges.getD j (0, 0)).2)
    (hbsorted : (rangeBoundaries ranges).Sorted (· ≤ ·))
    (hminz : winArgmin h seq p.k (p.l - p.k + 1) pos
      = pos + winArgmin h pattern p.k (p.l - p.k + 1) 0)
    (hsaA : ∀ t, t < sa.length →
      (sketchWithStats p h seq).1.kmer_width ∣ sa.getD t 0)
    (hsasorted : ∀ a b, a ≤ b → b < sa.length →
      cmpL ((sketchWithStats p h seq).2.drop (sa.getD a 0))
        ((sketchWithStats p h seq).2.drop (sa.getD b 0)) ≠ .gt)
    (hcontains : ∀ t, t < (sketchWithStats p h seq).1.min_poss.length →
      (sketchWithStats p h seq).1.kmer_width * t ∈ sa) :
    ∃ out,
      uQuery ((sketchWithStats p h seq).1.sketch h)
        (fun msP => saQueryStored sa (sketchWithStats p h seq).1.kmer_width
          (sketchWithStats p h seq).1.min_poss.length (sketchWithStats p h seq).2 msP)
        ((sketchWithStats p h seq).1.msPosToPlainPos)
        (rangeBoundaries ranges) seq pattern = some out ∧
      pos ∈ out := by
  obtain ⟨t₀, hseg_len, hseg⟩ :=
    min_poss_segment p.k p.l h seq pattern pos hk hkl hlp hocc hinb
  have hW1 := kmer_width_pos p h seq hk
  obtain ⟨enc, henc⟩ := remapMinimizerValues_enc p.remap
    (sketchWithStats p h seq).1.kmer_map (sketchWithStats p h seq).1.kmer_width
  have halltext : p.remap = true →
      ∀ v ∈ (minimizerPositions h p.k p.l seq).map (fun q => toWord (kmerAt seq p.k q)),
      (kmLookup (sketchWithStats p h seq).1.kmer_map v).isSome := by
    intro hrm v hv
    have hmw := congrArg Prod.fst (sketch_mw_pair p h seq)
    rw [hrm] at hmw
    simp at hmw
    rw [hmw]
    exact buildKmerMap_lookup_isSome hv
  have hblocksT : ∀ b ∈ (((minimizerPositions h p.k p.l seq).map
      (fun q => toWord (kmerAt seq p.k q))).map enc).map
      (toBEBytes (sketchWithStats p h seq).1.kmer_width),
      b.length = (sketchWithStats p h seq).1.kmer_width := by
    intro b hb
    rcases List.mem_map.mp hb with ⟨v, _, hv⟩
    rw [← hv]
    exact toBEBytes_length _ _
  have hms_eq : (sketchWithStats p h seq).2
      = ((((minimizerPositions h p.k p.l seq).map
          (fun q => toWord (kmerAt seq p.k q))).map enc).map
          (toBEBytes (sketchWithStats p h seq).1.kmer_width)).flatten := by
    rw [sketch_ms, henc _ halltext]
    rfl
  have hPB : ∀ q ∈ minimizerPositions h p.k p.l pattern, q + p.k ≤ pattern.length :=
    @minimizerPositions_bounds h p.k p.l pattern hkl
  have hvals : ∀ i, i < (minimizerPositions h p.k p.l pattern).length →
      ((minimizerPositions h p.k p.l pattern).map
        (fun q => toWord (kmerAt pattern p.k q))).getD i 0
      = ((minimizerPositions h p.k p.l seq).map
        (fun q => toWord (kmerAt seq p.k q))).getD (t₀ + i) 0 := by
    intro i hi
    have hti : t₀ + i < (minimizerPositions h p.k p.l seq).length := by omega
    rw [List.getD_eq_getElem _ _ (by simpa using hi),
      List.getD_eq_getElem _ _ (by simpa using hti)]
    simp only [List.getElem_map]
    have hBt := hseg i hi
    rw [List.getD_eq_getElem _ _ hti, List.getD_eq_getElem _ _ hi] at hBt
    rw [hBt]
    have hmem : (minimizerPositions h p.k p.l pattern)[i]
        ∈ minimizerPositions h p.k p.l pattern := List.getElem_mem hi
    have hkb := hPB _ hmem
    have hkm := kmerAt_translate seq pos pattern.length p.k
      ((minimizerPositions h p.k p.l pattern)[i]) (by omega)
    rw [hocc] at hkm
    rw [hkm]
  have hallpat : p.remap = true →
      ∀ v ∈ (minimizerPositions h p.k p.l pattern).map
        (fun q => toWord (kmerAt pattern p.k q)),
      (kmLookup (sketchWithStats p h seq).1.kmer_map v).isSome := by
    intro hrm v hv
    obtain ⟨i, hi, hvi⟩ := List.mem_iff_getElem.mp hv
    have hi' : i < (minimizerPositions h p.k p.l pattern).length := by simpa using hi
    have hvv := hvals i hi'
    have hti : t₀ + i < (minimizerPositions h p.k p.l seq).length := by omega
    rw [List.getD_eq_getElem _ _ hi,
      List.getD_eq_getElem _ _ (show t₀ + i < ((minimizerPositions h p.k p.l seq).map
        (fun q => toWord (kmerAt seq p.k q))).length by simpa using hti)] at hvv
    apply halltext hrm
    rw [← hvi, hvv]
    exact List.getElem_mem _
  have hmsp := henc _ hallpat
  rcases hPPc : minimizerPositions h p.k p.l pattern with _ | ⟨q₀, PPrest⟩
  · exact absurd hPPc (minimizerPositions_ne_nil hlp)
  have hM1 : 1 ≤ (minimizerPositions h p.k p.l pattern).length := by
    rw [hPPc]
    simp
  have hHead : (minimizerPositions h p.k p.l pattern).head? = some q₀ := by
    rw [hPPc]
    rfl
  have hq₀ : (minimizerPositions h p.k p.l pattern).getD 0 0 = q₀ := by
    rw [hPPc]
    rfl
  have hsk : (sketchWithStats p h seq).1.sketch h pattern
      = .ok (((((minimizerPositions h p.k p.l pattern).map
          (fun q => toWord (kmerAt pattern p.k q))).map enc).map
          (toBEBytes (sketchWithStats p h seq).1.kmer_width)).flatten, q₀) := by
    rw [MinimizerSketcher.sketch, sketch_params, hHead, hmsp]
  have hmspBlocks : ∀ b ∈ (((minimizerPositions h p.k p.l pattern).map
      (fun q => toWord (kmerAt pattern p.k q))).map enc).map
      (toBEBytes (sketchWithStats p h seq).1.kmer_width),
      b.length = (sketchWithStats p h seq).1.kmer_width := by
    intro b hb
    rcases List.mem_map.mp hb with ⟨v, _, hv⟩
    rw [← hv]
    exact toBEBytes_length _ _
  have hmsLen : (sketchWithStats p h seq).2.length
      = (sketchWithStats p h seq).1.min_poss.length
        * (sketchWithStats p h seq).1.kmer_width := by
    rw [hms_eq, flatten_length_blocks _ hblocksT, sketch_min_poss]
    simp
  have hmspLen : (((((minimizerPositions h p.k p.l pattern).map
      (fun q => toWord (kmerAt pattern p.k q))).map enc).map
      (toBEBytes (sketchWithStats p h seq).1.kmer_width)).flatten).length
      = (minimizerPositions h p.k p.l pattern).length
        * (sketchWithStats p h seq).1.kmer_width := by
    rw [flatten_length_blocks _ hmspBlocks]
    simp
  have hpne : ((((minimizerPositions h p.k p.l pattern).map
      (fun q => toWord (kmerAt pattern p.k q))).map enc).map
      (toBEBytes (sketchWithStats p h seq).1.kmer_width)).flatten ≠ [] := by
    intro hc
    have hl := congrArg List.length hc
    rw [hmspLen] at hl
    simp only [List.length_nil] at hl
    rcases Nat.mul_eq_zero.mp hl with h0 | h0 <;> omega
  have hsearch := saSearchStored_spec hW1 hmsLen
    ⟨(minimizerPositions h p.k p.l pattern).length, by rw [hmspLen]; ring⟩
    (by
      intro b hb
      rw [hms_eq] at hb
      exact flatten_toBEBytes_byte_lt hb)
    (fun b hb => flatten_toBEBytes_byte_lt hb)
    hsaA hsasorted hpne
  have ht₀B : t₀ < (sketchWithStats p h seq).1.min_poss.length := by
    rw [sketch_min_poss]
    omega
  have hWt₀mem := hcontains t₀ ht₀B
  obtain ⟨slot, hslot, hslotv⟩ := List.mem_iff_getElem.mp hWt₀mem
  have hslotD : sa.getD slot 0 = (sketchWithStats p h seq).1.kmer_width * t₀ := by
    rw [List.getD_eq_getElem _ _ hslot, hslotv]
  have hpre : ((((minimizerPositions h p.k p.l pattern).map
      (fun q => toWord (kmerAt pattern p.k q))).map enc).map
      (toBEBytes (sketchWithStats p h seq).1.kmer_width)).flatten
      <+: (sketchWithStats p h seq).2.drop
        ((sketchWithStats p h seq).1.kmer_width * t₀) := by
    rw [hms_eq, flatten_drop_blocks t₀ _ hblocksT]
    rw [← List.map_drop]
    apply flatten_map_isPre
    apply prefix_of_getD
    · simp only [List.length_map, List.length_drop]
      omega
    · intro i hi
      simp only [List.length_map] at hi
      have hti : t₀ + i < (minimizerPositions h p.k p.l seq).length := by omega
      rw [List.getD_eq_getElem _ _ (by simpa using hi)]
      rw [List.getD_eq_getElem _ _ (by
        simp only [List.length_drop, List.length_map]
        omega)]
      simp only [List.getElem_map, List.getElem_drop]
      have hvv := hvals i hi
      rw [List.getD_eq_getElem _ _ (by simpa using hi),
        List.getD_eq_getElem _ _ (by simpa using hti)] at hvv
      simp only [List.getElem_map] at hvv
      rw [hvv]
  have htwin := (hsearch.2 slot hslot).mpr (by rw [hslotD]; exact hpre)
  have hmemQ : (sketchWithStats p h seq).1.kmer_width * t₀
      ∈ saQueryStored sa (sketchWithStats p h seq).1.kmer_width
        (sketchWithStats p h seq).1.min_poss.length (sketchWithStats p h seq).2
        ((((minimizerPositions h p.k p.l pattern).map
          (fun q => toWord (kmerAt pattern p.k q))).map enc).map
          (toBEBytes (sketchWithStats p h seq).1.kmer_width)).flatten := by
    rw [saQueryStored]
    apply List.mem_map.mpr
    refine ⟨slot, ?_, hslotD⟩
    apply List.mem_range'_1.mpr
    exact ⟨htwin.1, htwin.2⟩
  have ht₀B' : t₀ < (minimizerPositions h p.k p.l seq).length := by omega
  have hmp : (sketchWithStats p h seq).1.msPosToPlainPos
      ((sketchWithStats p h seq).1.kmer_width * t₀) = some (pos + q₀) := by
    rw [MinimizerSketcher.msPosToPlainPos]
    rw [if_neg (by simp [Nat.mul_mod_right])]
    rw [Nat.mul_div_cancel_left t₀ (by omega)]
    rw [sketch_min_poss]
    rw [List.get?_eq_getElem?, List.getElem?_eq_getElem ht₀B']
    have h0 := hseg 0 (by omega)
    rw [hq₀] at h0
    rw [show t₀ + 0 = t₀ from by omega] at h0
    rw [List.getD_eq_getElem _ _ ht₀B'] at h0
    rw [h0]
  obtain ⟨rb, hrb, hrb2⟩ := succStrict_range_accept hbsorted hj hr1 hr2 (by omega)
  have hcheck : uCheckCandidate seq pattern
      ((sketchWithStats p h seq).1.msPosToPlainPos) q₀ (rangeBoundaries ranges)
      ((sketchWithStats p h seq).1.kmer_width * t₀) = some pos := by
    simp only [uCheckCandidate, hmp]
    rw [if_neg (show ¬(pos + q₀ < q₀) by omega)]
    rw [show pos + q₀ - q₀ = pos from by omega]
    rw [if_neg (show ¬(pos + pattern.length > seq.length) by omega)]
    rw [if_neg (show ¬((seq.drop pos).take pattern.length ≠ pattern) from by
      simp [hocc])]
    simp only [hrb]
    rw [if_neg (show ¬(pos + pattern.length > rb.2) by omega)]
  refine ⟨(saQueryStored sa (sketchWithStats p h seq).1.kmer_width
      (sketchWithStats p h seq).1.min_poss.length (sketchWithStats p h seq).2
      ((((minimizerPositions h p.k p.l pattern).map
        (fun q => toWord (kmerAt pattern p.k q))).map enc).map
        (toBEBytes (sketchWithStats p h seq).1.kmer_width)).flatten).filterMap
      (uCheckCandidate seq pattern ((sketchWithStats p h seq).1.msPosToPlainPos) q₀
        (rangeBoundaries ranges)), ?_, ?_⟩
  · rw [uQuery, hsk]
  · apply List.mem_filterMap.mpr
    exact ⟨(sketchWithStats p h seq).1.kmer_width * t₀, hmemQ, hcheck⟩

/-- Witness for `query_completeness`: text `1 2 1`, single range `[0, 3)`,
`k = l = 1`, suffix array `[2, 0, 1]`, pattern `2 1` occurring at `pos = 1`. -/
theorem query_completeness_witness :
    ∃ out,
      uQuery ((sketchWithStats ⟨1, 1, false, false⟩ (fun v => v) [1, 2, 1]).1.sketch
          (fun v => v))
        (fun msP => saQueryStored [2, 0, 1]
          (sketchWithStats ⟨1, 1, false, false⟩ (fun v => v) [1, 2, 1]).1.kmer_width
          (sketchWithStats ⟨1, 1, false, false⟩ (fun v => v) [1, 2, 1]).1.min_poss.length
          (sketchWithStats ⟨1, 1, false, false⟩ (fun v => v) [1, 2, 1]).2 msP)
        ((sketchWithStats ⟨1, 1, false, false⟩ (fun v => v) [1, 2, 1]).1.msPosToPlainPos)
        (rangeBoundaries [(0, 3)]) [1, 2, 1] [2, 1] = some out ∧
      1 ∈ out :=
  query_completeness ⟨1, 1, false, false⟩ (fun v => v) [1, 2, 1] [2, 1] 1 [2, 0, 1]
    [(0, 3)] 0 (by decide) (by decide) (by decide) (by decide) (by decide)
    (by decide) (by decide) (by decide) (by decide) (by decide)
    (by
      intro t ht
      rw [show (sketchWithStats ⟨1, 1, false, false⟩ (fun v => v) [1, 2, 1]).1.kmer_width
        = 1 from by decide]
      exact one_dvd _)
    (by
      intro a b hab hb
      have hb3 : b < 3 := by simpa using hb
      interval_cases b <;> interval_cases a <;> decide)
    (by
      intro t ht
      have ht3 : t < 3 := by
        have hlen : (sketchWithStats ⟨1, 1, false, false⟩
            (fun v => v) [1, 2, 1]).1.min_poss.length = 3 := by decide
        omega
      interval_cases t <;> decide)
